import Mathlib

/-!
# Verification of the lattigo RNS ring / evaluator specification

Shallow embedding of the `ring`, `bfv` and `ckks` packages of the
repository, together with proofs settling the claims C1-C10 about the
natural-language specification.

Machine integers (`uint64`) are modelled as `ℕ`; wrap-around is written
explicitly as `% 2^64` at the places where the Go code can underflow or
overflow.  Scalar primitives of the `ring` package whose sources are not
part of the provided files (`MRed`, `BRedAdd`, `MForm`, `ModExp`,
`IsPrime`, `primitiveRoot`, `bitReverse64`, `hammingWeight64` and the
row-wise polynomial operations) are modelled from the specification and
carry a doc comment saying so.
-/

/-- `2^64`, the machine word. -/
def W64 : ℕ := 2 ^ 64

/-- Modelled from the spec: `IsPrime(q)` via Miller-Rabin with a witness set
sufficient for 64-bit integers, i.e. exact primality on the relevant range. -/
def isPrime (q : ℕ) : Bool := Nat.Prime q

/-- Modelled from the spec: `BRedAdd(x, q)` returns `x mod q` for a single
residue. -/
def bredAdd (x q : ℕ) : ℕ := x % q

/-- Modelled from the spec: the Montgomery constant `R^{-1} mod q`
(`R = 2^64`), as precomputed from `MRedParams(q)`; defined through the
extended gcd so that it is executable. -/
def rInv (q : ℕ) : ℕ := (((Nat.xgcd (W64 % q) q).1 % (q : ℤ)).toNat) % q

/-- Modelled from the spec: `MRed(x, y, q) = x·y·R^{-1} mod q` in `[0, q)`. -/
def mRed (x y q : ℕ) : ℕ := (x * y * rInv q) % q

/-- Modelled from the spec: `MRedConstant(x, y, q)`, same value as `MRed`
modulo `q` with a lazy range `[0, 2q)`; we take the canonical representative,
which lies inside the allowed range. -/
def mRedConstant (x y q : ℕ) : ℕ := (x * y * rInv q) % q

/-- Modelled from the spec: `MForm(x, q) = x·R mod q`. -/
def mForm (x q : ℕ) : ℕ := (x * W64) % q

/-- Modelled from the spec: `ModExp(base, exp, q)` by square-and-multiply,
i.e. `base^exp mod q`. -/
def modExp (base exp q : ℕ) : ℕ := (base ^ exp) % q

/-- Modelled from the spec: `hammingWeight64(x)`, the binary Hamming weight. -/
def hammingWeight64 (x : ℕ) : ℕ :=
  if h : x = 0 then 0 else x % 2 + hammingWeight64 (x / 2)
decreasing_by exact Nat.div_lt_self (Nat.pos_of_ne_zero h) (by omega)

/-- A natural is a primitive root mod `q` when it has full order `q - 1`:
no smaller positive power is `1` and the `(q-1)`-th power is `1`.
Executable decision used by `primitiveRoot`. -/
def isPrimRootNat (g q : ℕ) : Bool :=
  decide (g % q ≠ 0) &&
  decide (g ^ (q - 1) % q = 1) &&
  decide (∀ k < q - 1, 0 < k → g ^ k % q ≠ 1)

/-- Modelled from the spec: `PrimitiveRoot(q)` finds a generator of
`(ℤ/q)^*` (the source searches by trial on the divisors of `q-1`); we take
the least one. -/
def primitiveRoot (q : ℕ) : ℕ :=
  (((List.range q).find? (fun g => isPrimRootNat g q)).getD 0)

/-- Uint64 subtraction with wrap-around. -/
def sub64 (a b : ℕ) : ℕ := (a % W64 + (W64 - b % W64)) % W64

lemma sub64_eq (a b : ℕ) (ha : a < W64) (hb : b ≤ a) : sub64 a b = a - b := by
  unfold sub64
  have hbW : b < W64 := lt_of_le_of_lt hb ha
  have hW : 0 < W64 := by unfold W64; positivity
  rw [Nat.mod_eq_of_lt ha, Nat.mod_eq_of_lt hbW]
  have h1 : a + (W64 - b) = W64 + (a - b) := by omega
  rw [h1, Nat.add_mod_left, Nat.mod_eq_of_lt (by omega)]

lemma sub64_zero_one : sub64 0 1 = W64 - 1 := by
  unfold sub64
  simp [W64]

/-- `x &&& (2^n - 1) = x % 2^n`. -/
lemma and_two_pow_sub_one_eq_mod (x n : ℕ) : x &&& (2 ^ n - 1) = x % 2 ^ n := by
  apply Nat.eq_of_testBit_eq
  intro i
  rw [Nat.testBit_and, Nat.testBit_two_pow_sub_one, Nat.testBit_mod_two_pow,
    Bool.and_comm]

/-! ## C9 : ring `Context` parameter lifecycle

Embeds `Context.SetParameters` (part_002 lines 57-101), `Context.GenNTTParams`
(part_002 lines 106-187) and `Context.AllowsNTT` (part_002 lines 283-286).
Only the fields involved in the claim are carried (`N`, `Modulus`,
`allowsNTT`); the NTT tables computed by `GenNTTParams` are embedded
separately (section on C4) as functions of `N` and the modulus. -/

/-- The parameter state of a `ring.Context`: ring degree, moduli slice
(`none` models a nil Go slice) and the `allowsNTT` flag. -/
structure RCtxState where
  N : ℕ
  Modulus : Option (List ℕ)
  allowsNTT : Bool
deriving DecidableEq, Repr

/-- `ring.NewContext()`: a new empty context. -/
def rNewContext : RCtxState := ⟨0, none, false⟩

/-- `Context.AllowsNTT()`. -/
def rAllowsNTT (c : RCtxState) : Bool := c.allowsNTT

/-- `Context.SetParameters(N, Modulus)`: rejects `N` that is not a power of
two (per the source condition `(N&(N-1)) != 0 && N != 0`), otherwise resets
`allowsNTT` and installs the parameters.  Returns the updated state and an
optional error message, mirroring Go's mutate-and-return-error shape. -/
def rSetParameters (c : RCtxState) (N : ℕ) (mods : List ℕ) :
    RCtxState × Option String :=
  if (N &&& (N - 1)) ≠ 0 ∧ N ≠ 0 then
    (c, some "invalid ring degree (must be a power of 2)")
  else
    ({ N := N, Modulus := some mods, allowsNTT := false }, none)

/-- The per-modulus test of `GenNTTParams`: the source condition
`IsPrime(qi) == false || qi&((context.N<<1)-1) != 1`, with the uint64
wrap-around of `(N<<1)-1` made explicit. -/
def rModulusFailsNTT (N qi : ℕ) : Bool :=
  !(isPrime qi) || decide (qi &&& sub64 (2 * N) 1 ≠ 1)

/-- `Context.GenNTTParams()` restricted to the fields of the claim: early
success when `allowsNTT` already holds, the missing-parameter check, and the
prime-and-congruence check over the moduli (the table computation that
follows in the source is embedded separately).  Returns the updated state
and an optional error. -/
def rGenNTTParams (c : RCtxState) : RCtxState × Option String :=
  if c.allowsNTT then (c, none)
  else if c.N = 0 ∨ c.Modulus = none then
    (c, some "error : invalid context parameters (missing)")
  else if (c.Modulus.getD []).any (fun qi => rModulusFailsNTT c.N qi) then
    ({ c with allowsNTT := false },
      some "warning : provided modulus does not allow NTT")
  else
    ({ c with allowsNTT := true }, none)

/-- C9 counterexample: on the fresh context (before `SetParameters`),
`GenNTTParams` returns an error although no modulus of the context fails the
prime-and-congruence test (there are no moduli at all), refuting that an
error occurs exactly when some modulus fails it.  The same happens after
`SetParameters(0, [])`, which the source accepts. -/
theorem C9_counterexample :
    ((rGenNTTParams rNewContext).2.isSome = true ∧
      ∀ q ∈ (rNewContext.Modulus.getD []), rModulusFailsNTT rNewContext.N q = false) ∧
    ((rSetParameters rNewContext 0 []).2 = none ∧
      (rGenNTTParams (rSetParameters rNewContext 0 []).1).2.isSome = true ∧
      ∀ q ∈ ((rSetParameters rNewContext 0 []).1.Modulus.getD []),
        rModulusFailsNTT (rSetParameters rNewContext 0 []).1.N q = false) := by
  constructor
  · constructor
    · rfl
    · intro q hq
      simp [rNewContext] at hq
  · refine ⟨rfl, rfl, ?_⟩
    intro q hq
    simp [rSetParameters, rNewContext] at hq

/-- C9 (amended): `GenNTTParams` errors exactly when the context does not
already allow the NTT and either the parameters are missing (`N = 0` or a
nil modulus slice) or some modulus is not prime or not congruent to
`1 mod 2N`; on an error the context reports `AllowsNTT() = false`; and a
freshly parameterized context always reports `AllowsNTT() = false`.  For a
power-of-two ring degree the source's mask test coincides with the
mathematical congruence. -/
theorem C9_allowsNTT_lifecycle (c : RCtxState) (N : ℕ) (mods : List ℕ) :
    ((rGenNTTParams c).2.isSome = true ↔
      (c.allowsNTT = false ∧
        (c.N = 0 ∨ c.Modulus = none ∨
          ∃ q ∈ c.Modulus.getD [], rModulusFailsNTT c.N q = true))) ∧
    ((rGenNTTParams c).2.isSome = true → rAllowsNTT (rGenNTTParams c).1 = false) ∧
    ((rGenNTTParams c).2 = none → c.allowsNTT = false → c.N ≠ 0 →
        rAllowsNTT (rGenNTTParams c).1 = true) ∧
    ((rSetParameters c N mods).2 = none →
        rAllowsNTT (rSetParameters c N mods).1 = false) ∧
    (∀ n : ℕ, n ≤ 63 → c.N = 2 ^ n → ∀ q,
      (rModulusFailsNTT c.N q = true ↔ (¬ Nat.Prime q ∨ q % (2 * c.N) ≠ 1))) := by
  refine ⟨?_, ?_, ?_, ?_, ?_⟩
  · unfold rGenNTTParams
    by_cases h1 : c.allowsNTT
    · simp [h1]
    · rw [if_neg (by simpa using h1)]
      by_cases h2 : c.N = 0 ∨ c.Modulus = none
      · rw [if_pos h2]
        simp only [Option.isSome_some, true_iff]
        exact ⟨by simpa using h1, by tauto⟩
      · rw [if_neg h2]
        by_cases h3 : (c.Modulus.getD []).any (fun qi => rModulusFailsNTT c.N qi) = true
        · rw [if_pos h3]
          simp only [Option.isSome_some, true_iff]
          exact ⟨by simpa using h1,
            Or.inr (Or.inr (List.any_eq_true.mp h3))⟩
        · rw [if_neg h3]
          simp only [Option.isSome_none, Bool.false_eq_true, false_iff]
          rintro ⟨-, h | h | ⟨q, hq, hfail⟩⟩
          · exact h2 (Or.inl h)
          · exact h2 (Or.inr h)
          · exact h3 (List.any_eq_true.mpr ⟨q, hq, hfail⟩)
  · unfold rGenNTTParams rAllowsNTT
    by_cases h1 : c.allowsNTT
    · simp [h1]
    · by_cases h2 : c.N = 0 ∨ c.Modulus = none
      · simp [h1, h2]
      · by_cases h3 : (c.Modulus.getD []).any (fun qi => rModulusFailsNTT c.N qi)
        · simp [h1, h2, h3]
        · simp [h1, h2, h3]
  · unfold rGenNTTParams rAllowsNTT
    intro h hfalse hN
    by_cases h2 : c.N = 0 ∨ c.Modulus = none
    · simp [hfalse, h2] at h
    · by_cases h3 : (c.Modulus.getD []).any (fun qi => rModulusFailsNTT c.N qi)
      · simp [hfalse, h2, h3] at h
      · simp [hfalse, h2, h3]
  · unfold rSetParameters rAllowsNTT
    by_cases h : (N &&& (N - 1)) ≠ 0 ∧ N ≠ 0
    · simp [h]
    · simp [h]
  · intro n hn hN q
    unfold rModulusFailsNTT
    have h2N : 2 * c.N = 2 ^ (n + 1) := by rw [hN]; ring
    have hmask : sub64 (2 * c.N) 1 = 2 ^ (n + 1) - 1 := by
      rcases Nat.lt_or_ge (n + 1) 64 with h | h
      · rw [h2N]
        have := sub64_eq (2 ^ (n + 1)) 1
          (Nat.pow_lt_pow_right (by omega) h) Nat.one_le_two_pow
        simpa using this
      · have h64 : n + 1 = 64 := by omega
        rw [h2N, h64]
        unfold sub64 W64
        norm_num
    rw [hmask, and_two_pow_sub_one_eq_mod, h2N]
    simp [isPrime]

/-! ## Polynomials and row-wise ring operations

A `ring.Poly` is a dense matrix of residues `Coeffs[i][j]`, one row per
modulus.  The row-wise context operations (`Add`, `Sub`, `Neg`, `Reduce`,
`MulByPow2`, Montgomery products, ...) are not part of the provided source
files; they are modelled from the spec (§4.4) as coefficient-wise modular
operations over the moduli of the (level) context.  Rows beyond the moduli
of the context are not touched by the source loops; crashes of the source
(out-of-range row accesses) surface as `Option.none` in the evaluator
embeddings that need them. -/

/-- `ring.Poly`: the coefficient matrix. -/
structure RPoly where
  Coeffs : List (List ℕ)
deriving DecidableEq

/-- Coefficient access `p.Coeffs[i][j]` (total, for stating equalities). -/
def polyGet (p : RPoly) (i j : ℕ) : ℕ := (p.Coeffs.getD i []).getD j 0

/-- Modelled from the spec: `Context.Reduce` canonicalizes row `i` to
`[0, q_i)` for every modulus of the context. -/
def ringReduce (mods : List ℕ) (p : RPoly) : RPoly :=
  ⟨p.Coeffs.mapIdx (fun i row =>
    match mods.get? i with
    | some q => row.map (fun x => bredAdd x q)
    | none => row)⟩

/-- Modelled from the spec: `Context.Add`, coefficient-wise `(x+y) mod q_i`. -/
def ringAdd (mods : List ℕ) (p1 p2 : RPoly) : RPoly :=
  ⟨p1.Coeffs.mapIdx (fun i row =>
    match mods.get? i with
    | some q => (row.zip ((p2.Coeffs.getD i []))).map (fun xy => (xy.1 + xy.2) % q)
    | none => row)⟩

/-- Modelled from the spec: `Context.Sub`, coefficient-wise
`(x + q_i - y) mod q_i`. -/
def ringSub (mods : List ℕ) (p1 p2 : RPoly) : RPoly :=
  ⟨p1.Coeffs.mapIdx (fun i row =>
    match mods.get? i with
    | some q => (row.zip ((p2.Coeffs.getD i []))).map
        (fun xy => (xy.1 + (q - xy.2 % q)) % q)
    | none => row)⟩

/-- Modelled from the spec: `Context.Neg`, coefficient-wise `(q_i - x) mod q_i`. -/
def ringNeg (mods : List ℕ) (p : RPoly) : RPoly :=
  ⟨p.Coeffs.mapIdx (fun i row =>
    match mods.get? i with
    | some q => row.map (fun x => (q - x % q) % q)
    | none => row)⟩

/-- Modelled from the spec: `Context.MulByPow2`, coefficient-wise
`x · 2^pow2 mod q_i`. -/
def ringMulByPow2 (mods : List ℕ) (pow2 : ℕ) (p : RPoly) : RPoly :=
  ⟨p.Coeffs.mapIdx (fun i row =>
    match mods.get? i with
    | some q => row.map (fun x => (x * 2 ^ pow2) % q)
    | none => row)⟩

/-- Modelled from the spec: `Context.AddNoMod`, coefficient-wise `x + y`
without reduction. -/
def ringAddNoMod (mods : List ℕ) (p1 p2 : RPoly) : RPoly :=
  ⟨p1.Coeffs.mapIdx (fun i row =>
    match mods.get? i with
    | some _ => (row.zip ((p2.Coeffs.getD i []))).map (fun xy => xy.1 + xy.2)
    | none => row)⟩

/-- Modelled from the spec: `Context.MulCoeffsMontgomery`, coefficient-wise
`MRed(x, y, q_i)` (one operand in Montgomery form). -/
def ringMulCoeffsMontgomery (mods : List ℕ) (p1 p2 : RPoly) : RPoly :=
  ⟨p1.Coeffs.mapIdx (fun i row =>
    match mods.get? i with
    | some q => (row.zip ((p2.Coeffs.getD i []))).map (fun xy => mRed xy.1 xy.2 q)
    | none => row)⟩

/-- Modelled from the spec: `Context.MulCoeffsMontgomeryAndAddNoMod`,
accumulating `acc + MRedConstant(x, y, q_i)` coefficient-wise without
reduction. -/
def ringMulCoeffsMontgomeryAndAddNoMod (mods : List ℕ) (p1 p2 acc : RPoly) :
    RPoly :=
  ⟨acc.Coeffs.mapIdx (fun i row =>
    match mods.get? i with
    | some q => (row.zip (((p1.Coeffs.getD i []).zip (p2.Coeffs.getD i [])))).map
        (fun v => v.1 + mRedConstant v.2.1 v.2.2 q)
    | none => row)⟩

/-- Modelled from the spec: `Context.MForm`, coefficient-wise `x·R mod q_i`. -/
def ringMForm (mods : List ℕ) (p : RPoly) : RPoly :=
  ⟨p.Coeffs.mapIdx (fun i row =>
    match mods.get? i with
    | some q => row.map (fun x => mForm x q)
    | none => row)⟩

/-- All residues of the first `L` rows canonical: `Coeffs[i][j] < q_i`. -/
def polyReduced (mods : List ℕ) (N : ℕ) (p : RPoly) : Prop :=
  ∀ i < mods.length, ∀ j < N, polyGet p i j < mods.getD i 0

/-! ## C10 : `Context.Equal` reduces its arguments in place

Embeds `Context.Equal` (part_002 lines 509-533).  The Go method mutates the
two argument polynomials through `context.Reduce(p, p)`; the embedding
returns the post-call arguments alongside the boolean result. -/

/-- `Context.Equal(p1, p2)`: per-modulus row-length pre-check (early `false`
without reduction), then in-place reduction of both arguments, then
coefficient-wise comparison over every modulus row and the `N` coefficient
positions.  Returns `(result, p1 after call, p2 after call)`. -/
def ctxEqual (N : ℕ) (mods : List ℕ) (p1 p2 : RPoly) : Bool × RPoly × RPoly :=
  if (List.range mods.length).any (fun i =>
      (p1.Coeffs.getD i []).length ≠ (p2.Coeffs.getD i []).length) then
    (false, p1, p2)
  else
    let p1' := ringReduce mods p1
    let p2' := ringReduce mods p2
    (decide (∀ i < mods.length, ∀ j < N, polyGet p1' i j = polyGet p2' i j),
      p1', p2')

/-- C10: `Context.Equal` is not observationally pure: after the call both
arguments have been reduced in place to the canonical range (for well-formed
inputs the early length check never fires), and the result is `true` exactly
when the canonically reduced residues of `p1` and `p2` agree coefficient-wise
over every modulus of the context. -/
theorem C10_ctxEqual_reduces_and_compares (N : ℕ) (mods : List ℕ)
    (p1 p2 : RPoly)
    (h1 : p1.Coeffs.length = mods.length) (h2 : p2.Coeffs.length = mods.length)
    (hr1 : ∀ r ∈ p1.Coeffs, r.length = N) (hr2 : ∀ r ∈ p2.Coeffs, r.length = N) :
    (ctxEqual N mods p1 p2).2.1 = ringReduce mods p1 ∧
    (ctxEqual N mods p1 p2).2.2 = ringReduce mods p2 ∧
    ((ctxEqual N mods p1 p2).1 = true ↔
      ∀ i < mods.length, ∀ j < N,
        polyGet (ringReduce mods p1) i j = polyGet (ringReduce mods p2) i j) := by
  have hpre : ((List.range mods.length).any (fun i =>
      (p1.Coeffs.getD i []).length ≠ (p2.Coeffs.getD i []).length)) = false := by
    rw [List.any_eq_false]
    intro i hi
    rw [List.mem_range] at hi
    have hi1 : i < p1.Coeffs.length := by omega
    have hi2 : i < p2.Coeffs.length := by omega
    have e1 : (p1.Coeffs.getD i []).length = N := by
      rw [List.getD_eq_getElem _ _ hi1]
      exact hr1 _ (List.getElem_mem hi1)
    have e2 : (p2.Coeffs.getD i []).length = N := by
      rw [List.getD_eq_getElem _ _ hi2]
      exact hr2 _ (List.getElem_mem hi2)
    simp only [List.getD_eq_getElem?_getD] at e1 e2 ⊢
    simp [e1, e2]
  unfold ctxEqual
  rw [hpre]
  simp only [Bool.false_eq_true, if_false, decide_eq_true_eq]
  exact ⟨trivial, trivial, trivial⟩

/-- C10 witness: a concrete call showing the in-place mutation (the first
argument comes back reduced, different from what was passed) and a `true`
result exactly on agreeing canonical residues. -/
theorem C10_ctxEqual_witness :
    ((ctxEqual 1 [3] ⟨[[4]]⟩ ⟨[[1]]⟩).2.1 = ringReduce [3] ⟨[[4]]⟩ ∧
      (ctxEqual 1 [3] ⟨[[4]]⟩ ⟨[[1]]⟩).2.2 = ringReduce [3] ⟨[[1]]⟩ ∧
      ((ctxEqual 1 [3] ⟨[[4]]⟩ ⟨[[1]]⟩).1 = true ↔
        ∀ i < (1:ℕ), ∀ j < (1:ℕ),
          polyGet (ringReduce [3] ⟨[[4]]⟩) i j =
          polyGet (ringReduce [3] ⟨[[1]]⟩) i j)) ∧
    (ctxEqual 1 [3] ⟨[[4]]⟩ ⟨[[1]]⟩).2.1 ≠ ⟨[[4]]⟩ ∧
    (ctxEqual 1 [3] ⟨[[4]]⟩ ⟨[[1]]⟩).1 = true := by
  refine ⟨?_, by decide, by decide⟩
  exact C10_ctxEqual_reduces_and_compares 1 [3] ⟨[[4]]⟩ ⟨[[1]]⟩ (by decide)
    (by decide) (by decide) (by decide)

/-! ## Ciphertext elements

`bfvElement` carries a vector of polynomials and an NTT flag; `ckksElement`
additionally carries the scale, and its level is derived from the number of
active rows of its first polynomial (`Level() = len(value[0].Coeffs) - 1`,
operand.go lines 51-53).  The `currentModulus` bookkeeping field is not
observable through the claims and is not carried. -/

/-- `bfv.bfvElement`. -/
structure BfvElem where
  value : List RPoly
  isNTT : Bool
deriving DecidableEq

/-- `Degree()` of a bfv element: `len(value) - 1`. -/
def BfvElem.degree (e : BfvElem) : ℕ := e.value.length - 1

/-- `ckks.ckksElement`. -/
structure CkksElem where
  value : List RPoly
  scale : ℕ
  isNTT : Bool
deriving DecidableEq

/-- `Degree()` of a ckks element: `len(value) - 1`. -/
def CkksElem.degree (e : CkksElem) : ℕ := e.value.length - 1

/-- `Level()` of a ckks element: `len(value[0].Coeffs) - 1`. -/
def CkksElem.level (e : CkksElem) : ℕ := (e.value.getD 0 ⟨[]⟩).Coeffs.length - 1

/-! ## C7 : precondition checks of the binary evaluator entry points

Embeds `Evaluator.getElemAndCheckBinary` of the Scheme-I evaluator
(part_000 lines 40-55) and of the Scheme-A evaluator (operand.go lines
203-217).  Every binary entry point (`Add`, `AddNoMod`, `Sub`, `SubNoMod`,
`Mul`/`MulRelin`) calls this function first, before touching any state, with
`opOutMinDegree` the minimum receiver degree of the operation (the maximum
of the operand degrees for the additive family, the degree sum for
Scheme-I `Mul`). -/

/-- Scheme-I `Evaluator.getElemAndCheckBinary`: `nil` operands, two
plaintexts, and too-small receivers are rejected with fixed error strings,
in this order, before any computation. -/
def bfvGetElemAndCheckBinary (op0 op1 opOut : Option BfvElem)
    (opOutMinDegree : ℕ) : Except String (BfvElem × BfvElem × BfvElem) :=
  if op0 = none ∨ op1 = none ∨ opOut = none then
    Except.error "operands cannot be nil"
  else
    let e0 := op0.getD ⟨[], false⟩
    let e1 := op1.getD ⟨[], false⟩
    let eOut := opOut.getD ⟨[], false⟩
    if e0.degree + e1.degree = 0 then
      Except.error "operands cannot be both plaintext"
    else if eOut.degree < opOutMinDegree then
      Except.error "receiver operand degree is too small"
    else Except.ok (e0, e1, eOut)

/-- Scheme-A `Evaluator.getElemAndCheckBinary`: same checks, same strings,
same order. -/
def ckksGetElemAndCheckBinary (op0 op1 opOut : Option CkksElem)
    (opOutMinDegree : ℕ) : Except String (CkksElem × CkksElem × CkksElem) :=
  if op0 = none ∨ op1 = none ∨ opOut = none then
    Except.error "operands cannot be nil"
  else
    let e0 := op0.getD ⟨[], 0, false⟩
    let e1 := op1.getD ⟨[], 0, false⟩
    let eOut := opOut.getD ⟨[], 0, false⟩
    if e0.degree + e1.degree = 0 then
      Except.error "operands cannot be both plaintext"
    else if eOut.degree < opOutMinDegree then
      Except.error "receiver operand degree is too small"
    else Except.ok (e0, e1, eOut)

/-- C7: in both schemes the binary-operation checker returns
`operands cannot be nil` exactly when an input or the receiver is nil,
`operands cannot be both plaintext` exactly when (all non-nil and) both
inputs have degree 0, and `receiver operand degree is too small` exactly
when (all non-nil, not both plaintext and) the receiver degree is below the
required minimum; otherwise it succeeds.  The checks precede any
computation: on an error nothing else has been evaluated, and the entry
points return the error unchanged. -/
theorem C7_getElemAndCheckBinary_errors :
    (∀ (op0 op1 opOut : Option BfvElem) (minDeg : ℕ),
      (bfvGetElemAndCheckBinary op0 op1 opOut minDeg =
          Except.error "operands cannot be nil" ↔
        op0 = none ∨ op1 = none ∨ opOut = none) ∧
      (bfvGetElemAndCheckBinary op0 op1 opOut minDeg =
          Except.error "operands cannot be both plaintext" ↔
        (op0 ≠ none ∧ op1 ≠ none ∧ opOut ≠ none) ∧
          (op0.getD ⟨[], false⟩).degree + (op1.getD ⟨[], false⟩).degree = 0) ∧
      (bfvGetElemAndCheckBinary op0 op1 opOut minDeg =
          Except.error "receiver operand degree is too small" ↔
        (op0 ≠ none ∧ op1 ≠ none ∧ opOut ≠ none) ∧
          (op0.getD ⟨[], false⟩).degree + (op1.getD ⟨[], false⟩).degree ≠ 0 ∧
          (opOut.getD ⟨[], false⟩).degree < minDeg)) ∧
    (∀ (op0 op1 opOut : Option CkksElem) (minDeg : ℕ),
      (ckksGetElemAndCheckBinary op0 op1 opOut minDeg =
          Except.error "operands cannot be nil" ↔
        op0 = none ∨ op1 = none ∨ opOut = none) ∧
      (ckksGetElemAndCheckBinary op0 op1 opOut minDeg =
          Except.error "operands cannot be both plaintext" ↔
        (op0 ≠ none ∧ op1 ≠ none ∧ opOut ≠ none) ∧
          (op0.getD ⟨[], 0, false⟩).degree + (op1.getD ⟨[], 0, false⟩).degree = 0) ∧
      (ckksGetElemAndCheckBinary op0 op1 opOut minDeg =
          Except.error "receiver operand degree is too small" ↔
        (op0 ≠ none ∧ op1 ≠ none ∧ opOut ≠ none) ∧
          (op0.getD ⟨[], 0, false⟩).degree + (op1.getD ⟨[], 0, false⟩).degree ≠ 0 ∧
          (opOut.getD ⟨[], 0, false⟩).degree < minDeg)) := by
  constructor
  · intro op0 op1 opOut minDeg
    unfold bfvGetElemAndCheckBinary
    by_cases h1 : op0 = none ∨ op1 = none ∨ opOut = none
    · rw [if_pos h1]
      refine ⟨⟨fun _ => h1, fun _ => rfl⟩, ?_, ?_⟩ <;>
        · constructor
          · intro h; exact absurd h (by simp)
          · rintro ⟨⟨a, b, c⟩, -⟩; exact absurd h1 (by tauto)
    · rw [if_neg h1]
      push_neg at h1
      by_cases h2 : (op0.getD ⟨[], false⟩).degree + (op1.getD ⟨[], false⟩).degree = 0
      · rw [if_pos h2]
        refine ⟨?_, ⟨fun _ => ⟨h1, h2⟩, fun _ => rfl⟩, ?_⟩ <;>
          · constructor
            · intro h; exact absurd h (by simp)
            · intro h
              first
              | exact absurd (Or.inl h) (by simp)
              | exact absurd h2 (by tauto)
      · rw [if_neg h2]
        by_cases h3 : (opOut.getD ⟨[], false⟩).degree < minDeg
        · rw [if_pos h3]
          refine ⟨?_, ?_, ⟨fun _ => ⟨h1, h2, h3⟩, fun _ => rfl⟩⟩ <;>
            · constructor
              · intro h; exact absurd h (by simp)
              · intro h
                first
                | exact absurd h1 (by tauto)
                | exact absurd h2 (by tauto)
        · rw [if_neg h3]
          refine ⟨?_, ?_, ?_⟩ <;>
            · constructor
              · intro h; exact absurd h (by simp)
              · intro h
                first
                | exact absurd h1 (by tauto)
                | exact absurd h2 (by tauto)
                | exact absurd h3 (by tauto)
  · intro op0 op1 opOut minDeg
    unfold ckksGetElemAndCheckBinary
    by_cases h1 : op0 = none ∨ op1 = none ∨ opOut = none
    · rw [if_pos h1]
      refine ⟨⟨fun _ => h1, fun _ => rfl⟩, ?_, ?_⟩ <;>
        · constructor
          · intro h; exact absurd h (by simp)
          · rintro ⟨⟨a, b, c⟩, -⟩; exact absurd h1 (by tauto)
    · rw [if_neg h1]
      push_neg at h1
      by_cases h2 : (op0.getD ⟨[], 0, false⟩).degree + (op1.getD ⟨[], 0, false⟩).degree = 0
      · rw [if_pos h2]
        refine ⟨?_, ⟨fun _ => ⟨h1, h2⟩, fun _ => rfl⟩, ?_⟩ <;>
          · constructor
            · intro h; exact absurd h (by simp)
            · intro h
              first
              | exact absurd (Or.inl h) (by simp)
              | exact absurd h2 (by tauto)
      · rw [if_neg h2]
        by_cases h3 : (opOut.getD ⟨[], 0, false⟩).degree < minDeg
        · rw [if_pos h3]
          refine ⟨?_, ?_, ⟨fun _ => ⟨h1, h2, h3⟩, fun _ => rfl⟩⟩ <;>
            · constructor
              · intro h; exact absurd h (by simp)
              · intro h
                first
                | exact absurd h1 (by tauto)
                | exact absurd h2 (by tauto)
        · rw [if_neg h3]
          refine ⟨?_, ?_, ?_⟩ <;>
            · constructor
              · intro h; exact absurd h (by simp)
              · intro h
                first
                | exact absurd h1 (by tauto)
                | exact absurd h2 (by tauto)
                | exact absurd h3 (by tauto)

/-! ## C6 : `RotateColumns`

Embeds the decision structure of `Evaluator.RotateColumns` of Scheme-I
(part_000 lines 428-472) and of Scheme-A (operand.go lines 1446-1489),
together with the power-of-two decomposition loop `rotateColumnsPow2`
(part_000 lines 485-521, operand.go lines 1499-1523).  The Galois
permutation plus key-switch applied on each path is recorded as an abstract
`RotAction`; the claim is about which path is taken and which sequence of
switching keys is applied. -/

/-- The rotation-key table: presence of the left/right switching key for
each rotation amount (`evakeyRotColLeft` / `evakeyRotColRight`). -/
structure RotKeyTable where
  left : ℕ → Bool
  right : ℕ → Bool

/-- What a `RotateColumns` call does on success: plain copy, a single
permute-and-key-switch with the key for `k`, or a sequence of power-of-two
permute-and-key-switches (left or right), recorded by the list of switching
key indices applied in order. -/
inductive RotAction where
  | copied : RotAction
  | single (k : ℕ) : RotAction
  | pow2Left (k : ℕ) (applied : List ℕ) : RotAction
  | pow2Right (k : ℕ) (applied : List ℕ) : RotAction
deriving DecidableEq

/-- The switching-key indices applied by `rotateColumnsPow2`: for each set
bit of `k` (scanned low to high, `evakeyIndex` doubling each step) one
permute-and-key-switch with the key at `evakeyIndex`. -/
def rotateColumnsPow2Trace (k evakeyIndex : ℕ) : List ℕ :=
  if h : k = 0 then []
  else
    (if k % 2 = 1 then [evakeyIndex] else []) ++
      rotateColumnsPow2Trace (k / 2) (2 * evakeyIndex)
decreasing_by exact Nat.div_lt_self (Nat.pos_of_ne_zero h) (by omega)

/-- The `hasPow2Rotations` scan: `for i := 1; i < n>>1; i <<= 1`, checking
that both the left and the right key are present. -/
def hasPow2Rotations (halfN : ℕ) (keys : RotKeyTable) (i : ℕ) : Bool :=
  if h : 0 < i ∧ i < halfN then
    keys.left i && keys.right i && hasPow2Rotations halfN keys (2 * i)
  else true
termination_by halfN - i
decreasing_by omega

/-- Scheme-A `Evaluator.RotateColumns` (operand.go lines 1446-1489):
degree check, reduction of `k` modulo `N/2` via the bitmask (with the uint64
underflow of `(n>>1)-1` explicit), copy on zero, direct key, power-of-two
decomposition choosing the direction of smaller Hamming weight, or the
missing-keys error. -/
def ckksRotateColumns (deg0 degOut : ℕ) (k n : ℕ) (keys : RotKeyTable) :
    Except String RotAction :=
  if deg0 ≠ 1 ∨ degOut ≠ 1 then
    Except.error "cannot rotate -> input and output ciphertext must be of degree 1"
  else
    let kr := k &&& sub64 (n / 2) 1
    if kr = 0 then Except.ok RotAction.copied
    else if keys.left kr then Except.ok (RotAction.single kr)
    else if hasPow2Rotations (n / 2) keys 1 then
      if hammingWeight64 kr ≤ hammingWeight64 (n / 2 - kr) then
        Except.ok (RotAction.pow2Left kr (rotateColumnsPow2Trace kr 1))
      else
        Except.ok (RotAction.pow2Right (n / 2 - kr)
          (rotateColumnsPow2Trace (n / 2 - kr) 1))
    else
      Except.error "cannot rotate -> specific rotation and pow2 rotations have not been generated"

/-- Scheme-I `Evaluator.RotateColumns` (part_000 lines 428-472): same
structure, except that the zero-rotation copy is decided before the degree
check. -/
def bfvRotateColumns (deg0 degOut : ℕ) (k n : ℕ) (keys : RotKeyTable) :
    Except String RotAction :=
  let kr := k &&& sub64 (n / 2) 1
  if kr = 0 then Except.ok RotAction.copied
  else if deg0 ≠ 1 ∨ degOut ≠ 1 then
    Except.error "cannot rotate -> input and or output must be of degree 1"
  else if keys.left kr then Except.ok (RotAction.single kr)
  else if hasPow2Rotations (n / 2) keys 1 then
    if hammingWeight64 kr ≤ hammingWeight64 (n / 2 - kr) then
      Except.ok (RotAction.pow2Left kr (rotateColumnsPow2Trace kr 1))
    else
      Except.ok (RotAction.pow2Right (n / 2 - kr)
        (rotateColumnsPow2Trace (n / 2 - kr) 1))
  else
    Except.error "cannot rotate -> specific rotation and pow2 rotations have not been generated"

lemma rotateColumnsPow2Trace_sum (k idx : ℕ) :
    (rotateColumnsPow2Trace k idx).sum = k * idx := by
  induction k using Nat.strong_induction_on generalizing idx with
  | _ k ih =>
    unfold rotateColumnsPow2Trace
    by_cases h : k = 0
    · simp [h]
    · rw [dif_neg h, List.sum_append]
      have hrec := ih (k / 2) (Nat.div_lt_self (Nat.pos_of_ne_zero h) (by omega)) (2 * idx)
      rw [hrec]
      by_cases h2 : k % 2 = 1
      · simp only [h2, if_true, List.sum_cons, List.sum_nil]
        have hk : k = 2 * (k / 2) + 1 := by omega
        conv_rhs => rw [hk]
        ring
      · simp only [h2, if_false, List.sum_nil]
        have hk : k = 2 * (k / 2) := by omega
        conv_rhs => rw [hk]
        ring

lemma rotateColumnsPow2Trace_pow2 (k : ℕ) (e : ℕ) :
    ∀ x ∈ rotateColumnsPow2Trace k (2 ^ e), ∃ j, x = 2 ^ j := by
  induction k using Nat.strong_induction_on generalizing e with
  | _ k ih =>
    unfold rotateColumnsPow2Trace
    by_cases h : k = 0
    · simp [h]
    · rw [dif_neg h]
      intro x hx
      rw [List.mem_append] at hx
      rcases hx with hx | hx
      · by_cases h2 : k % 2 = 1
        · simp only [h2, if_true, List.mem_singleton] at hx
          exact ⟨e, hx⟩
        · simp [h2] at hx
      · have h2e : (2:ℕ) * 2 ^ e = 2 ^ (e + 1) := by ring
        rw [h2e] at hx
        exact ih (k / 2) (Nat.div_lt_self (Nat.pos_of_ne_zero h) (by omega)) (e + 1) x hx

lemma hasPow2Rotations_iff (halfN : ℕ) (keys : RotKeyTable) (a : ℕ) :
    hasPow2Rotations halfN keys (2 ^ a) = true ↔
      ∀ e, a ≤ e → 2 ^ e < halfN →
        keys.left (2 ^ e) = true ∧ keys.right (2 ^ e) = true := by
  have hm : ∀ fuel a, halfN - 2 ^ a ≤ fuel →
      (hasPow2Rotations halfN keys (2 ^ a) = true ↔
        ∀ e, a ≤ e → 2 ^ e < halfN →
          keys.left (2 ^ e) = true ∧ keys.right (2 ^ e) = true) := by
    intro fuel
    induction fuel with
    | zero =>
      intro a ha
      have hge : halfN ≤ 2 ^ a := by omega
      unfold hasPow2Rotations
      rw [dif_neg (by
        rintro ⟨-, hlt⟩
        omega)]
      simp only [true_iff]
      intro e hae he
      exact absurd he (by
        have : 2 ^ a ≤ 2 ^ e := Nat.pow_le_pow_right (by omega) hae
        omega)
    | succ fuel ihf =>
      intro a ha
      by_cases hlt : 2 ^ a < halfN
      · unfold hasPow2Rotations
        rw [dif_pos ⟨by positivity, hlt⟩]
        have h2a : (2:ℕ) * 2 ^ a = 2 ^ (a + 1) := by ring
        rw [h2a]
        have hnext := ihf (a + 1) (by
          have h1 : 2 ^ a < 2 ^ (a + 1) := by
            have := Nat.one_le_two_pow (n := a)
            calc 2 ^ a < 2 ^ a + 2 ^ a := by omega
            _ = 2 ^ (a + 1) := by ring
          omega)
        rw [Bool.and_eq_true, Bool.and_eq_true, hnext]
        constructor
        · rintro ⟨⟨hL, hR⟩, htail⟩ e hae he
          rcases Nat.eq_or_lt_of_le hae with heq | hgt
          · rw [← heq]; exact ⟨hL, hR⟩
          · exact htail e hgt he
        · intro hall
          exact ⟨⟨(hall a le_rfl hlt).1, (hall a le_rfl hlt).2⟩,
            fun e hae he => hall e (by omega) he⟩
      · unfold hasPow2Rotations
        rw [dif_neg (by rintro ⟨-, h⟩; omega)]
        simp only [true_iff]
        intro e hae he
        exact absurd he (by
          have : 2 ^ a ≤ 2 ^ e := Nat.pow_le_pow_right (by omega) hae
          omega)
  exact hm (halfN - 2 ^ a) a le_rfl

/-- C6: for every degree-1 ciphertext (and degree-1 receiver) and every `k`,
both schemes' `RotateColumns` first reduce `k` modulo `N/2` (the bitmask
equals the modulus for a power-of-two ring degree); a reduced `k` of `0`
copies without error; a present left key for `k` gives a single
permute-and-key-switch; otherwise, with the full power-of-two key set
present, the direction with the not-larger Hamming weight between `k` and
`N/2 - k` is decomposed into power-of-two rotations applied in sequence
(the applied key indices are powers of two summing to the decomposed
amount); otherwise the fixed error is returned. -/
theorem C6_rotateColumns_paths (k n m : ℕ) (keys : RotKeyTable)
    (hn : n = 2 ^ m) (hm1 : 1 ≤ m) (hm64 : m ≤ 64) :
    (k &&& sub64 (n / 2) 1 = k % (n / 2)) ∧
    (∀ kr, kr = k % (n / 2) →
      (kr = 0 →
        ckksRotateColumns 1 1 k n keys = Except.ok RotAction.copied ∧
        bfvRotateColumns 1 1 k n keys = Except.ok RotAction.copied) ∧
      (kr ≠ 0 → keys.left kr = true →
        ckksRotateColumns 1 1 k n keys = Except.ok (RotAction.single kr) ∧
        bfvRotateColumns 1 1 k n keys = Except.ok (RotAction.single kr)) ∧
      (kr ≠ 0 → keys.left kr = false →
        (∀ e, 2 ^ e < n / 2 → keys.left (2 ^ e) = true ∧ keys.right (2 ^ e) = true) →
        ∃ act, ckksRotateColumns 1 1 k n keys = Except.ok act ∧
          bfvRotateColumns 1 1 k n keys = Except.ok act ∧
          ((hammingWeight64 kr ≤ hammingWeight64 (n / 2 - kr) ∧
              act = RotAction.pow2Left kr (rotateColumnsPow2Trace kr 1) ∧
              (rotateColumnsPow2Trace kr 1).sum = kr ∧
              (∀ x ∈ rotateColumnsPow2Trace kr 1, ∃ j, x = 2 ^ j)) ∨
            (hammingWeight64 (n / 2 - kr) < hammingWeight64 kr ∧
              act = RotAction.pow2Right (n / 2 - kr)
                (rotateColumnsPow2Trace (n / 2 - kr) 1) ∧
              (rotateColumnsPow2Trace (n / 2 - kr) 1).sum = n / 2 - kr ∧
              (∀ x ∈ rotateColumnsPow2Trace (n / 2 - kr) 1, ∃ j, x = 2 ^ j)))) ∧
      (kr ≠ 0 → keys.left kr = false →
        ¬(∀ e, 2 ^ e < n / 2 → keys.left (2 ^ e) = true ∧ keys.right (2 ^ e) = true) →
        ckksRotateColumns 1 1 k n keys =
          Except.error "cannot rotate -> specific rotation and pow2 rotations have not been generated" ∧
        bfvRotateColumns 1 1 k n keys =
          Except.error "cannot rotate -> specific rotation and pow2 rotations have not been generated")) := by
  have hhalf : n / 2 = 2 ^ (m - 1) := by
    rw [hn]
    rcases Nat.exists_eq_add_of_le hm1 with ⟨t, ht⟩
    subst ht
    have h1 : (2:ℕ) ^ (1 + t) = 2 * 2 ^ t := by ring
    rw [h1, Nat.mul_div_cancel_left (2 ^ t) (by norm_num : (0:ℕ) < 2)]
    congr 1
    omega
  have hmask : k &&& sub64 (n / 2) 1 = k % (n / 2) := by
    rw [hhalf]
    have hlt : (2:ℕ) ^ (m - 1) < W64 := by
      unfold W64
      exact Nat.pow_lt_pow_right (by omega) (by omega)
    rw [sub64_eq _ _ hlt Nat.one_le_two_pow]
    exact and_two_pow_sub_one_eq_mod k (m - 1)
  refine ⟨hmask, ?_⟩
  intro kr hkr
  have hkrmask : k &&& sub64 (n / 2) 1 = kr := by rw [hmask, hkr]
  have hpow2iff : hasPow2Rotations (n / 2) keys 1 = true ↔
      ∀ e, 2 ^ e < n / 2 → keys.left (2 ^ e) = true ∧ keys.right (2 ^ e) = true := by
    have h := hasPow2Rotations_iff (n / 2) keys 0
    simp only [pow_zero] at h
    rw [h]
    constructor
    · intro hall e he; exact hall e (by omega) he
    · intro hall e _ he; exact hall e he
  refine ⟨?_, ?_, ?_, ?_⟩
  · intro h0
    unfold ckksRotateColumns bfvRotateColumns
    rw [hkrmask]
    simp [h0]
  · intro hne hleft
    unfold ckksRotateColumns bfvRotateColumns
    rw [hkrmask]
    simp [hne, hleft]
  · intro hne hleft hall
    have hpow : hasPow2Rotations (n / 2) keys 1 = true := hpow2iff.mpr hall
    unfold ckksRotateColumns bfvRotateColumns
    rw [hkrmask]
    by_cases hhw : hammingWeight64 kr ≤ hammingWeight64 (n / 2 - kr)
    · refine ⟨RotAction.pow2Left kr (rotateColumnsPow2Trace kr 1), ?_, ?_, ?_⟩
      · simp [hne, hleft, hpow, hhw]
      · simp [hne, hleft, hpow, hhw]
      · left
        refine ⟨hhw, rfl, ?_, ?_⟩
        · rw [rotateColumnsPow2Trace_sum]; omega
        · have h := rotateColumnsPow2Trace_pow2 kr 0
          simpa using h
    · refine ⟨RotAction.pow2Right (n / 2 - kr)
        (rotateColumnsPow2Trace (n / 2 - kr) 1), ?_, ?_, ?_⟩
      · simp [hne, hleft, hpow, hhw]
      · simp [hne, hleft, hpow, hhw]
      · right
        refine ⟨by omega, rfl, ?_, ?_⟩
        · rw [rotateColumnsPow2Trace_sum]; omega
        · have h := rotateColumnsPow2Trace_pow2 (n / 2 - kr) 0
          simpa using h
  · intro hne hleft hnall
    have hpow : hasPow2Rotations (n / 2) keys 1 = false := by
      rcases Bool.eq_false_or_eq_true (hasPow2Rotations (n / 2) keys 1) with h | h
      · exact absurd (hpow2iff.mp h) hnall
      · exact h
    unfold ckksRotateColumns bfvRotateColumns
    rw [hkrmask]
    simp [hne, hleft, hpow]

/-- C6 witness: a concrete instantiation with `n = 8`, `k = 11` (reduced to
`3`), no direct key for `3` but the full power-of-two set, where the
right-rotation decomposition by `1 = 4 - 3` wins the Hamming-weight
comparison. -/
theorem C6_rotateColumns_witness :
    (11 &&& sub64 ((8:ℕ) / 2) 1 = 11 % ((8:ℕ) / 2)) ∧
    ∃ act, ckksRotateColumns 1 1 11 8 ⟨fun i => decide (i = 1 ∨ i = 2), fun i => decide (i = 1 ∨ i = 2)⟩ = Except.ok act := by
  have h := C6_rotateColumns_paths 11 8 3
    ⟨fun i => decide (i = 1 ∨ i = 2), fun i => decide (i = 1 ∨ i = 2)⟩
    (by norm_num) (by norm_num) (by norm_num)
  refine ⟨h.1, ?_⟩
  have h3 := (h.2 3 (by norm_num)).2.2.1 (by norm_num) (by decide)
    (by
      intro e he
      norm_num at he
      have he2 : e < 2 := by
        by_contra hc
        push_neg at hc
        have h4 : (4:ℕ) ≤ 2 ^ e := by
          calc (4:ℕ) = 2 ^ 2 := by norm_num
          _ ≤ 2 ^ e := Nat.pow_le_pow_right (by norm_num) hc
        omega
      interval_cases e <;> exact ⟨by decide, by decide⟩)
  rcases h3 with ⟨act, hckks, -⟩
  exact ⟨act, hckks⟩

/-! ## NTT definitions (used by C4 and by the key-switching engine of C3)

Embeds `Butterfly`, `InvButterfly`, `NTT`, `InvNTT` (ring/ntt.go) and the
table generation of `GenNTTParams` (part_002 lines 133-181).  A coefficient
row is accessed as a positional function `ℕ → ℕ`; the nested loops of the
transforms are folds over the butterfly index pairs they visit, in source
order.  The lazy (Harvey) bounds keep every intermediate value below `4q`
(`q < 2^62`), so the `ℕ` additions never reach the uint64 wrap and are
modelled without `% 2^64`. -/

/-- `Butterfly(U, V, Psi, Q, Qinv)` (ntt.go lines 18-26):
`X, Y = U + V·Psi, U - V·Psi mod Q` with lazy reduction. -/
def goButterfly (U V Psi Q : ℕ) : ℕ × ℕ :=
  let U' := if U > 2 * Q then U - 2 * Q else U
  let Vp := mRedConstant V Psi Q
  (U' + Vp, U' + 2 * Q - Vp)

/-- `InvButterfly(U, V, Psi, Q, Qinv)` (ntt.go lines 29-36):
`X, Y = U + V, (U - V)·Psi mod Q` with lazy reduction. -/
def goInvButterfly (U V Psi Q : ℕ) : ℕ × ℕ :=
  let X := U + V
  let X' := if X > 2 * Q then X - 2 * Q else X
  (X', mRedConstant (U + 2 * Q - V) Psi Q)

/-- One butterfly application site: the two coefficient indices and the
twiddle factor read from the table. -/
structure BfPair where
  a : ℕ
  b : ℕ
  tw : ℕ
deriving DecidableEq

/-- Apply one butterfly in place:
`w[p.a], w[p.b] = bf(w[p.a], w[p.b], p.tw)`. -/
def applyBf (bf : ℕ → ℕ → ℕ → ℕ × ℕ) (w : ℕ → ℕ) (p : BfPair) : ℕ → ℕ :=
  let xy := bf (w p.a) (w p.b) p.tw
  Function.update (Function.update w p.a xy.1) p.b xy.2

/-- Apply a list of butterflies in sequence (the loop order of the source). -/
def applyBfs (bf : ℕ → ℕ → ℕ → ℕ × ℕ) (ps : List BfPair) (w : ℕ → ℕ) : ℕ → ℕ :=
  ps.foldl (applyBf bf) w

/-- The index pairs of one butterfly stage with `m` blocks of pair distance
`t`: block `i` starts at `j1 = (i*t) << 1`, pairs `j` with `j + t` for
`j ∈ [j1, j1 + t)` and uses the twiddle `tab[m + i]` (ntt.go lines 52-66
for the forward loops, lines 100-119 for the inverse loops, whose first
loops are the `m = 1` resp. `t = 1` instances of the same pattern). -/
def stagePairs (m t : ℕ) (tab : ℕ → ℕ) : List BfPair :=
  (List.range m).flatMap (fun i =>
    (List.range t).map (fun dj => ⟨2 * t * i + dj, 2 * t * i + dj + t, tab (m + i)⟩))

/-- The forward loop `for m := 2; m < N; m <<= 1 { t >>= 1; ... }`
(ntt.go lines 52-66). -/
def nttRounds (N Q : ℕ) (tab : ℕ → ℕ) (m t : ℕ) (v : ℕ → ℕ) : ℕ → ℕ :=
  if h : 0 < m ∧ m < N then
    nttRounds N Q tab (2 * m) (t / 2)
      (applyBfs (fun U V P => goButterfly U V P Q) (stagePairs m (t / 2) tab) v)
  else v
termination_by N - m
decreasing_by omega

/-- `ring.NTT` on one coefficient row (ntt.go lines 39-72): the first round
(`t = N/2`, twiddle `nttPsi[1]`) is the `m = 1` stage, then the doubling
loop, then the exact `BRedAdd` reduction of the `N` outputs. -/
def goNTT (N Q : ℕ) (tab : ℕ → ℕ) (vIn : ℕ → ℕ) : ℕ → ℕ :=
  let v1 := applyBfs (fun U V P => goButterfly U V P Q) (stagePairs 1 (N / 2) tab) vIn
  let v2 := nttRounds N Q tab 2 (N / 2) v1
  fun x => if x < N then bredAdd (v2 x) Q else v2 x

/-- The inverse loop `for m := N >> 1; m > 1; m >>= 1 { h := m >> 1; ...;
t <<= 1 }` (ntt.go lines 100-119). -/
def invNttRounds (N Q : ℕ) (tabInv : ℕ → ℕ) (m t : ℕ) (v : ℕ → ℕ) : ℕ → ℕ :=
  if h : 1 < m then
    invNttRounds N Q tabInv (m / 2) (2 * t)
      (applyBfs (fun U V P => goInvButterfly U V P Q) (stagePairs (m / 2) t tabInv) v)
  else v
termination_by m
decreasing_by omega

/-- `ring.InvNTT` on one coefficient row (ntt.go lines 75-125): the first
loop (`h = N/2`, `t = 1`) is the `m = N/2` stage, then the halving loop,
then the exact `MRed(·, nttNInv)` of the `N` outputs. -/
def goInvNTT (N Q : ℕ) (tabInv : ℕ → ℕ) (nInv : ℕ) (vIn : ℕ → ℕ) : ℕ → ℕ :=
  let v1 := applyBfs (fun U V P => goInvButterfly U V P Q) (stagePairs (N / 2) 1 tabInv) vIn
  let v2 := invNttRounds N Q tabInv (N / 2) 2 v1
  fun x => if x < N then mRed (v2 x) nInv Q else v2 x

/-- Modelled from the spec: `bitReverse64(x, len)`, the `len`-bit reversal
used to index the twiddle tables. -/
def bitRev (len x : ℕ) : ℕ :=
  match len with
  | 0 => 0
  | len + 1 => bitRev len (x / 2) + (x % 2) * 2 ^ len

/-- The table recurrence of `GenNTTParams` (part_002 lines 170-181):
`tab[0] = MForm(1)` and `tab[rev j] = MRed(tab[rev (j-1)], PsiMont)` for
`j = 1 .. N-1`, over a zero-initialized array. -/
def genTab (N len q psiMont : ℕ) : ℕ → ℕ :=
  (List.range' 1 (N - 1)).foldl
    (fun tab j =>
      Function.update tab (bitRev len j) (mRed (tab (bitRev len (j - 1))) psiMont q))
    (Function.update (fun _ => 0) 0 (mForm 1 q))

/-- The per-modulus NTT parameters computed by `GenNTTParams`
(part_002 lines 133-181): `psi = g^((q-1)/2N)` from the primitive root, its
inverse from the complementary exponent `(q-1) - (q-1)/2N`, `N^{-1}` by
Fermat (`ModExp(N, q-2, q)`), all in Montgomery form, and the two
bit-reversed power tables. -/
structure NttParams where
  psiMont : ℕ
  psiInvMont : ℕ
  nInv : ℕ
  tab : ℕ → ℕ
  tabInv : ℕ → ℕ

/-- `GenNTTParams` for one modulus (`bitLenofN = bits.Len64(N) - 1`). -/
def genNttParamsFor (N q : ℕ) : NttParams :=
  let len := Nat.log2 N
  let g := primitiveRoot q
  let power := (q - 1) / (2 * N)
  let powerInv := (q - 1) - power
  let psiM := mForm (modExp g power q) q
  let psiInvM := mForm (modExp g powerInv q) q
  ⟨psiM, psiInvM, mForm (modExp N (q - 2) q) q,
    genTab N len q psiM, genTab N len q psiInvM⟩

/-- Positional view of a coefficient row. -/
def rowOfList (row : List ℕ) : ℕ → ℕ := fun j => row.getD j 0

/-- Materialize the first `N` positions of a row. -/
def listOfRow (N : ℕ) (f : ℕ → ℕ) : List ℕ := (List.range N).map f

/-- `Context.NTT(p1, p2)` (ntt.go lines 4-8): the forward row transform for
every modulus, with that modulus' generated tables. -/
def ctxNTT (N : ℕ) (mods : List ℕ) (p : RPoly) : RPoly :=
  ⟨p.Coeffs.mapIdx (fun i row =>
    match mods.get? i with
    | some q => listOfRow N (goNTT N q (genNttParamsFor N q).tab (rowOfList row))
    | none => row)⟩

/-- `Context.InvNTT(p1, p2)` (ntt.go lines 11-15). -/
def ctxInvNTT (N : ℕ) (mods : List ℕ) (p : RPoly) : RPoly :=
  ⟨p.Coeffs.mapIdx (fun i row =>
    match mods.get? i with
    | some q => listOfRow N (goInvNTT N q (genNttParamsFor N q).tabInv
        (genNttParamsFor N q).nInv (rowOfList row))
    | none => row)⟩

/-! ## C3 : the key-switching inner loop

Embeds `Evaluator.switchKeys` of Scheme-I (part_000 lines 621-661) and
`Evaluator.switchKeysInPlace` of Scheme-A (operand.go lines 1572-1616).
Both walk the moduli and the base-w digits of the decomposed polynomial,
multiply-accumulate into the two output components without reduction, and
share the identical reduction schedule on the counter `reduce`:
an in-loop reduction when `reduce&7 == 7`, and a final reduction when
`(reduce-1)&7 != 7` (note the uint64 underflow of `reduce-1` at zero
iterations). -/

/-- The switching key: the decomposition base exponent and, per modulus,
per digit, the two key polynomials. -/
structure SwKey where
  bitDecomp : ℕ
  evakey : List (List (RPoly × RPoly))

/-- The digit polynomial built in the inner loop:
`c2qiw.Coeffs[v][u] = (c2.Coeffs[i][u] >> (j*w)) & mask` for every modulus
row `v` and coefficient `u`. -/
def ksDigitPoly (N : ℕ) (mods : List ℕ) (bitDecomp : ℕ) (c2 : RPoly)
    (i j : ℕ) : RPoly :=
  let mask := 2 ^ bitDecomp - 1
  ⟨mods.map (fun _ =>
    (List.range N).map (fun u => (polyGet c2 i u >>> (j * bitDecomp)) &&& mask))⟩

/-- The multiply-accumulate of one inner iteration: NTT the digit
polynomial, then `MulCoeffsMontgomeryAndAddNoMod` into both accumulators. -/
def ksAccumulate (N : ℕ) (mods : List ℕ) (bitDecomp : ℕ)
    (key : RPoly × RPoly) (c2 : RPoly) (i j : ℕ) (acc : RPoly × RPoly) :
    RPoly × RPoly :=
  let c2ntt := ctxNTT N mods (ksDigitPoly N mods bitDecomp c2 i j)
  (ringMulCoeffsMontgomeryAndAddNoMod mods key.1 c2ntt acc.1,
    ringMulCoeffsMontgomeryAndAddNoMod mods key.2 c2ntt acc.2)

/-- One inner iteration: accumulate, then reduce both accumulators when
`reduce&7 == 7`, then increment the counter. -/
def ksStep (N : ℕ) (mods : List ℕ) (bitDecomp : ℕ) (key : RPoly × RPoly)
    (c2 : RPoly) (i j : ℕ) (st : ℕ × RPoly × RPoly) : ℕ × RPoly × RPoly :=
  let acc := ksAccumulate N mods bitDecomp key c2 i j st.2
  if st.1 &&& 7 = 7 then
    (st.1 + 1, ringReduce mods acc.1, ringReduce mods acc.2)
  else
    (st.1 + 1, acc.1, acc.2)

/-- The (modulus, digit) iteration order of the double loop. -/
def ksPairs (evakey : List (List (RPoly × RPoly))) (L : ℕ) : List (ℕ × ℕ) :=
  (List.range L).flatMap (fun i =>
    (List.range (evakey.getD i []).length).map (fun j => (i, j)))

/-- The double loop of the key switch, as the fold of `ksStep` over the
(modulus, digit) pairs, starting from counter `0` and the caller's
accumulators. -/
def ksInner (N : ℕ) (mods : List ℕ) (bitDecomp : ℕ)
    (evakey : List (List (RPoly × RPoly))) (c2 : RPoly)
    (st : ℕ × RPoly × RPoly) : ℕ × RPoly × RPoly :=
  (ksPairs evakey mods.length).foldl (fun st ij =>
    ksStep N mods bitDecomp ((evakey.getD ij.1 []).getD ij.2 (⟨[]⟩, ⟨[]⟩))
      c2 ij.1 ij.2 st) st

/-- The final conditional reduction `if (reduce-1)&7 != 7` with the uint64
underflow of `reduce - 1` explicit. -/
def ksFinal (mods : List ℕ) (st : ℕ × RPoly × RPoly) : RPoly × RPoly :=
  if sub64 st.1 1 &&& 7 ≠ 7 then
    (ringReduce mods st.2.1, ringReduce mods st.2.2)
  else
    (st.2.1, st.2.2)

/-- Scheme-I `Evaluator.switchKeys` (part_000 lines 621-661): `c2` is in
coefficient form; the loop runs over the full modulus chain. -/
def bfvSwitchKeys (N : ℕ) (mods : List ℕ) (swk : SwKey) (c2 : RPoly)
    (ct0 ct1 : RPoly) : RPoly × RPoly :=
  ksFinal mods (ksInner N mods swk.bitDecomp swk.evakey c2 (0, ct0, ct1))

/-- Scheme-A `Evaluator.switchKeysInPlace` (operand.go lines 1572-1616):
the input component `cx` is first brought out of the NTT domain, then the
same loop runs over the moduli of the receiver's level context. -/
def ckksSwitchKeysInPlace (N : ℕ) (mods : List ℕ) (swk : SwKey) (cx : RPoly)
    (ct0 ct1 : RPoly) : RPoly × RPoly :=
  let c2 := ctxInvNTT N mods cx
  ksFinal mods (ksInner N mods swk.bitDecomp swk.evakey c2 (0, ct0, ct1))

lemma getD_map_mod_lt (row : List ℕ) (q j : ℕ) (hq : 0 < q) :
    (row.map (fun x => bredAdd x q)).getD j 0 < q := by
  rcases Nat.lt_or_ge j row.length with h | h
  · have hj : j < (row.map (fun x => bredAdd x q)).length := by
      rw [List.length_map]; exact h
    rw [List.getD_eq_getElem _ _ hj]
    rw [List.getElem_map]
    exact Nat.mod_lt _ hq
  · rw [List.getD_eq_default]
    · exact hq
    · rw [List.length_map]; exact h

/-- Every residue of a reduced polynomial is canonical (rows or positions
that do not exist read back as `0`, also canonical). -/
lemma polyGet_ringReduce_lt (mods : List ℕ) (p : RPoly) (i j : ℕ)
    (hi : i < mods.length) (hq : 0 < mods.getD i 0) :
    polyGet (ringReduce mods p) i j < mods.getD i 0 := by
  unfold polyGet ringReduce
  have hmods : mods.get? i = some (mods.getD i 0) := by
    rw [List.get?_eq_getElem?, List.getElem?_eq_getElem hi, List.getD_eq_getElem _ _ hi]
  simp only [List.getD_eq_getElem?_getD, List.getElem?_mapIdx]
  cases hrow : p.Coeffs[i]? with
  | none => simpa using hq
  | some row =>
    simp only [hmods, Option.map_some', Option.getD_some,
      ← List.getD_eq_getElem?_getD]
    exact getD_map_mod_lt row _ j hq

lemma ksStep_counter (N : ℕ) (mods : List ℕ) (bd : ℕ) (key : RPoly × RPoly)
    (c2 : RPoly) (i j : ℕ) (st : ℕ × RPoly × RPoly) :
    (ksStep N mods bd key c2 i j st).1 = st.1 + 1 := by
  unfold ksStep
  by_cases h : st.1 &&& 7 = 7 <;> simp [h]

lemma ksFold_counter (N : ℕ) (mods : List ℕ) (bd : ℕ)
    (evakey : List (List (RPoly × RPoly))) (c2 : RPoly)
    (ps : List (ℕ × ℕ)) (st : ℕ × RPoly × RPoly) :
    (ps.foldl (fun st ij =>
      ksStep N mods bd ((evakey.getD ij.1 []).getD ij.2 (⟨[]⟩, ⟨[]⟩))
        c2 ij.1 ij.2 st) st).1 = st.1 + ps.length := by
  induction ps generalizing st with
  | nil => simp
  | cons p ps ih =>
    rw [List.foldl_cons, ih, ksStep_counter]
    simp [Nat.add_comm, Nat.add_assoc]
    omega

/-- If the last iteration of the fold is a reduction point, the fold output
accumulators are reduction images. -/
lemma ksFold_reduced_of_last (N : ℕ) (mods : List ℕ) (bd : ℕ)
    (evakey : List (List (RPoly × RPoly))) (c2 : RPoly) :
    ∀ (ps : List (ℕ × ℕ)) (st : ℕ × RPoly × RPoly), ps ≠ [] →
    (st.1 + ps.length - 1) % 8 = 7 →
    ∃ a b, (ps.foldl (fun st ij =>
      ksStep N mods bd ((evakey.getD ij.1 []).getD ij.2 (⟨[]⟩, ⟨[]⟩))
        c2 ij.1 ij.2 st) st).2 = (ringReduce mods a, ringReduce mods b) := by
  intro ps
  induction ps with
  | nil => intro st h; exact absurd rfl h
  | cons p ps ih =>
    intro st _ hlast
    rw [List.foldl_cons]
    by_cases hnil : ps = []
    · subst hnil
      simp only [List.foldl_nil]
      have hcnt : st.1 % 8 = 7 := by
        simpa using hlast
      have hand : st.1 &&& 7 = 7 := by
        have h7 : (7:ℕ) = 2 ^ 3 - 1 := by norm_num
        rw [h7, and_two_pow_sub_one_eq_mod]
        simpa using hcnt
      unfold ksStep
      rw [if_pos hand]
      exact ⟨_, _, rfl⟩
    · apply ih _ hnil
      rw [ksStep_counter]
      have hlen : (p :: ps).length = ps.length + 1 := List.length_cons p ps
      rw [hlen] at hlast
      have h2 : st.1 + 1 + ps.length - 1 = st.1 + (ps.length + 1) - 1 := by omega
      rw [h2]
      exact hlast

/-- C3: in the key-switching inner loop of both schemes, the accumulators
are reduced in-loop exactly after every 8th multiply-accumulate (the source
guard `reduce&7 == 7` is the congruence `reduce ≡ 7 mod 8`); the final
reduction fires exactly when the total number of accumulations is not a
multiple of 8 (the guard `(reduce-1)&7 != 7`); and at return every residue
of both output components is in the canonical range `[0, q_i)`. -/
theorem C3_switchKeys_reduction_schedule (N : ℕ) (mods : List ℕ) (swk : SwKey)
    (c2 cx ct0 ct1 : RPoly)
    (hq : ∀ i < mods.length, 0 < mods.getD i 0)
    (hT : 1 ≤ (ksPairs swk.evakey mods.length).length)
    (hTW : (ksPairs swk.evakey mods.length).length < W64) :
    (∀ (key : RPoly × RPoly) (i j : ℕ) (st : ℕ × RPoly × RPoly),
      (st.1 &&& 7 = 7 ↔ st.1 % 8 = 7) ∧
      (st.1 % 8 = 7 →
        ksStep N mods swk.bitDecomp key c2 i j st =
          (st.1 + 1,
            ringReduce mods (ksAccumulate N mods swk.bitDecomp key c2 i j st.2).1,
            ringReduce mods (ksAccumulate N mods swk.bitDecomp key c2 i j st.2).2)) ∧
      (st.1 % 8 ≠ 7 →
        ksStep N mods swk.bitDecomp key c2 i j st =
          (st.1 + 1,
            (ksAccumulate N mods swk.bitDecomp key c2 i j st.2).1,
            (ksAccumulate N mods swk.bitDecomp key c2 i j st.2).2))) ∧
    (∀ st : ℕ × RPoly × RPoly, 1 ≤ st.1 → st.1 < W64 →
      (st.1 % 8 ≠ 0 →
        ksFinal mods st = (ringReduce mods st.2.1, ringReduce mods st.2.2)) ∧
      (st.1 % 8 = 0 → ksFinal mods st = (st.2.1, st.2.2))) ∧
    (∀ i, i < mods.length → ∀ j,
      polyGet (bfvSwitchKeys N mods swk c2 ct0 ct1).1 i j < mods.getD i 0 ∧
      polyGet (bfvSwitchKeys N mods swk c2 ct0 ct1).2 i j < mods.getD i 0 ∧
      polyGet (ckksSwitchKeysInPlace N mods swk cx ct0 ct1).1 i j < mods.getD i 0 ∧
      polyGet (ckksSwitchKeysInPlace N mods swk cx ct0 ct1).2 i j < mods.getD i 0) := by
  have hand7 : ∀ r : ℕ, r &&& 7 = r % 8 := by
    intro r
    have h7 : (7:ℕ) = 2 ^ 3 - 1 := by norm_num
    rw [h7, and_two_pow_sub_one_eq_mod]
    norm_num
  refine ⟨?_, ?_, ?_⟩
  · intro key i j st
    refine ⟨by rw [hand7], ?_, ?_⟩
    · intro h
      unfold ksStep
      rw [if_pos (by rw [hand7]; exact h)]
    · intro h
      unfold ksStep
      rw [if_neg (by rw [hand7]; exact h)]
  · intro st h1 hW
    have hsub : sub64 st.1 1 = st.1 - 1 := sub64_eq st.1 1 hW h1
    constructor
    · intro h
      unfold ksFinal
      rw [if_pos (by rw [hsub, hand7]; omega)]
    · intro h
      unfold ksFinal
      rw [if_neg (by rw [hsub, hand7]; simp only [ne_eq, not_not]; omega)]
  · intro i hi j
    set T := (ksPairs swk.evakey mods.length).length with hTdef
    have hqpos := hq i hi
    -- generic fact: the final state of either scheme has canonical residues
    have main : ∀ (c2' : RPoly),
        (∀ k, polyGet (ksFinal mods
          (ksInner N mods swk.bitDecomp swk.evakey c2' (0, ct0, ct1))).1 i k < mods.getD i 0) ∧
        (∀ k, polyGet (ksFinal mods
          (ksInner N mods swk.bitDecomp swk.evakey c2' (0, ct0, ct1))).2 i k < mods.getD i 0) := by
      intro c2'
      have hcnt : (ksInner N mods swk.bitDecomp swk.evakey c2' (0, ct0, ct1)).1 = T := by
        unfold ksInner
        rw [ksFold_counter]
        simpa using hTdef.symm
      by_cases h8 : T % 8 = 0
      · -- the last accumulation was a reduction point: no final reduction,
        -- but the loop output is already a pair of reduction images
        have hne : ksPairs swk.evakey mods.length ≠ [] := by
          intro hcon
          have hT0 : T = 0 := by rw [hTdef, hcon]; rfl
          omega
        have hred := ksFold_reduced_of_last N mods swk.bitDecomp swk.evakey c2'
          (ksPairs swk.evakey mods.length) (0, ct0, ct1) hne
          (by simp only [hTdef] at *; omega)
        rcases hred with ⟨a, b, hab⟩
        have hfin : ksFinal mods (ksInner N mods swk.bitDecomp swk.evakey c2' (0, ct0, ct1)) =
            ((ksInner N mods swk.bitDecomp swk.evakey c2' (0, ct0, ct1)).2.1,
             (ksInner N mods swk.bitDecomp swk.evakey c2' (0, ct0, ct1)).2.2) := by
          unfold ksFinal
          rw [if_neg]
          rw [hcnt, sub64_eq T 1 hTW hT, hand7]
          simp only [ne_eq, not_not]
          omega
        rw [hfin]
        have hab' : (ksInner N mods swk.bitDecomp swk.evakey c2' (0, ct0, ct1)).2 =
            (ringReduce mods a, ringReduce mods b) := by
          unfold ksInner
          exact hab
        rw [hab']
        exact ⟨fun k => polyGet_ringReduce_lt mods a i k hi hqpos,
          fun k => polyGet_ringReduce_lt mods b i k hi hqpos⟩
      · have hfin : ksFinal mods (ksInner N mods swk.bitDecomp swk.evakey c2' (0, ct0, ct1)) =
            (ringReduce mods (ksInner N mods swk.bitDecomp swk.evakey c2' (0, ct0, ct1)).2.1,
             ringReduce mods (ksInner N mods swk.bitDecomp swk.evakey c2' (0, ct0, ct1)).2.2) := by
          unfold ksFinal
          rw [if_pos]
          rw [hcnt, sub64_eq T 1 hTW hT, hand7]
          omega
        rw [hfin]
        exact ⟨fun k => polyGet_ringReduce_lt mods _ i k hi hqpos,
          fun k => polyGet_ringReduce_lt mods _ i k hi hqpos⟩
    have hbfv := main c2
    have hckks := main (ctxInvNTT N mods cx)
    exact ⟨hbfv.1 j, hbfv.2 j, hckks.1 j, hckks.2 j⟩

/-- C3 witness: a one-modulus, one-digit switching key (a single
accumulation, so the final reduction fires) on the ring `N = 2`, `q = 5`. -/
theorem C3_switchKeys_witness :
    (∀ i < [5].length, 0 < [5].getD i 0) ∧
    1 ≤ (ksPairs [[((⟨[[1, 2]]⟩ : RPoly), (⟨[[3, 4]]⟩ : RPoly))]] [5].length).length ∧
    ∀ j, polyGet (bfvSwitchKeys 2 [5] ⟨1, [[(⟨[[1, 2]]⟩, ⟨[[3, 4]]⟩)]]⟩
        ⟨[[1, 0]]⟩ ⟨[[0, 0]]⟩ ⟨[[0, 0]]⟩).1 0 j < 5 := by
  refine ⟨by decide, by decide, ?_⟩
  intro j
  have h := C3_switchKeys_reduction_schedule 2 [5]
    ⟨1, [[(⟨[[1, 2]]⟩, ⟨[[3, 4]]⟩)]]⟩ ⟨[[1, 0]]⟩ ⟨[[1, 0]]⟩ ⟨[[0, 0]]⟩ ⟨[[0, 0]]⟩
    (by decide) (by decide) (by decide)
  exact (h.2.2 0 (by norm_num) j).1

/-- C9 witness: the lifecycle theorem instantiated on a concrete context. -/
theorem C9_allowsNTT_lifecycle_witness :
    ((rGenNTTParams ⟨4, some [5], false⟩).2.isSome = true ↔
      ((⟨4, some [5], false⟩ : RCtxState).allowsNTT = false ∧
        ((⟨4, some [5], false⟩ : RCtxState).N = 0 ∨
          (⟨4, some [5], false⟩ : RCtxState).Modulus = none ∨
          ∃ q ∈ ((⟨4, some [5], false⟩ : RCtxState).Modulus.getD []),
            rModulusFailsNTT (⟨4, some [5], false⟩ : RCtxState).N q = true))) :=
  (C9_allowsNTT_lifecycle ⟨4, some [5], false⟩ 4 [5]).1

/-- C7 witness: the checker theorem instantiated on concrete operands (a nil
receiver and a two-plaintext call). -/
theorem C7_getElemAndCheckBinary_witness :
    bfvGetElemAndCheckBinary (some ⟨[⟨[[1]]⟩], false⟩) (some ⟨[⟨[[1]]⟩], false⟩)
      none 0 = Except.error "operands cannot be nil" ∧
    ckksGetElemAndCheckBinary (some ⟨[⟨[[1]]⟩], 0, false⟩)
      (some ⟨[⟨[[2]]⟩], 0, false⟩) (some ⟨[⟨[[3]]⟩], 0, false⟩) 0 =
      Except.error "operands cannot be both plaintext" := by
  constructor
  · exact ((C7_getElemAndCheckBinary_errors.1 (some ⟨[⟨[[1]]⟩], false⟩)
      (some ⟨[⟨[[1]]⟩], false⟩) none 0).1).mpr (by tauto)
  · exact ((C7_getElemAndCheckBinary_errors.2 (some ⟨[⟨[[1]]⟩], 0, false⟩)
      (some ⟨[⟨[[2]]⟩], 0, false⟩) (some ⟨[⟨[[3]]⟩], 0, false⟩) 0).2.1).mpr
      (by constructor <;> simp [CkksElem.degree])

/-! ## The Scheme-A additive evaluator (C8, and the Sub tail for C1)

Embeds `ckksElement.Resize` (operand.go lines 71-79), `Evaluator.DropLevel`
(lines 1126-1143), `Evaluator.MulByPow2` (lines 1076-1087),
`Evaluator.evaluateInPlace` (lines 344-446) and the `Sub` tail negation
(lines 282-303).  Go's pointer aliasing between the receiver and the
operands (`ctOut == c0`, `ctOut == c1`) is made explicit by an `EvalAlias`
argument; for an aliased call the shared object is the receiver argument
and the corresponding operand argument is ignored.  Source crashes
(nil-pointer dereference and out-of-range indexing) surface as `none`. -/

/-- Which of the operands the receiver aliases. -/
inductive EvalAlias where
  | outIsC0 : EvalAlias
  | outIsC1 : EvalAlias
  | distinct : EvalAlias
deriving DecidableEq

/-- Modelled from the spec: `Context.Copy`, copying the rows of the
context's moduli. -/
def ringCopy (mods : List ℕ) (p : RPoly) : RPoly := ⟨p.Coeffs.take mods.length⟩

/-- A fresh zero polynomial of the level context (`NewPoly`). -/
def zeroPoly (N level : ℕ) : RPoly :=
  ⟨(List.range (level + 1)).map (fun _ => (List.range N).map (fun _ => 0))⟩

/-- `ckksElement.Resize` (operand.go lines 71-79): truncate the polynomial
vector, or append fresh polynomials of the element's level. -/
def ckksResize (N : ℕ) (e : CkksElem) (degree : ℕ) : CkksElem :=
  if degree < e.degree then { e with value := e.value.take (degree + 1) }
  else if e.degree < degree then
    { e with value := e.value ++
        (List.range (degree - e.degree)).map (fun _ => zeroPoly N e.level) }
  else e

/-- The row truncation of `DropLevel` (operand.go lines 1126-1143), with the
error of the level-0 case ignored as in the call sites of
`evaluateInPlace` and `MulRelin` (the check returns before mutating). -/
def ckksDropLevelRaw (e : CkksElem) (levels : ℕ) : CkksElem :=
  if e.level = 0 then e
  else { e with value := e.value.map (fun p => ⟨p.Coeffs.take (e.level + 1 - levels)⟩) }

/-- `Evaluator.MulByPow2` (operand.go lines 1076-1087): scale every
polynomial of the receiver from the source, at the minimum of the two
levels.  Reading past the source's polynomial vector is a crash (`none`). -/
def ckksEvalMulByPow2 (moduli : List ℕ) (ct0 : CkksElem) (pow2 : ℕ)
    (ctOut : CkksElem) : Option CkksElem :=
  let level := min ct0.level ctOut.level
  let mods := moduli.take (level + 1)
  if ctOut.value.length ≤ ct0.value.length then
    some { ctOut with value := (List.range ctOut.value.length).map (fun i =>
      ringMulByPow2 mods pow2 (ct0.value.getD i ⟨[]⟩)) }
  else none

/-- The `evaluate` loop of `evaluateInPlace` (lines 424-428): apply the
row-wise operation on the first `minDeg+1` components and set the scale.
Out-of-range reads crash (`none`). -/
def ckksEvalApply (evaluate : RPoly → RPoly → RPoly) (tmp0 tmp1 out : CkksElem)
    (minDeg newScale : ℕ) : Option CkksElem :=
  if minDeg + 1 ≤ tmp0.value.length ∧ minDeg + 1 ≤ tmp1.value.length ∧
      minDeg + 1 ≤ out.value.length then
    some { out with
      value := (List.range out.value.length).map (fun i =>
        if i < minDeg + 1 then
          evaluate (tmp0.value.getD i ⟨[]⟩) (tmp1.value.getD i ⟨[]⟩)
        else out.value.getD i ⟨[]⟩),
      scale := newScale }
  else none

/-- The tail copy of `evaluateInPlace` (lines 433-443): copy the components
`minDeg+1 .. maxDeg` of the larger operand into the receiver through the
receiver-level context.  Reading past the source crashes (`none`). -/
def ckksEvalTailCopy (mods : List ℕ) (src out : CkksElem) (minDeg maxDeg : ℕ) :
    Option CkksElem :=
  if maxDeg + 1 ≤ src.value.length then
    some { out with value := (List.range out.value.length).map (fun i =>
      if minDeg + 1 ≤ i ∧ i < maxDeg + 1 then
        ringCopy mods (src.value.getD i ⟨[]⟩)
      else out.value.getD i ⟨[]⟩) }
  else none

/-- The tail handling of `evaluateInPlace` (lines 430-443): when the operand
degrees differ and the larger operand is not the receiver itself (the
`skip` flags record the pointer comparisons `tmp0 != ctOut`,
`tmp1 != ctOut`), copy its remaining components into the receiver. -/
def ckksEvalTailStep (copyMods : List ℕ) (d0 d1 minDeg maxDeg : ℕ)
    (tmp0 tmp1 out3 : CkksElem) (skip0 skip1 : Bool) :
    Option (CkksElem × CkksElem × CkksElem) :=
  if d0 > d1 ∧ skip0 = false then
    match ckksEvalTailCopy copyMods tmp0 out3 minDeg maxDeg with
    | none => none
    | some out4 => some (out4, tmp0, tmp1)
  else if d1 > d0 ∧ skip1 = false then
    match ckksEvalTailCopy copyMods tmp1 out3 minDeg maxDeg with
    | none => none
    | some out4 => some (out4, tmp0, tmp1)
  else some (out3, tmp0, tmp1)

/-- The receiver preparation of `evaluateInPlace` (operand.go lines
348-353): resize the receiver to the maximum operand degree, then drop its
level to the minimum of the operand levels; a receiver level below that
minimum makes the uint64 subtraction underflow and the row truncation crash
(`none`).  The `DropLevel` error at level 0 is discarded as in the source. -/
def ckksEvalPre (N : ℕ) (c0 c1 outIn : CkksElem) : Option CkksElem :=
  let out1 := ckksResize N outIn (max c0.degree c1.degree)
  if out1.level < min c0.level c1.level then none
  else some (ckksDropLevelRaw out1 (out1.level - min c0.level c1.level))

/-- `evaluateInPlace`, branch `ctOut == c0` (operand.go lines 358-379): the
prepared receiver `out2` doubles as the first operand; a larger receiver
scale sends the second operand through the pool, a smaller one scales the
receiver in place. -/
def ckksEvalOutIsC0 (moduli : List ℕ) (pool c1 out2 : CkksElem)
    (minDeg maxDeg : ℕ) (evaluate : RPoly → RPoly → RPoly) :
    Option (CkksElem × CkksElem × CkksElem) :=
  let copyMods := moduli.take (out2.level + 1)
  if out2.scale > c1.scale then
    match ckksEvalMulByPow2 moduli c1 (out2.scale - c1.scale) pool with
    | none => none
    | some tmp1 =>
      match ckksEvalApply evaluate out2 tmp1 out2 minDeg
          (max out2.scale c1.scale) with
      | none => none
      | some out3 =>
        ckksEvalTailStep copyMods out2.degree c1.degree minDeg maxDeg
          out2 tmp1 out3 true false
  else if c1.scale > out2.scale then
    match ckksEvalMulByPow2 moduli out2 (c1.scale - out2.scale) out2 with
    | none => none
    | some c0s =>
      match ckksEvalApply evaluate { c0s with scale := c1.scale } c1
          { c0s with scale := c1.scale } minDeg
          (max ({ c0s with scale := c1.scale }).scale c1.scale) with
      | none => none
      | some out3 =>
        ckksEvalTailStep copyMods out2.degree c1.degree minDeg maxDeg
          { c0s with scale := c1.scale } c1 out3 true false
  else
    match ckksEvalApply evaluate out2 c1 out2 minDeg
        (max out2.scale c1.scale) with
    | none => none
    | some out3 =>
      ckksEvalTailStep copyMods out2.degree c1.degree minDeg maxDeg
        out2 c1 out3 true false

/-- `evaluateInPlace`, branch `ctOut == c1` (operand.go lines 381-402). -/
def ckksEvalOutIsC1 (moduli : List ℕ) (pool c0 out2 : CkksElem)
    (minDeg maxDeg : ℕ) (evaluate : RPoly → RPoly → RPoly) :
    Option (CkksElem × CkksElem × CkksElem) :=
  let copyMods := moduli.take (out2.level + 1)
  if out2.scale > c0.scale then
    match ckksEvalMulByPow2 moduli c0 (out2.scale - c0.scale) pool with
    | none => none
    | some tmp0 =>
      match ckksEvalApply evaluate tmp0 out2 out2 minDeg
          (max c0.scale out2.scale) with
      | none => none
      | some out3 =>
        ckksEvalTailStep copyMods c0.degree out2.degree minDeg maxDeg
          tmp0 out2 out3 false true
  else if c0.scale > out2.scale then
    match ckksEvalMulByPow2 moduli out2 (c0.scale - out2.scale) out2 with
    | none => none
    | some c1s =>
      match ckksEvalApply evaluate c0 { c1s with scale := c0.scale }
          { c1s with scale := c0.scale } minDeg
          (max c0.scale ({ c1s with scale := c0.scale }).scale) with
      | none => none
      | some out3 =>
        ckksEvalTailStep copyMods c0.degree out2.degree minDeg maxDeg
          c0 { c1s with scale := c0.scale } out3 false true
  else
    match ckksEvalApply evaluate c0 out2 out2 minDeg
        (max c0.scale out2.scale) with
    | none => none
    | some out3 =>
      ckksEvalTailStep copyMods c0.degree out2.degree minDeg maxDeg
        c0 out2 out3 false true

/-- `evaluateInPlace`, branch `ctOut != c0, c1` (operand.go lines 403-421).
The `c0.Scale() > c1.Scale()` sub-branch scales through the still-nil `tmp1`
and crashes in the source (`none`). -/
def ckksEvalDistinct (moduli : List ℕ) (pool c0 c1 out2 : CkksElem)
    (minDeg maxDeg : ℕ) (evaluate : RPoly → RPoly → RPoly) :
    Option (CkksElem × CkksElem × CkksElem) :=
  let copyMods := moduli.take (out2.level + 1)
  if c1.scale > c0.scale then
    match ckksEvalMulByPow2 moduli c0 (c1.scale - c0.scale) pool with
    | none => none
    | some tmp0 =>
      match ckksEvalApply evaluate tmp0 c1 out2 minDeg
          (max c0.scale c1.scale) with
      | none => none
      | some out3 =>
        ckksEvalTailStep copyMods c0.degree c1.degree minDeg maxDeg
          tmp0 c1 out3 false false
  else if c0.scale > c1.scale then none
  else
    match ckksEvalApply evaluate c0 c1 out2 minDeg
        (max c0.scale c1.scale) with
    | none => none
    | some out3 =>
      ckksEvalTailStep copyMods c0.degree c1.degree minDeg maxDeg
        c0 c1 out3 false false

/-- `Evaluator.evaluateInPlace` (operand.go lines 344-446): prepare the
receiver, then dispatch on the aliasing between the receiver and the
operands.  Returns the receiver after the call together with the two
elements passed to the row-wise operation (`tmp0`, `tmp1`), which exhibit
the power-of-two scale alignment. -/
def ckksEvaluateInPlace (N : ℕ) (moduli : List ℕ) (pool : CkksElem)
    (c0in c1in outIn : CkksElem) (al : EvalAlias)
    (evaluate : RPoly → RPoly → RPoly) :
    Option (CkksElem × CkksElem × CkksElem) :=
  match al with
  | .outIsC0 =>
    match ckksEvalPre N outIn c1in outIn with
    | none => none
    | some out2 =>
      ckksEvalOutIsC0 moduli pool c1in out2
        (min outIn.degree c1in.degree) (max outIn.degree c1in.degree) evaluate
  | .outIsC1 =>
    match ckksEvalPre N c0in outIn outIn with
    | none => none
    | some out2 =>
      ckksEvalOutIsC1 moduli pool c0in out2
        (min c0in.degree outIn.degree) (max c0in.degree outIn.degree) evaluate
  | .distinct =>
    match ckksEvalPre N c0in c1in outIn with
    | none => none
    | some out2 =>
      ckksEvalDistinct moduli pool c0in c1in out2
        (min c0in.degree c1in.degree) (max c0in.degree c1in.degree) evaluate

/-- Scheme-A `Evaluator.Add` after its checker (operand.go lines 245-253):
`evaluateInPlace` with the `Add` of the context at the minimum of the three
levels. -/
def ckksAddOp (N : ℕ) (moduli : List ℕ) (pool : CkksElem)
    (c0in c1in outIn : CkksElem) (al : EvalAlias) : Option CkksElem :=
  let c0 := match al with | .outIsC0 => outIn | _ => c0in
  let c1 := match al with | .outIsC1 => outIn | _ => c1in
  let minLevel := min (min c0.level c1.level) outIn.level
  (ckksEvaluateInPlace N moduli pool c0in c1in outIn al
    (ringAdd (moduli.take (minLevel + 1)))).map (fun r => r.1)

/-- Scheme-A `Evaluator.Sub` after its checker (operand.go lines 283-303):
`evaluateInPlace` with `Sub`, then negation of the tail components when the
second operand has the larger degree. -/
def ckksSubOp (N : ℕ) (moduli : List ℕ) (pool : CkksElem)
    (c0in c1in outIn : CkksElem) (al : EvalAlias) : Option CkksElem :=
  let c0 := match al with | .outIsC0 => outIn | _ => c0in
  let c1 := match al with | .outIsC1 => outIn | _ => c1in
  let minLevel := min (min c0.level c1.level) outIn.level
  match ckksEvaluateInPlace N moduli pool c0in c1in outIn al
      (ringSub (moduli.take (minLevel + 1))) with
  | none => none
  | some r =>
    let out := r.1
    if c0.degree < c1.degree then
      some { out with value := (List.range out.value.length).map (fun i =>
        if c0.degree + 1 ≤ i ∧ i < c1.degree + 1 then
          ringNeg (moduli.take (minLevel + 1)) (out.value.getD i ⟨[]⟩)
        else out.value.getD i ⟨[]⟩) }
    else some out

lemma getD_range_map {α : Type} (n : ℕ) (f : ℕ → α) (d : α) (i : ℕ)
    (hi : i < n) : ((List.range n).map f).getD i d = f i := by
  have hlen : i < ((List.range n).map f).length := by
    rw [List.length_map, List.length_range]; exact hi
  rw [List.getD_eq_getElem _ _ hlen, List.getElem_map, List.getElem_range]

lemma polyGet_take (p : RPoly) (k r u : ℕ) (hr : r < k) :
    polyGet ⟨p.Coeffs.take k⟩ r u = polyGet p r u := by
  unfold polyGet
  rcases Nat.lt_or_ge r p.Coeffs.length with h | h
  · have h1 : r < (p.Coeffs.take k).length := by
      rw [List.length_take]; omega
    rw [List.getD_eq_getElem _ _ h1, List.getD_eq_getElem _ _ h,
      List.getElem_take]
  · have h1 : (p.Coeffs.take k).length ≤ r := by
      rw [List.length_take]; omega
    rw [List.getD_eq_default _ _ h1, List.getD_eq_default _ _ h]

lemma ckksResize_value_length (N : ℕ) (e : CkksElem) (d : ℕ)
    (h : e.value ≠ []) : (ckksResize N e d).value.length = d + 1 := by
  have hlen : 1 ≤ e.value.length := by
    cases hv : e.value with
    | nil => exact absurd hv h
    | cons a l => simp
  unfold ckksResize CkksElem.degree
  by_cases h1 : d < e.value.length - 1
  · rw [if_pos h1]
    simp only [List.length_take]
    omega
  · rw [if_neg h1]
    by_cases h2 : e.value.length - 1 < d
    · rw [if_pos h2]
      simp only [List.length_append, List.length_map, List.length_range]
      omega
    · rw [if_neg h2]
      omega

lemma ckksResize_scale (N : ℕ) (e : CkksElem) (d : ℕ) :
    (ckksResize N e d).scale = e.scale := by
  unfold ckksResize
  by_cases h1 : d < e.degree
  · rw [if_pos h1]
  · rw [if_neg h1]
    by_cases h2 : e.degree < d
    · rw [if_pos h2]
    · rw [if_neg h2]

lemma ckksResize_getD (N : ℕ) (e : CkksElem) (d i : ℕ)
    (hi1 : i < e.value.length) (hi2 : i < d + 1) :
    (ckksResize N e d).value.getD i ⟨[]⟩ = e.value.getD i ⟨[]⟩ := by
  unfold ckksResize
  by_cases h1 : d < e.degree
  · rw [if_pos h1]
    simp only
    have htake : i < (e.value.take (d + 1)).length := by
      rw [List.length_take]; omega
    rw [List.getD_eq_getElem _ _ htake, List.getD_eq_getElem _ _ hi1,
      List.getElem_take]
  · rw [if_neg h1]
    by_cases h2 : e.degree < d
    · rw [if_pos h2]
      simp only
      have happ : i < (e.value ++ (List.range (d - e.degree)).map
          (fun _ => zeroPoly N e.level)).length := by
        rw [List.length_append]; omega
      rw [List.getD_eq_getElem _ _ happ, List.getD_eq_getElem _ _ hi1,
        List.getElem_append_left hi1]
    · rw [if_neg h2]

lemma ckksResize_level (N : ℕ) (e : CkksElem) (d : ℕ) (h : e.value ≠ []) :
    (ckksResize N e d).level = e.level := by
  have hlen : 1 ≤ e.value.length := by
    cases hv : e.value with
    | nil => exact absurd hv h
    | cons a l => simp
  unfold CkksElem.level
  rw [ckksResize_getD N e d 0 (by omega) (by omega)]

lemma ckksDropLevelRaw_length (e : CkksElem) (k : ℕ) :
    (ckksDropLevelRaw e k).value.length = e.value.length := by
  unfold ckksDropLevelRaw
  by_cases h : e.level = 0
  · rw [if_pos h]
  · rw [if_neg h]
    simp

lemma ckksDropLevelRaw_scale (e : CkksElem) (k : ℕ) :
    (ckksDropLevelRaw e k).scale = e.scale := by
  unfold ckksDropLevelRaw
  by_cases h : e.level = 0
  · rw [if_pos h]
  · rw [if_neg h]

lemma ckksDropLevelRaw_polyGet (e : CkksElem) (k i r u : ℕ)
    (hr : r < e.level + 1 - k) :
    polyGet ((ckksDropLevelRaw e k).value.getD i ⟨[]⟩) r u =
      polyGet (e.value.getD i ⟨[]⟩) r u := by
  unfold ckksDropLevelRaw
  by_cases h : e.level = 0
  · rw [if_pos h]
  · rw [if_neg h]
    simp only
    rcases Nat.lt_or_ge i e.value.length with hi | hi
    · have hmap : i < (e.value.map (fun p =>
          (⟨p.Coeffs.take (e.level + 1 - k)⟩ : RPoly))).length := by
        rw [List.length_map]; exact hi
      rw [List.getD_eq_getElem _ _ hmap, List.getElem_map,
        List.getD_eq_getElem _ _ hi]
      exact polyGet_take _ _ _ _ hr
    · have hmap : (e.value.map (fun p =>
          (⟨p.Coeffs.take (e.level + 1 - k)⟩ : RPoly))).length ≤ i := by
        rw [List.length_map]; exact hi
      rw [List.getD_eq_default _ _ hmap, List.getD_eq_default _ _ hi]

lemma ckksEvalMulByPow2_spec (moduli : List ℕ) (src : CkksElem) (p : ℕ)
    (tgt tmp : CkksElem)
    (h : ckksEvalMulByPow2 moduli src p tgt = some tmp) :
    tmp.value.length = tgt.value.length ∧ tmp.scale = tgt.scale ∧
    ∀ i < tgt.value.length,
      tmp.value.getD i ⟨[]⟩ =
        ringMulByPow2 (moduli.take (min src.level tgt.level + 1)) p
          (src.value.getD i ⟨[]⟩) := by
  unfold ckksEvalMulByPow2 at h
  by_cases hb : tgt.value.length ≤ src.value.length
  · rw [if_pos hb] at h
    cases h
    refine ⟨by simp, rfl, ?_⟩
    intro i hi
    simp only
    rw [getD_range_map _ _ _ _ hi]
  · rw [if_neg hb] at h
    cases h

lemma ringMulByPow2_polyGet (mods : List ℕ) (p : ℕ) (poly : RPoly) (r u : ℕ)
    (hr : r < mods.length) :
    polyGet (ringMulByPow2 mods p poly) r u =
      (polyGet poly r u * 2 ^ p) % mods.getD r 0 := by
  unfold polyGet ringMulByPow2
  have hmods : mods.get? r = some (mods.getD r 0) := by
    rw [List.get?_eq_getElem?, List.getElem?_eq_getElem hr,
      List.getD_eq_getElem _ _ hr]
  simp only [List.getD_eq_getElem?_getD, List.getElem?_mapIdx]
  cases hrow : poly.Coeffs[r]? with
  | none => simp
  | some row =>
    simp only [hmods, Option.map_some', Option.getD_some,
      ← List.getD_eq_getElem?_getD]
    rcases Nat.lt_or_ge u row.length with hu | hu
    · have humap : u < (row.map (fun x => x * 2 ^ p % mods.getD r 0)).length := by
        rw [List.length_map]; exact hu
      rw [List.getD_eq_getElem _ _ humap, List.getElem_map,
        List.getD_eq_getElem _ _ hu]
    · have humap : (row.map (fun x => x * 2 ^ p % mods.getD r 0)).length ≤ u := by
        rw [List.length_map]; exact hu
      rw [List.getD_eq_default _ _ humap, List.getD_eq_default _ _ hu]
      simp

lemma ckksEvalApply_spec (evaluate : RPoly → RPoly → RPoly)
    (tmp0 tmp1 out : CkksElem) (minDeg newScale : ℕ) (out3 : CkksElem)
    (h : ckksEvalApply evaluate tmp0 tmp1 out minDeg newScale = some out3) :
    out3.value.length = out.value.length ∧ out3.scale = newScale ∧
    (∀ i < minDeg + 1,
      out3.value.getD i ⟨[]⟩ =
        evaluate (tmp0.value.getD i ⟨[]⟩) (tmp1.value.getD i ⟨[]⟩)) ∧
    minDeg + 1 ≤ tmp0.value.length ∧ minDeg + 1 ≤ tmp1.value.length ∧
    minDeg + 1 ≤ out.value.length := by
  unfold ckksEvalApply at h
  by_cases hb : minDeg + 1 ≤ tmp0.value.length ∧ minDeg + 1 ≤ tmp1.value.length ∧
      minDeg + 1 ≤ out.value.length
  · rw [if_pos hb] at h
    cases h
    refine ⟨by simp, rfl, ?_, hb.1, hb.2.1, hb.2.2⟩
    intro i hi
    simp only
    rw [getD_range_map _ _ _ _ (by omega), if_pos hi]
  · rw [if_neg hb] at h
    cases h

lemma ckksEvalTailCopy_spec (mods : List ℕ) (src out : CkksElem)
    (minDeg maxDeg : ℕ) (out4 : CkksElem)
    (h : ckksEvalTailCopy mods src out minDeg maxDeg = some out4) :
    out4.value.length = out.value.length ∧ out4.scale = out.scale ∧
    ∀ i < minDeg + 1, out4.value.getD i ⟨[]⟩ = out.value.getD i ⟨[]⟩ := by
  unfold ckksEvalTailCopy at h
  by_cases hb : maxDeg + 1 ≤ src.value.length
  · rw [if_pos hb] at h
    cases h
    refine ⟨by simp, rfl, ?_⟩
    intro i hi
    simp only
    rcases Nat.lt_or_ge i out.value.length with hlen | hlen
    · rw [getD_range_map _ _ _ _ hlen, if_neg (by omega)]
    · rw [List.getD_eq_default, List.getD_eq_default _ _ hlen]
      rw [List.length_map, List.length_range]
      exact hlen
  · rw [if_neg hb] at h
    cases h

lemma ckksEvalTailStep_spec (copyMods : List ℕ) (d0 d1 minDeg maxDeg : ℕ)
    (tmp0 tmp1 out3 : CkksElem) (skip0 skip1 : Bool)
    (o t0 t1 : CkksElem)
    (h : ckksEvalTailStep copyMods d0 d1 minDeg maxDeg tmp0 tmp1 out3
      skip0 skip1 = some (o, t0, t1)) :
    t0 = tmp0 ∧ t1 = tmp1 ∧ o.scale = out3.scale ∧
    o.value.length = out3.value.length ∧
    ∀ i < minDeg + 1, o.value.getD i ⟨[]⟩ = out3.value.getD i ⟨[]⟩ := by
  unfold ckksEvalTailStep at h
  by_cases h1 : d0 > d1 ∧ skip0 = false
  · rw [if_pos h1] at h
    cases hc : ckksEvalTailCopy copyMods tmp0 out3 minDeg maxDeg with
    | none => rw [hc] at h; cases h
    | some out4 =>
      rw [hc] at h
      cases h
      have hs := ckksEvalTailCopy_spec _ _ _ _ _ _ hc
      exact ⟨rfl, rfl, hs.2.1, hs.1, hs.2.2⟩
  · rw [if_neg h1] at h
    by_cases h2 : d1 > d0 ∧ skip1 = false
    · rw [if_pos h2] at h
      cases hc : ckksEvalTailCopy copyMods tmp1 out3 minDeg maxDeg with
      | none => rw [hc] at h; cases h
      | some out4 =>
        rw [hc] at h
        cases h
        have hs := ckksEvalTailCopy_spec _ _ _ _ _ _ hc
        exact ⟨rfl, rfl, hs.2.1, hs.1, hs.2.2⟩
    · rw [if_neg h2] at h
      cases h
      exact ⟨rfl, rfl, rfl, rfl, fun i _ => rfl⟩

/-- Coefficient equality over the first `deg+1` components and the rows of
the operation's level context. -/
def windowEqual (mods : List ℕ) (deg : ℕ) (src tmp : CkksElem) : Prop :=
  ∀ i < deg + 1, ∀ r < mods.length, ∀ u,
    polyGet (tmp.value.getD i ⟨[]⟩) r u = polyGet (src.value.getD i ⟨[]⟩) r u

/-- Coefficient equality up to the power-of-two scale-up `2^pw mod q_r`. -/
def windowScaled (mods : List ℕ) (deg pw : ℕ) (src tmp : CkksElem) : Prop :=
  ∀ i < deg + 1, ∀ r < mods.length, ∀ u,
    polyGet (tmp.value.getD i ⟨[]⟩) r u =
      (polyGet (src.value.getD i ⟨[]⟩) r u * 2 ^ pw) % mods.getD r 0

lemma getD_take (l : List ℕ) (k r d : ℕ) (hr : r < (l.take k).length) :
    (l.take k).getD r d = l.getD r d := by
  have hr' : r < l.length := by rw [List.length_take] at hr; omega
  rw [List.getD_eq_getElem _ _ hr, List.getD_eq_getElem _ _ hr',
    List.getElem_take]

lemma windowEqual_refl (mods : List ℕ) (d : ℕ) (e : CkksElem) :
    windowEqual mods d e e := fun _ _ _ _ _ => rfl

lemma windowScaled_of_mulByPow2 (moduli : List ℕ) (src tgt tmp : CkksElem)
    (pw L minDeg : ℕ) (hL : L ≤ min src.level tgt.level)
    (hlen : minDeg + 1 ≤ tmp.value.length)
    (h : ckksEvalMulByPow2 moduli src pw tgt = some tmp) :
    windowScaled (moduli.take (L + 1)) minDeg pw src tmp := by
  have spec := ckksEvalMulByPow2_spec moduli src pw tgt tmp h
  intro i hi r hr u
  have hi' : i < tgt.value.length := by
    rw [← spec.1]
    omega
  rw [spec.2.2 i hi']
  have hrlen : r < moduli.length := by rw [List.length_take] at hr; omega
  have hr' : r < (moduli.take (min src.level tgt.level + 1)).length := by
    rw [List.length_take] at hr ⊢
    omega
  rw [ringMulByPow2_polyGet _ _ _ _ _ hr']
  rw [getD_take _ _ _ _ hr', getD_take _ _ _ _ hr]

lemma windowEqual_dropResize (N : ℕ) (moduli : List ℕ) (e : CkksElem)
    (maxDeg k minDeg L : ℕ) (hdeg : minDeg ≤ e.degree)
    (hmax : minDeg ≤ maxDeg) (hne : e.value ≠ [])
    (hrow : L + 1 ≤ e.level + 1 - k) :
    windowEqual (moduli.take (L + 1)) minDeg e
      (ckksDropLevelRaw (ckksResize N e maxDeg) k) := by
  have hlen : 1 ≤ e.value.length := by
    cases hv : e.value with
    | nil => exact absurd hv hne
    | cons a l => simp
  intro i hi r hr u
  have hrL : r < L + 1 := by
    rw [List.length_take] at hr
    omega
  rw [ckksDropLevelRaw_polyGet _ _ _ _ _
    (by rw [ckksResize_level N e maxDeg hne]; omega)]
  rw [ckksResize_getD N e maxDeg i
    (by unfold CkksElem.degree at hdeg; omega) (by omega)]

lemma evalBranch_out_facts (evaluate : RPoly → RPoly → RPoly)
    (tmpA tmpB outBase : CkksElem) (minDeg maxDeg newScale : ℕ)
    (copyMods : List ℕ) (d0 d1 : ℕ) (skip0 skip1 : Bool)
    (out3 out tmp0 tmp1 : CkksElem)
    (happly : ckksEvalApply evaluate tmpA tmpB outBase minDeg newScale = some out3)
    (htail : ckksEvalTailStep copyMods d0 d1 minDeg maxDeg tmpA tmpB out3
      skip0 skip1 = some (out, tmp0, tmp1)) :
    tmp0 = tmpA ∧ tmp1 = tmpB ∧
    out.value.length = outBase.value.length ∧ out.scale = newScale ∧
    (∀ i < minDeg + 1,
      out.value.getD i ⟨[]⟩ =
        evaluate (tmp0.value.getD i ⟨[]⟩) (tmp1.value.getD i ⟨[]⟩)) ∧
    minDeg + 1 ≤ tmpA.value.length ∧ minDeg + 1 ≤ tmpB.value.length := by
  have ha := ckksEvalApply_spec evaluate tmpA tmpB outBase minDeg newScale out3 happly
  have ht := ckksEvalTailStep_spec copyMods d0 d1 minDeg maxDeg tmpA tmpB out3
    skip0 skip1 out tmp0 tmp1 htail
  refine ⟨ht.1, ht.2.1, ?_, ?_, ?_, ha.2.2.2.1, ha.2.2.2.2.1⟩
  · rw [ht.2.2.2.1, ha.1]
  · rw [ht.2.2.1, ha.2.1]
  · intro i hi
    rw [ht.2.2.2.2 i hi, ha.2.2.1 i hi, ht.1, ht.2.1]

lemma ckksDropLevelRaw_level (e : CkksElem) (k : ℕ) :
    (ckksDropLevelRaw e k).level = e.level - k := by
  unfold ckksDropLevelRaw
  by_cases h : e.level = 0
  · rw [if_pos h, h]
    omega
  · rw [if_neg h]
    have hlv : e.level = (e.value.getD 0 ⟨[]⟩).Coeffs.length - 1 := rfl
    cases hv : e.value with
    | nil =>
      rw [hv] at hlv
      simp at hlv
      exact absurd hlv h
    | cons p rest =>
      rw [hv] at hlv
      simp only [List.getD_cons_zero] at hlv
      show ((List.map (fun p => (⟨List.take (e.level + 1 - k) p.Coeffs⟩ : RPoly))
        (p :: rest)).getD 0 ⟨[]⟩).Coeffs.length - 1 = e.level - k
      simp only [List.map_cons, List.getD_cons_zero, List.length_take]
      have h2 : e.level ≠ 0 := h
      omega


lemma ckksEvalPre_spec (N : ℕ) (c0 c1 outIn out2 : CkksElem)
    (hout : outIn.value ≠ [])
    (h : ckksEvalPre N c0 c1 outIn = some out2) :
    out2.value.length = max c0.degree c1.degree + 1 ∧
    out2.scale = outIn.scale ∧
    out2.level = min c0.level c1.level ∧
    min c0.level c1.level ≤ outIn.level ∧
    (∀ i, i < outIn.value.length → i < max c0.degree c1.degree + 1 →
      ∀ r u, r < min c0.level c1.level + 1 →
        polyGet (out2.value.getD i ⟨[]⟩) r u =
          polyGet (outIn.value.getD i ⟨[]⟩) r u) := by
  unfold ckksEvalPre at h
  set maxD := max c0.degree c1.degree with hmaxD
  have hlv1 : (ckksResize N outIn maxD).level = outIn.level :=
    ckksResize_level N outIn maxD hout
  by_cases hg : (ckksResize N outIn maxD).level < min c0.level c1.level
  · rw [if_pos hg] at h
    cases h
  · rw [if_neg hg] at h
    cases h
    rw [hlv1] at hg
    push_neg at hg
    refine ⟨?_, ?_, ?_, hg, ?_⟩
    · rw [ckksDropLevelRaw_length, ckksResize_value_length N outIn maxD hout]
    · rw [ckksDropLevelRaw_scale, ckksResize_scale]
    · rw [ckksDropLevelRaw_level, hlv1]
      omega
    · intro i hi1 hi2 r u hr
      rw [ckksDropLevelRaw_polyGet _ _ _ _ _ (by rw [hlv1]; omega)]
      exact congrArg (fun p => polyGet p r u) (ckksResize_getD N outIn maxD i hi1 hi2)

lemma ckksEvalOutIsC0_spec (moduli : List ℕ) (pool c1 out2 : CkksElem)
    (minDeg maxDeg : ℕ) (evaluate : RPoly → RPoly → RPoly)
    (out tmp0 tmp1 : CkksElem) (L : ℕ)
    (hL : L ≤ out2.level) (hLpool : L ≤ pool.level) (hLc1 : L ≤ c1.level)
    (h : ckksEvalOutIsC0 moduli pool c1 out2 minDeg maxDeg evaluate =
      some (out, tmp0, tmp1)) :
    out.value.length = out2.value.length ∧
    out.scale = max out2.scale c1.scale ∧
    (∀ i < minDeg + 1,
      out.value.getD i ⟨[]⟩ =
        evaluate (tmp0.value.getD i ⟨[]⟩) (tmp1.value.getD i ⟨[]⟩)) ∧
    (out2.scale < c1.scale →
      windowScaled (moduli.take (L + 1)) minDeg (c1.scale - out2.scale) out2 tmp0 ∧
      windowEqual (moduli.take (L + 1)) minDeg c1 tmp1) ∧
    (c1.scale < out2.scale →
      windowEqual (moduli.take (L + 1)) minDeg out2 tmp0 ∧
      windowScaled (moduli.take (L + 1)) minDeg (out2.scale - c1.scale) c1 tmp1) ∧
    (out2.scale = c1.scale →
      windowEqual (moduli.take (L + 1)) minDeg out2 tmp0 ∧
      windowEqual (moduli.take (L + 1)) minDeg c1 tmp1) := by
  simp only [ckksEvalOutIsC0] at h
  split at h
  · rename_i hs1
    split at h
    · cases h
    · rename_i tmp1' hmp
      split at h
      · cases h
      · rename_i out3 happ
        have hfacts := evalBranch_out_facts evaluate out2 tmp1' out2 minDeg maxDeg
          (max out2.scale c1.scale) (moduli.take (out2.level + 1))
          out2.degree c1.degree true false out3 out tmp0 tmp1 happ h
        obtain ⟨ht0, ht1, hlen, hsc, hcomp, hb0, hb1⟩ := hfacts
        subst tmp0
        subst tmp1
        refine ⟨hlen, hsc, hcomp, ?_, ?_, ?_⟩
        · intro hlt; omega
        · intro hlt
          refine ⟨windowEqual_refl _ _ out2, ?_⟩
          have hws := windowScaled_of_mulByPow2 moduli c1 pool tmp1'
            (out2.scale - c1.scale) L minDeg (by omega) (by omega) hmp
          exact hws
        · intro heq; omega
  · rename_i hs1
    split at h
    · rename_i hs2
      split at h
      · cases h
      · rename_i c0s hmp
        split at h
        · cases h
        · rename_i out3 happ
          have hmpspec := ckksEvalMulByPow2_spec moduli out2
            (c1.scale - out2.scale) out2 c0s hmp
          have hfacts := evalBranch_out_facts evaluate
            { c0s with scale := c1.scale } c1 { c0s with scale := c1.scale }
            minDeg maxDeg (max ({ c0s with scale := c1.scale }).scale c1.scale)
            (moduli.take (out2.level + 1)) out2.degree c1.degree true false
            out3 out tmp0 tmp1 happ h
          obtain ⟨ht0, ht1, hlen, hsc, hcomp, hb0, hb1⟩ := hfacts
          subst tmp0
          subst tmp1
          refine ⟨?_, ?_, hcomp, ?_, ?_, ?_⟩
          · rw [hlen]
            show c0s.value.length = out2.value.length
            exact hmpspec.1
          · rw [hsc]
            show max c1.scale c1.scale = max out2.scale c1.scale
            omega
          · intro hlt
            refine ⟨?_, windowEqual_refl _ _ c1⟩
            have hws := windowScaled_of_mulByPow2 moduli out2 out2 c0s
              (c1.scale - out2.scale) L minDeg (by omega)
              (by
                have : ({ c0s with scale := c1.scale } : CkksElem).value.length =
                  c0s.value.length := rfl
                omega) hmp
            intro i hi r hr u
            exact hws i hi r hr u
          · intro hlt; omega
          · intro heq; omega
    · rename_i hs2
      split at h
      · cases h
      · rename_i out3 happ
        have hfacts := evalBranch_out_facts evaluate out2 c1 out2 minDeg maxDeg
          (max out2.scale c1.scale) (moduli.take (out2.level + 1))
          out2.degree c1.degree true false out3 out tmp0 tmp1 happ h
        obtain ⟨ht0, ht1, hlen, hsc, hcomp, hb0, hb1⟩ := hfacts
        subst tmp0
        subst tmp1
        refine ⟨hlen, hsc, hcomp, ?_, ?_, ?_⟩
        · intro hlt; omega
        · intro hlt; omega
        · intro heq
          exact ⟨windowEqual_refl _ _ out2, windowEqual_refl _ _ c1⟩

lemma ckksEvalOutIsC1_spec (moduli : List ℕ) (pool c0 out2 : CkksElem)
    (minDeg maxDeg : ℕ) (evaluate : RPoly → RPoly → RPoly)
    (out tmp0 tmp1 : CkksElem) (L : ℕ)
    (hL : L ≤ out2.level) (hLpool : L ≤ pool.level) (hLc0 : L ≤ c0.level)
    (h : ckksEvalOutIsC1 moduli pool c0 out2 minDeg maxDeg evaluate =
      some (out, tmp0, tmp1)) :
    out.value.length = out2.value.length ∧
    out.scale = max c0.scale out2.scale ∧
    (∀ i < minDeg + 1,
      out.value.getD i ⟨[]⟩ =
        evaluate (tmp0.value.getD i ⟨[]⟩) (tmp1.value.getD i ⟨[]⟩)) ∧
    (c0.scale < out2.scale →
      windowScaled (moduli.take (L + 1)) minDeg (out2.scale - c0.scale) c0 tmp0 ∧
      windowEqual (moduli.take (L + 1)) minDeg out2 tmp1) ∧
    (out2.scale < c0.scale →
      windowEqual (moduli.take (L + 1)) minDeg c0 tmp0 ∧
      windowScaled (moduli.take (L + 1)) minDeg (c0.scale - out2.scale) out2 tmp1) ∧
    (c0.scale = out2.scale →
      windowEqual (moduli.take (L + 1)) minDeg c0 tmp0 ∧
      windowEqual (moduli.take (L + 1)) minDeg out2 tmp1) := by
  simp only [ckksEvalOutIsC1] at h
  split at h
  · rename_i hs1
    split at h
    · cases h
    · rename_i tmp0' hmp
      split at h
      · cases h
      · rename_i out3 happ
        have hfacts := evalBranch_out_facts evaluate tmp0' out2 out2 minDeg maxDeg
          (max c0.scale out2.scale) (moduli.take (out2.level + 1))
          c0.degree out2.degree false true out3 out tmp0 tmp1 happ h
        obtain ⟨ht0, ht1, hlen, hsc, hcomp, hb0, hb1⟩ := hfacts
        subst tmp0
        subst tmp1
        refine ⟨hlen, hsc, hcomp, ?_, ?_, ?_⟩
        · intro hlt
          refine ⟨?_, windowEqual_refl _ _ out2⟩
          exact windowScaled_of_mulByPow2 moduli c0 pool tmp0'
            (out2.scale - c0.scale) L minDeg (by omega) (by omega) hmp
        · intro hlt; omega
        · intro heq; omega
  · rename_i hs1
    split at h
    · rename_i hs2
      split at h
      · cases h
      · rename_i c1s hmp
        split at h
        · cases h
        · rename_i out3 happ
          have hmpspec := ckksEvalMulByPow2_spec moduli out2
            (c0.scale - out2.scale) out2 c1s hmp
          have hfacts := evalBranch_out_facts evaluate c0
            { c1s with scale := c0.scale } { c1s with scale := c0.scale }
            minDeg maxDeg (max c0.scale ({ c1s with scale := c0.scale }).scale)
            (moduli.take (out2.level + 1)) c0.degree out2.degree false true
            out3 out tmp0 tmp1 happ h
          obtain ⟨ht0, ht1, hlen, hsc, hcomp, hb0, hb1⟩ := hfacts
          subst tmp0
          subst tmp1
          refine ⟨?_, ?_, hcomp, ?_, ?_, ?_⟩
          · rw [hlen]
            show c1s.value.length = out2.value.length
            exact hmpspec.1
          · rw [hsc]
            show max c0.scale c0.scale = max c0.scale out2.scale
            omega
          · intro hlt; omega
          · intro hlt
            refine ⟨windowEqual_refl _ _ c0, ?_⟩
            have hws := windowScaled_of_mulByPow2 moduli out2 out2 c1s
              (c0.scale - out2.scale) L minDeg (by omega)
              (by
                have hc : ({ c1s with scale := c0.scale } : CkksElem).value.length =
                  c1s.value.length := rfl
                omega) hmp
            intro i hi r hr u
            exact hws i hi r hr u
          · intro heq; omega
    · rename_i hs2
      split at h
      · cases h
      · rename_i out3 happ
        have hfacts := evalBranch_out_facts evaluate c0 out2 out2 minDeg maxDeg
          (max c0.scale out2.scale) (moduli.take (out2.level + 1))
          c0.degree out2.degree false true out3 out tmp0 tmp1 happ h
        obtain ⟨ht0, ht1, hlen, hsc, hcomp, hb0, hb1⟩ := hfacts
        subst tmp0
        subst tmp1
        refine ⟨hlen, hsc, hcomp, ?_, ?_, ?_⟩
        · intro hlt; omega
        · intro hlt; omega
        · intro heq
          exact ⟨windowEqual_refl _ _ c0, windowEqual_refl _ _ out2⟩

lemma ckksEvalDistinct_spec (moduli : List ℕ) (pool c0 c1 out2 : CkksElem)
    (minDeg maxDeg : ℕ) (evaluate : RPoly → RPoly → RPoly)
    (out tmp0 tmp1 : CkksElem) (L : ℕ)
    (hLpool : L ≤ pool.level) (hLc0 : L ≤ c0.level)
    (h : ckksEvalDistinct moduli pool c0 c1 out2 minDeg maxDeg evaluate =
      some (out, tmp0, tmp1)) :
    out.value.length = out2.value.length ∧
    out.scale = max c0.scale c1.scale ∧
    (∀ i < minDeg + 1,
      out.value.getD i ⟨[]⟩ =
        evaluate (tmp0.value.getD i ⟨[]⟩) (tmp1.value.getD i ⟨[]⟩)) ∧
    (c0.scale < c1.scale →
      windowScaled (moduli.take (L + 1)) minDeg (c1.scale - c0.scale) c0 tmp0 ∧
      windowEqual (moduli.take (L + 1)) minDeg c1 tmp1) ∧
    (c1.scale < c0.scale → False) ∧
    (c0.scale = c1.scale →
      windowEqual (moduli.take (L + 1)) minDeg c0 tmp0 ∧
      windowEqual (moduli.take (L + 1)) minDeg c1 tmp1) := by
  simp only [ckksEvalDistinct] at h
  split at h
  · rename_i hs1
    split at h
    · cases h
    · rename_i tmp0' hmp
      split at h
      · cases h
      · rename_i out3 happ
        have hfacts := evalBranch_out_facts evaluate tmp0' c1 out2 minDeg maxDeg
          (max c0.scale c1.scale) (moduli.take (out2.level + 1))
          c0.degree c1.degree false false out3 out tmp0 tmp1 happ h
        obtain ⟨ht0, ht1, hlen, hsc, hcomp, hb0, hb1⟩ := hfacts
        subst tmp0
        subst tmp1
        refine ⟨hlen, hsc, hcomp, ?_, ?_, ?_⟩
        · intro hlt
          refine ⟨?_, windowEqual_refl _ _ c1⟩
          exact windowScaled_of_mulByPow2 moduli c0 pool tmp0'
            (c1.scale - c0.scale) L minDeg (by omega) (by omega) hmp
        · intro hlt; omega
        · intro heq; omega
  · rename_i hs1
    split at h
    · cases h
    · rename_i hs2
      split at h
      · cases h
      · rename_i out3 happ
        have hfacts := evalBranch_out_facts evaluate c0 c1 out2 minDeg maxDeg
          (max c0.scale c1.scale) (moduli.take (out2.level + 1))
          c0.degree c1.degree false false out3 out tmp0 tmp1 happ h
        obtain ⟨ht0, ht1, hlen, hsc, hcomp, hb0, hb1⟩ := hfacts
        subst tmp0
        subst tmp1
        refine ⟨hlen, hsc, hcomp, ?_, ?_, ?_⟩
        · intro hlt; omega
        · intro hlt; omega
        · intro heq
          exact ⟨windowEqual_refl _ _ c0, windowEqual_refl _ _ c1⟩

lemma windowEqual_comp (mods : List ℕ) (deg : ℕ) (a b c : CkksElem)
    (h1 : windowEqual mods deg a b) (h2 : windowEqual mods deg b c) :
    windowEqual mods deg a c := by
  intro i hi r hr u
  rw [h2 i hi r hr u, h1 i hi r hr u]

lemma windowScaled_comp (mods : List ℕ) (deg pw : ℕ) (a b c : CkksElem)
    (h1 : windowEqual mods deg a b) (h2 : windowScaled mods deg pw b c) :
    windowScaled mods deg pw a c := by
  intro i hi r hr u
  rw [h2 i hi r hr u, h1 i hi r hr u]

lemma windowEqual_of_pre (N : ℕ) (moduli : List ℕ) (ca cb outIn out2 : CkksElem)
    (minDeg : ℕ) (hout : outIn.value ≠ [])
    (hdeg : minDeg ≤ outIn.degree) (hdeg2 : minDeg ≤ max ca.degree cb.degree)
    (hpre : ckksEvalPre N ca cb outIn = some out2) :
    windowEqual (moduli.take (min ca.level cb.level + 1)) minDeg outIn out2 := by
  have hs := ckksEvalPre_spec N ca cb outIn out2 hout hpre
  intro i hi r hr u
  have hlen : 1 ≤ outIn.value.length := by
    cases hv : outIn.value with
    | nil => exact absurd hv hout
    | cons a l => simp
  unfold CkksElem.degree at hdeg
  apply hs.2.2.2.2 i (by omega) (by omega) r u
  rw [List.length_take] at hr
  omega

lemma ckksEvaluateInPlace_spec (N : ℕ) (moduli : List ℕ) (pool : CkksElem)
    (c0in c1in outIn : CkksElem) (al : EvalAlias)
    (evaluate : RPoly → RPoly → RPoly) (out tmp0 tmp1 : CkksElem)
    (c0 c1 : CkksElem)
    (hc0 : c0 = (match al with | EvalAlias.outIsC0 => outIn | _ => c0in))
    (hc1 : c1 = (match al with | EvalAlias.outIsC1 => outIn | _ => c1in))
    (h0 : c0.value ≠ []) (h1 : c1.value ≠ []) (hout : outIn.value ≠ [])
    (hpool : min c0.level c1.level ≤ pool.level)
    (h : ckksEvaluateInPlace N moduli pool c0in c1in outIn al evaluate =
      some (out, tmp0, tmp1)) :
    out.value.length = max c0.degree c1.degree + 1 ∧
    out.scale = max c0.scale c1.scale ∧
    (∀ i < min c0.degree c1.degree + 1,
      out.value.getD i ⟨[]⟩ =
        evaluate (tmp0.value.getD i ⟨[]⟩) (tmp1.value.getD i ⟨[]⟩)) ∧
    (c0.scale < c1.scale →
      windowScaled (moduli.take (min c0.level c1.level + 1))
        (min c0.degree c1.degree) (c1.scale - c0.scale) c0 tmp0 ∧
      windowEqual (moduli.take (min c0.level c1.level + 1))
        (min c0.degree c1.degree) c1 tmp1) ∧
    (c1.scale < c0.scale →
      windowEqual (moduli.take (min c0.level c1.level + 1))
        (min c0.degree c1.degree) c0 tmp0 ∧
      windowScaled (moduli.take (min c0.level c1.level + 1))
        (min c0.degree c1.degree) (c0.scale - c1.scale) c1 tmp1) ∧
    (c0.scale = c1.scale →
      windowEqual (moduli.take (min c0.level c1.level + 1))
        (min c0.degree c1.degree) c0 tmp0 ∧
      windowEqual (moduli.take (min c0.level c1.level + 1))
        (min c0.degree c1.degree) c1 tmp1) := by
  cases al with
  | outIsC0 =>
    simp only at hc0 hc1
    subst c0
    subst c1
    simp only [ckksEvaluateInPlace] at h
    cases hpre : ckksEvalPre N outIn c1in outIn with
    | none => rw [hpre] at h; cases h
    | some out2 =>
      rw [hpre] at h
      have hps := ckksEvalPre_spec N outIn c1in outIn out2 hout hpre
      have hwe := windowEqual_of_pre N moduli outIn c1in outIn out2
        (min outIn.degree c1in.degree) hout (by omega) (by omega) hpre
      have hbs := ckksEvalOutIsC0_spec moduli pool c1in out2
        (min outIn.degree c1in.degree) (max outIn.degree c1in.degree) evaluate
        out tmp0 tmp1 (min outIn.level c1in.level)
        (by omega) (by omega) (by omega) h
      obtain ⟨hblen, hbsc, hbcomp, hblt, hbgt, hbeq⟩ := hbs
      have hsc2 : out2.scale = outIn.scale := hps.2.1
      refine ⟨hblen.trans hps.1, ?_, hbcomp, ?_, ?_, ?_⟩
      · rw [hbsc, hsc2]
      · intro hlt
        have hb := hblt (by omega)
        rw [hsc2] at hb
        exact ⟨windowScaled_comp _ _ _ _ _ _ hwe hb.1, hb.2⟩
      · intro hlt
        have hb := hbgt (by omega)
        rw [hsc2] at hb
        exact ⟨windowEqual_comp _ _ _ _ _ hwe hb.1, hb.2⟩
      · intro heq
        have hb := hbeq (by omega)
        exact ⟨windowEqual_comp _ _ _ _ _ hwe hb.1, hb.2⟩
  | outIsC1 =>
    simp only at hc0 hc1
    subst c0
    subst c1
    simp only [ckksEvaluateInPlace] at h
    cases hpre : ckksEvalPre N c0in outIn outIn with
    | none => rw [hpre] at h; cases h
    | some out2 =>
      rw [hpre] at h
      have hps := ckksEvalPre_spec N c0in outIn outIn out2 hout hpre
      have hwe := windowEqual_of_pre N moduli c0in outIn outIn out2
        (min c0in.degree outIn.degree) hout (by omega) (by omega) hpre
      have hbs := ckksEvalOutIsC1_spec moduli pool c0in out2
        (min c0in.degree outIn.degree) (max c0in.degree outIn.degree) evaluate
        out tmp0 tmp1 (min c0in.level outIn.level)
        (by omega) (by omega) (by omega) h
      obtain ⟨hblen, hbsc, hbcomp, hblt, hbgt, hbeq⟩ := hbs
      have hsc2 : out2.scale = outIn.scale := hps.2.1
      refine ⟨hblen.trans hps.1, ?_, hbcomp, ?_, ?_, ?_⟩
      · rw [hbsc, hsc2]
      · intro hlt
        have hb := hblt (by omega)
        rw [hsc2] at hb
        exact ⟨hb.1, windowEqual_comp _ _ _ _ _ hwe hb.2⟩
      · intro hlt
        have hb := hbgt (by omega)
        rw [hsc2] at hb
        exact ⟨hb.1, windowScaled_comp _ _ _ _ _ _ hwe hb.2⟩
      · intro heq
        have hb := hbeq (by omega)
        exact ⟨hb.1, windowEqual_comp _ _ _ _ _ hwe hb.2⟩
  | distinct =>
    simp only at hc0 hc1
    subst c0
    subst c1
    simp only [ckksEvaluateInPlace] at h
    cases hpre : ckksEvalPre N c0in c1in outIn with
    | none => rw [hpre] at h; cases h
    | some out2 =>
      rw [hpre] at h
      have hps := ckksEvalPre_spec N c0in c1in outIn out2 hout hpre
      have hbs := ckksEvalDistinct_spec moduli pool c0in c1in out2
        (min c0in.degree c1in.degree) (max c0in.degree c1in.degree) evaluate
        out tmp0 tmp1 (min c0in.level c1in.level)
        (by omega) (by omega) h
      obtain ⟨hblen, hbsc, hbcomp, hblt, hbgt, hbeq⟩ := hbs
      refine ⟨hblen.trans hps.1, hbsc, hbcomp, hblt, ?_, hbeq⟩
      · intro hlt
        exact absurd hlt (by simpa using hbgt)

/-- The power-of-two scale alignment of `evaluateInPlace`: whichever operand
has the smaller scale is replaced (on the first `minDeg + 1` components and
the rows of `mods`) by its `MulByPow2` by the scale difference, while the
other operand is passed through unchanged. -/
def scaleAligned (mods : List ℕ) (minDeg : ℕ) (c0 c1 tmp0 tmp1 : CkksElem) :
    Prop :=
  (c0.scale < c1.scale →
    windowScaled mods minDeg (c1.scale - c0.scale) c0 tmp0 ∧
    windowEqual mods minDeg c1 tmp1) ∧
  (c1.scale < c0.scale →
    windowEqual mods minDeg c0 tmp0 ∧
    windowScaled mods minDeg (c0.scale - c1.scale) c1 tmp1) ∧
  (c0.scale = c1.scale →
    windowEqual mods minDeg c0 tmp0 ∧ windowEqual mods minDeg c1 tmp1)

lemma ckksAddOp_spec (N : ℕ) (moduli : List ℕ) (pool : CkksElem)
    (c0in c1in outIn : CkksElem) (al : EvalAlias) (c0 c1 : CkksElem)
    (hc0 : c0 = (match al with | EvalAlias.outIsC0 => outIn | _ => c0in))
    (hc1 : c1 = (match al with | EvalAlias.outIsC1 => outIn | _ => c1in))
    (h0 : c0.value ≠ []) (h1 : c1.value ≠ []) (hout : outIn.value ≠ [])
    (hpool : min c0.level c1.level ≤ pool.level) (out : CkksElem)
    (h : ckksAddOp N moduli pool c0in c1in outIn al = some out) :
    out.degree = max c0.degree c1.degree ∧
    out.scale = max c0.scale c1.scale ∧
    ∃ tmp0 tmp1,
      (∀ i < min c0.degree c1.degree + 1,
        out.value.getD i ⟨[]⟩ =
          ringAdd (moduli.take (min (min c0.level c1.level) outIn.level + 1))
            (tmp0.value.getD i ⟨[]⟩) (tmp1.value.getD i ⟨[]⟩)) ∧
      scaleAligned (moduli.take (min c0.level c1.level + 1))
        (min c0.degree c1.degree) c0 c1 tmp0 tmp1 := by
  cases al with
  | outIsC0 =>
    simp only at hc0 hc1
    subst c0
    subst c1
    simp only [ckksAddOp, Option.map_eq_some'] at h
    obtain ⟨⟨out', tmp0, tmp1⟩, hr, hout'⟩ := h
    simp only at hout'
    subst hout'
    have hs := ckksEvaluateInPlace_spec N moduli pool c0in c1in outIn
      EvalAlias.outIsC0 _ out' tmp0 tmp1 outIn c1in rfl rfl h0 h1 hout hpool hr
    obtain ⟨hlen, hsc, hcomp, hlt, hgt, heq⟩ := hs
    have hdeg : out'.degree = out'.value.length - 1 := rfl
    exact ⟨by omega, hsc, tmp0, tmp1, hcomp, hlt, hgt, heq⟩
  | outIsC1 =>
    simp only at hc0 hc1
    subst c0
    subst c1
    simp only [ckksAddOp, Option.map_eq_some'] at h
    obtain ⟨⟨out', tmp0, tmp1⟩, hr, hout'⟩ := h
    simp only at hout'
    subst hout'
    have hs := ckksEvaluateInPlace_spec N moduli pool c0in c1in outIn
      EvalAlias.outIsC1 _ out' tmp0 tmp1 c0in outIn rfl rfl h0 h1 hout hpool hr
    obtain ⟨hlen, hsc, hcomp, hlt, hgt, heq⟩ := hs
    have hdeg : out'.degree = out'.value.length - 1 := rfl
    exact ⟨by omega, hsc, tmp0, tmp1, hcomp, hlt, hgt, heq⟩
  | distinct =>
    simp only at hc0 hc1
    subst c0
    subst c1
    simp only [ckksAddOp, Option.map_eq_some'] at h
    obtain ⟨⟨out', tmp0, tmp1⟩, hr, hout'⟩ := h
    simp only at hout'
    subst hout'
    have hs := ckksEvaluateInPlace_spec N moduli pool c0in c1in outIn
      EvalAlias.distinct _ out' tmp0 tmp1 c0in c1in rfl rfl h0 h1 hout hpool hr
    obtain ⟨hlen, hsc, hcomp, hlt, hgt, heq⟩ := hs
    have hdeg : out'.degree = out'.value.length - 1 := rfl
    exact ⟨by omega, hsc, tmp0, tmp1, hcomp, hlt, hgt, heq⟩

lemma ckksSubOp_core (moduli : List ℕ) (minLevel : ℕ)
    (c0 c1 out' tmp0 tmp1 out : CkksElem)
    (hlen : out'.value.length = max c0.degree c1.degree + 1)
    (hsc : out'.scale = max c0.scale c1.scale)
    (hcomp : ∀ i < min c0.degree c1.degree + 1,
      out'.value.getD i ⟨[]⟩ =
        ringSub (moduli.take (minLevel + 1))
          (tmp0.value.getD i ⟨[]⟩) (tmp1.value.getD i ⟨[]⟩))
    (h : (if c0.degree < c1.degree then
        some { out' with value := (List.range out'.value.length).map (fun i =>
          if c0.degree + 1 ≤ i ∧ i < c1.degree + 1 then
            ringNeg (moduli.take (minLevel + 1)) (out'.value.getD i ⟨[]⟩)
          else out'.value.getD i ⟨[]⟩) }
      else some out') = some out) :
    out.degree = max c0.degree c1.degree ∧
    out.scale = max c0.scale c1.scale ∧
    (∀ i < min c0.degree c1.degree + 1,
      out.value.getD i ⟨[]⟩ =
        ringSub (moduli.take (minLevel + 1))
          (tmp0.value.getD i ⟨[]⟩) (tmp1.value.getD i ⟨[]⟩)) := by
  by_cases hdeg : c0.degree < c1.degree
  · rw [if_pos hdeg] at h
    injection h with h
    subst h
    refine ⟨?_, hsc, ?_⟩
    · have e1 : c0.degree = c0.value.length - 1 := rfl
      have e2 : c1.degree = c1.value.length - 1 := rfl
      unfold CkksElem.degree
      dsimp only
      rw [List.length_map, List.length_range]
      omega
    · intro i hi
      have hio : i < out'.value.length := by omega
      dsimp only
      rw [getD_range_map _ _ _ i hio, if_neg (by omega)]
      exact hcomp i hi
  · rw [if_neg hdeg] at h
    injection h with h
    subst h
    have hd : out'.degree = out'.value.length - 1 := rfl
    exact ⟨by omega, hsc, hcomp⟩

lemma ckksSubOp_spec (N : ℕ) (moduli : List ℕ) (pool : CkksElem)
    (c0in c1in outIn : CkksElem) (al : EvalAlias) (c0 c1 : CkksElem)
    (hc0 : c0 = (match al with | EvalAlias.outIsC0 => outIn | _ => c0in))
    (hc1 : c1 = (match al with | EvalAlias.outIsC1 => outIn | _ => c1in))
    (h0 : c0.value ≠ []) (h1 : c1.value ≠ []) (hout : outIn.value ≠ [])
    (hpool : min c0.level c1.level ≤ pool.level) (out : CkksElem)
    (h : ckksSubOp N moduli pool c0in c1in outIn al = some out) :
    out.degree = max c0.degree c1.degree ∧
    out.scale = max c0.scale c1.scale ∧
    ∃ tmp0 tmp1,
      (∀ i < min c0.degree c1.degree + 1,
        out.value.getD i ⟨[]⟩ =
          ringSub (moduli.take (min (min c0.level c1.level) outIn.level + 1))
            (tmp0.value.getD i ⟨[]⟩) (tmp1.value.getD i ⟨[]⟩)) ∧
      scaleAligned (moduli.take (min c0.level c1.level + 1))
        (min c0.degree c1.degree) c0 c1 tmp0 tmp1 := by
  cases al with
  | outIsC0 =>
    simp only at hc0 hc1
    subst c0
    subst c1
    simp only [ckksSubOp] at h
    split at h
    · cases h
    · rename_i r hev
      obtain ⟨out', tmp0, tmp1⟩ := r
      dsimp only at h
      have hs := ckksEvaluateInPlace_spec N moduli pool c0in c1in outIn
        EvalAlias.outIsC0 _ out' tmp0 tmp1 outIn c1in rfl rfl h0 h1 hout
        hpool hev
      obtain ⟨hlen, hsc, hcomp, hlt, hgt, heq⟩ := hs
      have hc := ckksSubOp_core moduli
        (min (min outIn.level c1in.level) outIn.level) outIn c1in out'
        tmp0 tmp1 out hlen hsc hcomp h
      exact ⟨hc.1, hc.2.1, tmp0, tmp1, hc.2.2, hlt, hgt, heq⟩
  | outIsC1 =>
    simp only at hc0 hc1
    subst c0
    subst c1
    simp only [ckksSubOp] at h
    split at h
    · cases h
    · rename_i r hev
      obtain ⟨out', tmp0, tmp1⟩ := r
      dsimp only at h
      have hs := ckksEvaluateInPlace_spec N moduli pool c0in c1in outIn
        EvalAlias.outIsC1 _ out' tmp0 tmp1 c0in outIn rfl rfl h0 h1 hout
        hpool hev
      obtain ⟨hlen, hsc, hcomp, hlt, hgt, heq⟩ := hs
      have hc := ckksSubOp_core moduli
        (min (min c0in.level outIn.level) outIn.level) c0in outIn out'
        tmp0 tmp1 out hlen hsc hcomp h
      exact ⟨hc.1, hc.2.1, tmp0, tmp1, hc.2.2, hlt, hgt, heq⟩
  | distinct =>
    simp only at hc0 hc1
    subst c0
    subst c1
    simp only [ckksSubOp] at h
    split at h
    · cases h
    · rename_i r hev
      obtain ⟨out', tmp0, tmp1⟩ := r
      dsimp only at h
      have hs := ckksEvaluateInPlace_spec N moduli pool c0in c1in outIn
        EvalAlias.distinct _ out' tmp0 tmp1 c0in c1in rfl rfl h0 h1 hout
        hpool hev
      obtain ⟨hlen, hsc, hcomp, hlt, hgt, heq⟩ := hs
      have hc := ckksSubOp_core moduli
        (min (min c0in.level c1in.level) outIn.level) c0in c1in out'
        tmp0 tmp1 out hlen hsc hcomp h
      exact ⟨hc.1, hc.2.1, tmp0, tmp1, hc.2.2, hlt, hgt, heq⟩

/-- C8: for every successful Scheme-A `Add` or `Sub` — any aliasing of the
receiver with the operands — the result's degree is the maximum of the two
operand degrees and its scale is the maximum of the two operand scales, and
the two elements actually combined by the row-wise operation are the
operands with the smaller-scaled one multiplied by two to the power of the
scale difference (`scaleAligned`) beforehand. -/
theorem C8_add_sub_degree_scale (N : ℕ) (moduli : List ℕ)
    (pool c0in c1in outIn : CkksElem) (al : EvalAlias) (c0 c1 : CkksElem)
    (hc0 : c0 = (match al with | EvalAlias.outIsC0 => outIn | _ => c0in))
    (hc1 : c1 = (match al with | EvalAlias.outIsC1 => outIn | _ => c1in))
    (h0 : c0.value ≠ []) (h1 : c1.value ≠ []) (hout : outIn.value ≠ [])
    (hpool : min c0.level c1.level ≤ pool.level) (out : CkksElem) :
    (ckksAddOp N moduli pool c0in c1in outIn al = some out →
      out.degree = max c0.degree c1.degree ∧
      out.scale = max c0.scale c1.scale ∧
      ∃ tmp0 tmp1,
        (∀ i < min c0.degree c1.degree + 1,
          out.value.getD i ⟨[]⟩ =
            ringAdd (moduli.take (min (min c0.level c1.level) outIn.level + 1))
              (tmp0.value.getD i ⟨[]⟩) (tmp1.value.getD i ⟨[]⟩)) ∧
        scaleAligned (moduli.take (min c0.level c1.level + 1))
          (min c0.degree c1.degree) c0 c1 tmp0 tmp1) ∧
    (ckksSubOp N moduli pool c0in c1in outIn al = some out →
      out.degree = max c0.degree c1.degree ∧
      out.scale = max c0.scale c1.scale ∧
      ∃ tmp0 tmp1,
        (∀ i < min c0.degree c1.degree + 1,
          out.value.getD i ⟨[]⟩ =
            ringSub (moduli.take (min (min c0.level c1.level) outIn.level + 1))
              (tmp0.value.getD i ⟨[]⟩) (tmp1.value.getD i ⟨[]⟩)) ∧
        scaleAligned (moduli.take (min c0.level c1.level + 1))
          (min c0.degree c1.degree) c0 c1 tmp0 tmp1) :=
  ⟨fun h => ckksAddOp_spec N moduli pool c0in c1in outIn al c0 c1 hc0 hc1
      h0 h1 hout hpool out h,
   fun h => ckksSubOp_spec N moduli pool c0in c1in outIn al c0 c1 hc0 hc1
      h0 h1 hout hpool out h⟩

theorem C8_add_sub_degree_scale_witness :
    ((CkksElem.mk [⟨[[3]]⟩] 3 false).degree = 0 ∧
     (CkksElem.mk [⟨[[3]]⟩] 3 false).scale = 3 ∧
     ∃ tmp0 tmp1,
       (∀ i < 1, (CkksElem.mk [⟨[[3]]⟩] 3 false).value.getD i ⟨[]⟩ =
         ringAdd [5] (tmp0.value.getD i ⟨[]⟩) (tmp1.value.getD i ⟨[]⟩)) ∧
       scaleAligned [5] 0 (CkksElem.mk [⟨[[1]]⟩] 3 false)
         (CkksElem.mk [⟨[[2]]⟩] 3 false) tmp0 tmp1) ∧
    ((CkksElem.mk [⟨[[4]]⟩] 3 false).degree = 0 ∧
     (CkksElem.mk [⟨[[4]]⟩] 3 false).scale = 3 ∧
     ∃ tmp0 tmp1,
       (∀ i < 1, (CkksElem.mk [⟨[[4]]⟩] 3 false).value.getD i ⟨[]⟩ =
         ringSub [5] (tmp0.value.getD i ⟨[]⟩) (tmp1.value.getD i ⟨[]⟩)) ∧
       scaleAligned [5] 0 (CkksElem.mk [⟨[[1]]⟩] 3 false)
         (CkksElem.mk [⟨[[2]]⟩] 3 false) tmp0 tmp1) :=
  ⟨(C8_add_sub_degree_scale 1 [5] (CkksElem.mk [⟨[[0]]⟩] 0 false)
      (CkksElem.mk [⟨[[1]]⟩] 3 false) (CkksElem.mk [⟨[[2]]⟩] 3 false)
      (CkksElem.mk [⟨[[0]]⟩] 7 false) EvalAlias.distinct
      (CkksElem.mk [⟨[[1]]⟩] 3 false) (CkksElem.mk [⟨[[2]]⟩] 3 false)
      rfl rfl (by decide) (by decide) (by decide) (by decide)
      (CkksElem.mk [⟨[[3]]⟩] 3 false)).1 (by decide),
   (C8_add_sub_degree_scale 1 [5] (CkksElem.mk [⟨[[0]]⟩] 0 false)
      (CkksElem.mk [⟨[[1]]⟩] 3 false) (CkksElem.mk [⟨[[2]]⟩] 3 false)
      (CkksElem.mk [⟨[[0]]⟩] 7 false) EvalAlias.distinct
      (CkksElem.mk [⟨[[1]]⟩] 3 false) (CkksElem.mk [⟨[[2]]⟩] 3 false)
      rfl rfl (by decide) (by decide) (by decide) (by decide)
      (CkksElem.mk [⟨[[4]]⟩] 3 false)).2 (by decide)⟩

/-! ## C1 : tail components of `Sub` on operands of different degrees

Embeds the Scheme-I `evaluateInPlaceBinary` (part_000 lines 74-95) and the
`Sub` entry point (part_000 lines 137-145).  The pointer comparison
`largest != elOut` of line 90 is the `outIsLargest` flag. -/

/-- Scheme-I `evaluateInPlaceBinary`: combine the first `minDegree + 1`
components with `evaluate`, then, when the degrees differ and the larger
operand is not the receiver, copy — verbatim, whatever `evaluate` was — the
remaining components of the larger operand into the receiver.  Out-of-range
receiver indexing in the copy loop is a crash (`none`); the combine loop
writes only existing receiver components the same way the source indexes
`elOut.value[i]`. -/
def bfvEvaluateInPlaceBinary (copyMods : List ℕ) (el0 el1 elOut : BfvElem)
    (outIsLargest : Bool) (evaluate : RPoly → RPoly → RPoly) :
    Option BfvElem :=
  let minDegree := min el0.degree el1.degree
  let maxDegree := max el0.degree el1.degree
  if elOut.value.length < minDegree + 1 then none
  else
    let out1 : BfvElem := { elOut with value :=
      (List.range elOut.value.length).map (fun i =>
        if i < minDegree + 1 then
          evaluate (el0.value.getD i ⟨[]⟩) (el1.value.getD i ⟨[]⟩)
        else elOut.value.getD i ⟨[]⟩) }
    if (el0.degree > el1.degree ∨ el1.degree > el0.degree) ∧
        outIsLargest = false then
      if out1.value.length < maxDegree + 1 then none
      else
        let largest := if el0.degree > el1.degree then el0 else el1
        some { out1 with value := (List.range out1.value.length).map (fun i =>
          if minDegree + 1 ≤ i ∧ i < maxDegree + 1 then
            ringCopy copyMods (largest.value.getD i ⟨[]⟩)
          else out1.value.getD i ⟨[]⟩) }
    else some out1

/-- Scheme-I `Evaluator.Sub` (part_000 lines 137-145): the checker with
required receiver degree `max(op0.Degree(), op1.Degree())`, then
`evaluateInPlaceBinary` with the row-wise `Sub` of the ring context — no
negation of the copied tail. -/
def bfvSubOp (mods : List ℕ) (op0 op1 opOut : Option BfvElem)
    (outIsLargest : Bool) : Except String (Option BfvElem) :=
  match bfvGetElemAndCheckBinary op0 op1 opOut
      (max (op0.getD ⟨[], false⟩).degree (op1.getD ⟨[], false⟩).degree) with
  | Except.error e => Except.error e
  | Except.ok (el0, el1, elOut) =>
    Except.ok (bfvEvaluateInPlaceBinary mods el0 el1 elOut outIsLargest
      (ringSub mods))

instance {α β : Type} [DecidableEq α] [DecidableEq β] :
    DecidableEq (Except α β) := fun x y =>
  match x, y with
  | Except.error a, Except.error b =>
    if h : a = b then Decidable.isTrue (by rw [h])
    else Decidable.isFalse (by intro hc; cases hc; exact h rfl)
  | Except.error _, Except.ok _ => Decidable.isFalse (by intro hc; cases hc)
  | Except.ok _, Except.error _ => Decidable.isFalse (by intro hc; cases hc)
  | Except.ok a, Except.ok b =>
    if h : a = b then Decidable.isTrue (by rw [h])
    else Decidable.isFalse (by intro hc; cases hc; exact h rfl)

/-- C1: the claimed tail behaviour of `Sub` — remaining components of the
larger operand negated when that operand is the second one — holds for the
Scheme-A evaluator but NOT for the Scheme-I evaluator: on `op0` of degree 0
and `op1` of degree 1 over the modulus 5, the Scheme-I `Sub` copies `op1`'s
component 1 verbatim into the receiver (`[[3]]`, not the negation `[[2]]`),
while the Scheme-A `Sub` on the same data negates it. -/
theorem C1_bfv_sub_tail_not_negated :
    (∃ res : BfvElem,
      bfvSubOp [5] (some (BfvElem.mk [⟨[[1]]⟩] false))
          (some (BfvElem.mk [⟨[[2]]⟩, ⟨[[3]]⟩] false))
          (some (BfvElem.mk [⟨[[0]]⟩, ⟨[[0]]⟩] false)) false =
        Except.ok (some res) ∧
      res.value.getD 1 ⟨[]⟩ = ringCopy [5] ⟨[[3]]⟩ ∧
      res.value.getD 1 ⟨[]⟩ ≠ ringNeg [5] ⟨[[3]]⟩) ∧
    (∃ res : CkksElem,
      ckksSubOp 1 [5] (CkksElem.mk [⟨[[0]]⟩] 0 false)
          (CkksElem.mk [⟨[[1]]⟩] 3 false)
          (CkksElem.mk [⟨[[2]]⟩, ⟨[[3]]⟩] 3 false)
          (CkksElem.mk [⟨[[0]]⟩, ⟨[[0]]⟩] 3 false) EvalAlias.distinct =
        some res ∧
      res.value.getD 1 ⟨[]⟩ = ringNeg [5] ⟨[[3]]⟩) :=
  ⟨⟨BfvElem.mk [⟨[[4]]⟩, ⟨[[3]]⟩] false, by decide⟩,
   ⟨CkksElem.mk [⟨[[4]]⟩, ⟨[[2]]⟩] 3 false, by decide⟩⟩

/-! ## C2 : receiver state when an evaluator operation rejects its input

Embeds Scheme-A `Evaluator.MulRelin` (operand.go lines 1252-1277) up to its
last error return.  The tensoring-and-relinearization tail (lines
1278-1373) returns no errors and is abstracted as an arbitrary continuation
`rest` applied to the receiver after `SetScale`; every theorem below holds
for every such continuation. -/

lemma ckksDropLevelRaw_isNTT (e : CkksElem) (k : ℕ) :
    (ckksDropLevelRaw e k).isNTT = e.isNTT := by
  unfold ckksDropLevelRaw
  by_cases h : e.level = 0
  · rw [if_pos h]
  · rw [if_neg h]

lemma ckksChecker_error_strings (op0 op1 opOut : Option CkksElem)
    (mind : ℕ) (e : String)
    (h : ckksGetElemAndCheckBinary op0 op1 opOut mind = Except.error e) :
    e = "operands cannot be nil" ∨ e = "operands cannot be both plaintext" ∨
    e = "receiver operand degree is too small" := by
  unfold ckksGetElemAndCheckBinary at h
  by_cases h1 : op0 = none ∨ op1 = none ∨ opOut = none
  · rw [if_pos h1] at h
    cases h
    left; rfl
  · rw [if_neg h1] at h
    dsimp only at h
    split at h
    · cases h
      right; left; rfl
    · split at h
      · cases h
        right; right; rfl
      · cases h

lemma ckksChecker_ok (op0 op1 opOut : Option CkksElem) (mind : ℕ)
    (el0 el1 elOut : CkksElem)
    (h : ckksGetElemAndCheckBinary op0 op1 opOut mind =
      Except.ok (el0, el1, elOut)) :
    op0 = some el0 ∧ op1 = some el1 ∧ opOut = some elOut := by
  unfold ckksGetElemAndCheckBinary at h
  by_cases h1 : op0 = none ∨ op1 = none ∨ opOut = none
  · rw [if_pos h1] at h
    cases h
  · rw [if_neg h1] at h
    push_neg at h1
    obtain ⟨hn0, hn1, hn2⟩ := h1
    dsimp only at h
    split at h
    · cases h
    · split at h
      · cases h
      · cases h
        cases hop0 : op0 with
        | none => exact absurd hop0 hn0
        | some x =>
          cases hop1 : op1 with
          | none => exact absurd hop1 hn1
          | some y =>
            cases hop2 : opOut with
            | none => exact absurd hop2 hn2
            | some z => simp

/-- Scheme-A `Evaluator.MulRelin` (operand.go lines 1252-1277): the binary
checker, then — before any degree or NTT check — the receiver's level is
dropped to the minimum of the three levels, then the degree-and-NTT
rejections, then `SetScale`, then the tensoring tail `rest`.  An error is
returned together with the receiver's state at that moment (the state of
`ctOut`, which the caller keeps after the call). -/
def ckksMulRelin (op0 op1 opOut : Option CkksElem)
    (rest : CkksElem → CkksElem) : Except (String × Option CkksElem) CkksElem :=
  match ckksGetElemAndCheckBinary op0 op1 opOut
      (max (op0.getD ⟨[], 0, false⟩).degree (op1.getD ⟨[], 0, false⟩).degree) with
  | Except.error e => Except.error (e, opOut)
  | Except.ok (el0, el1, elOut) =>
    let minLevel := min (min el0.level el1.level) elOut.level
    let elOut1 := if minLevel < elOut.level then
      ckksDropLevelRaw elOut (elOut.level - minLevel) else elOut
    if el0.degree > 1 ∨ el1.degree > 1 then
      Except.error
        ("cannont mul -> input element and output element must be of degree 0 or 1",
         some elOut1)
    else if el0.isNTT = false then
      Except.error ("cannot mul -> op0 must be in NTT to multiply", some elOut1)
    else if el1.isNTT = false then
      Except.error ("cannot mul -> op1 must be in NTT to multiply", some elOut1)
    else Except.ok (rest { elOut1 with scale := el0.scale + el1.scale })

/-- C2 counterexample: on a non-NTT first operand of level 0 and a receiver
of level 1, `MulRelin` returns the NTT-rejection error but the receiver has
already lost its top level: its observable state after the call differs from
its state before the call, refuting the claim that every
precondition-violation error leaves the receiver unchanged. -/
theorem C2_counterexample :
    ∃ e r, ckksMulRelin
        (some (CkksElem.mk [⟨[[1]]⟩, ⟨[[1]]⟩] 1 false))
        (some (CkksElem.mk [⟨[[2]]⟩] 1 true))
        (some (CkksElem.mk [⟨[[0], [0]]⟩, ⟨[[0], [0]]⟩] 9 false))
        (fun x => x) = Except.error (e, r) ∧
      e = "cannot mul -> op0 must be in NTT to multiply" ∧
      r ≠ some (CkksElem.mk [⟨[[0], [0]]⟩, ⟨[[0], [0]]⟩] 9 false) :=
  ⟨"cannot mul -> op0 must be in NTT to multiply",
   some (CkksElem.mk [⟨[[0]]⟩, ⟨[[0]]⟩] 9 false), by decide⟩

/-- C2 (amended): when `MulRelin` rejects its input, the checker failures
(nil operand, both operands plaintext, receiver degree too small) leave the
receiver exactly as it was; the degree-out-of-range and non-NTT rejections
return with the receiver unchanged in degree, scale, NTT flag and all rows
up to the minimum of the three levels, but with its level already lowered
to that minimum. -/
theorem C2_mulRelin_receiver_on_error (op0 op1 opOut : Option CkksElem)
    (rest : CkksElem → CkksElem) (e : String) (r : Option CkksElem)
    (h : ckksMulRelin op0 op1 opOut rest = Except.error (e, r)) :
    ((e = "operands cannot be nil" ∨ e = "operands cannot be both plaintext" ∨
      e = "receiver operand degree is too small") ∧ r = opOut) ∨
    ((e = "cannont mul -> input element and output element must be of degree 0 or 1" ∨
      e = "cannot mul -> op0 must be in NTT to multiply" ∨
      e = "cannot mul -> op1 must be in NTT to multiply") ∧
     ∃ el0 el1 elOut rr, op0 = some el0 ∧ op1 = some el1 ∧
       opOut = some elOut ∧ r = some rr ∧
       rr.value.length = elOut.value.length ∧ rr.scale = elOut.scale ∧
       rr.isNTT = elOut.isNTT ∧
       rr.level = min (min el0.level el1.level) elOut.level ∧
       (∀ i j u, j < min (min el0.level el1.level) elOut.level + 1 →
         polyGet (rr.value.getD i ⟨[]⟩) j u =
           polyGet (elOut.value.getD i ⟨[]⟩) j u)) := by
  unfold ckksMulRelin at h
  cases hchk : ckksGetElemAndCheckBinary op0 op1 opOut
      (max (op0.getD ⟨[], 0, false⟩).degree (op1.getD ⟨[], 0, false⟩).degree) with
  | error e' =>
    rw [hchk] at h
    injection h with hp
    rw [Prod.mk.injEq] at hp
    obtain ⟨he, hr⟩ := hp
    subst he
    exact Or.inl ⟨ckksChecker_error_strings _ _ _ _ _ hchk, hr.symm⟩
  | ok t =>
    obtain ⟨el0, el1, elOut⟩ := t
    rw [hchk] at h
    obtain ⟨hop0, hop1, hop2⟩ := ckksChecker_ok _ _ _ _ _ _ _ hchk
    dsimp only at h
    have hfacts : ∀ rr,
        rr = (if min (min el0.level el1.level) elOut.level < elOut.level
          then ckksDropLevelRaw elOut
            (elOut.level - min (min el0.level el1.level) elOut.level)
          else elOut) →
        rr.value.length = elOut.value.length ∧ rr.scale = elOut.scale ∧
        rr.isNTT = elOut.isNTT ∧
        rr.level = min (min el0.level el1.level) elOut.level ∧
        (∀ i j u, j < min (min el0.level el1.level) elOut.level + 1 →
          polyGet (rr.value.getD i ⟨[]⟩) j u =
            polyGet (elOut.value.getD i ⟨[]⟩) j u) := by
      intro rr hrr
      by_cases hlt : min (min el0.level el1.level) elOut.level < elOut.level
      · rw [if_pos hlt] at hrr
        subst hrr
        refine ⟨ckksDropLevelRaw_length _ _, ckksDropLevelRaw_scale _ _,
          ckksDropLevelRaw_isNTT _ _, ?_, ?_⟩
        · rw [ckksDropLevelRaw_level]
          omega
        · intro i j u hj
          exact ckksDropLevelRaw_polyGet _ _ _ _ _ (by omega)
      · rw [if_neg hlt] at hrr
        subst rr
        have hmin : min (min el0.level el1.level) elOut.level = elOut.level := by
          omega
        exact ⟨rfl, rfl, rfl, hmin.symm, fun i j u hj => rfl⟩
    split at h
    · injection h with hp
      rw [Prod.mk.injEq] at hp
      obtain ⟨he, hr⟩ := hp
      obtain ⟨f1, f2, f3, f4, f5⟩ := hfacts _ rfl
      exact Or.inr ⟨Or.inl he.symm,
        el0, el1, elOut, _, hop0, hop1, hop2, hr.symm, f1, f2, f3, f4, f5⟩
    · split at h
      · injection h with hp
        rw [Prod.mk.injEq] at hp
        obtain ⟨he, hr⟩ := hp
        obtain ⟨f1, f2, f3, f4, f5⟩ := hfacts _ rfl
        exact Or.inr ⟨Or.inr (Or.inl he.symm),
          el0, el1, elOut, _, hop0, hop1, hop2, hr.symm, f1, f2, f3, f4, f5⟩
      · split at h
        · injection h with hp
          rw [Prod.mk.injEq] at hp
          obtain ⟨he, hr⟩ := hp
          obtain ⟨f1, f2, f3, f4, f5⟩ := hfacts _ rfl
          exact Or.inr ⟨Or.inr (Or.inr he.symm),
            el0, el1, elOut, _, hop0, hop1, hop2, hr.symm, f1, f2, f3, f4, f5⟩
        · cases h

theorem C2_mulRelin_receiver_on_error_witness :
    (("cannot mul -> op0 must be in NTT to multiply" = "operands cannot be nil" ∨
      "cannot mul -> op0 must be in NTT to multiply" =
        "operands cannot be both plaintext" ∨
      "cannot mul -> op0 must be in NTT to multiply" =
        "receiver operand degree is too small") ∧
      some (CkksElem.mk [⟨[[0]]⟩, ⟨[[0]]⟩] 9 false) =
        some (CkksElem.mk [⟨[[0], [0]]⟩, ⟨[[0], [0]]⟩] 9 false)) ∨
    (("cannot mul -> op0 must be in NTT to multiply" =
        "cannont mul -> input element and output element must be of degree 0 or 1" ∨
      "cannot mul -> op0 must be in NTT to multiply" =
        "cannot mul -> op0 must be in NTT to multiply" ∨
      "cannot mul -> op0 must be in NTT to multiply" =
        "cannot mul -> op1 must be in NTT to multiply") ∧
     ∃ el0 el1 elOut rr,
       some (CkksElem.mk [⟨[[1]]⟩, ⟨[[1]]⟩] 1 false) = some el0 ∧
       some (CkksElem.mk [⟨[[2]]⟩] 1 true) = some el1 ∧
       some (CkksElem.mk [⟨[[0], [0]]⟩, ⟨[[0], [0]]⟩] 9 false) = some elOut ∧
       some (CkksElem.mk [⟨[[0]]⟩, ⟨[[0]]⟩] 9 false) = some rr ∧
       rr.value.length = elOut.value.length ∧ rr.scale = elOut.scale ∧
       rr.isNTT = elOut.isNTT ∧
       rr.level = min (min el0.level el1.level) elOut.level ∧
       (∀ i j u, j < min (min el0.level el1.level) elOut.level + 1 →
         polyGet (rr.value.getD i ⟨[]⟩) j u =
           polyGet (elOut.value.getD i ⟨[]⟩) j u)) :=
  C2_mulRelin_receiver_on_error
    (some (CkksElem.mk [⟨[[1]]⟩, ⟨[[1]]⟩] 1 false))
    (some (CkksElem.mk [⟨[[2]]⟩] 1 true))
    (some (CkksElem.mk [⟨[[0], [0]]⟩, ⟨[[0], [0]]⟩] 9 false))
    (fun x => x) "cannot mul -> op0 must be in NTT to multiply"
    (some (CkksElem.mk [⟨[[0]]⟩, ⟨[[0]]⟩] 9 false)) (by decide)

/-! ## C5 : the Scheme-A `Rescale` error conditions and rescaling loop

Embeds `Evaluator.Rescale` (operand.go lines 1162-1197).  The per-row
modulus-switching arithmetic of the helper `rescale` (lines 1201-1233) is
abstracted as a parameter `modSwitch` giving each surviving row; the
structural truncation `p1.Coeffs = p1.Coeffs[:level]` (line 1232) — every
component losing exactly its top row — is kept concrete, as is the whole
control flow of `Rescale` itself.  Every theorem below holds for every
`modSwitch`. -/

/-- One iteration of the `Rescale` loop body (operand.go lines 1183-1191):
the scale drops by `scalechain[c1.Level()]` — read at the pre-iteration
level — and every component is rewritten to its first `level` rows by the
helper `rescale`. -/
def ckksRescaleStep (scalechain : List ℕ)
    (modSwitch : RPoly → ℕ → List ℕ) (c : CkksElem) : CkksElem :=
  { c with
    scale := c.scale - scalechain.getD c.level 0,
    value := c.value.map (fun p =>
      ⟨(List.range (p.Coeffs.length - 1)).map (modSwitch p)⟩) }

/-- The `for c1.Scale() >= logScale + scalechain[c1.Level()] && c1.Level()
> 0` loop of `Rescale`, with explicit fuel (the level strictly decreases
each iteration, so `initial level + 1` fuel is exact). -/
def ckksRescaleLoop (scalechain : List ℕ) (logScale : ℕ)
    (modSwitch : RPoly → ℕ → List ℕ) : ℕ → CkksElem → CkksElem
  | 0, c => c
  | fuel + 1, c =>
    if logScale + scalechain.getD c.level 0 ≤ c.scale ∧ 0 < c.level then
      ckksRescaleLoop scalechain logScale modSwitch fuel
        (ckksRescaleStep scalechain modSwitch c)
    else c

/-- `Evaluator.Rescale` (operand.go lines 1162-1197): level-0 error, then
receiver-level-mismatch error, then — only when the scale is at least
`scalechain[c1.Level()] + logScale` — the NTT requirement and the
rescaling loop on a copy of the input; below the threshold the input is
copied to the receiver with no check at all. -/
def ckksRescale (scalechain : List ℕ) (logScale : ℕ)
    (modSwitch : RPoly → ℕ → List ℕ) (ct0 c1 : CkksElem) :
    Except String CkksElem :=
  if ct0.level = 0 then
    Except.error "cannot rescale -> input ciphertext already at level 0"
  else if ct0.level ≠ c1.level then
    Except.error
      "cannot rescale -> reciever ciphertext does not match input ciphertext level"
  else if scalechain.getD c1.level 0 + logScale ≤ ct0.scale then
    if ct0.isNTT = false then
      Except.error "cannot rescale -> input ciphertext not in NTT"
    else
      Except.ok (ckksRescaleLoop scalechain logScale modSwitch
        (ct0.level + 1) ct0)
  else Except.ok ct0

lemma getD_map_zero (f : RPoly → RPoly) (l : List RPoly)
    (h : 0 < l.length) :
    (l.map f).getD 0 ⟨[]⟩ = f (l.getD 0 ⟨[]⟩) := by
  have hm : 0 < (l.map f).length := by rw [List.length_map]; exact h
  rw [List.getD_eq_getElem _ _ hm, List.getElem_map,
    List.getD_eq_getElem _ _ h]

lemma ckksRescaleStep_level (scalechain : List ℕ)
    (modSwitch : RPoly → ℕ → List ℕ) (c : CkksElem) (h : 0 < c.level) :
    (ckksRescaleStep scalechain modSwitch c).level = c.level - 1 := by
  have hv : 0 < c.value.length := by
    by_contra hv
    have : c.value = [] := by
      cases hcv : c.value with
      | nil => rfl
      | cons a l => rw [hcv] at hv; simp at hv
    have : c.level = 0 := by
      unfold CkksElem.level
      rw [this]
      simp
    omega
  have hrow : (c.value.getD 0 ⟨[]⟩).Coeffs.length = c.level + 1 := by
    have : c.level = (c.value.getD 0 ⟨[]⟩).Coeffs.length - 1 := rfl
    omega
  unfold ckksRescaleStep CkksElem.level
  dsimp only
  rw [getD_map_zero _ _ hv]
  simp only [List.length_map, List.length_range]

/-- C5 counterexample: a non-NTT input at level 1 whose scale is below the
`scalechain + logScale` threshold is not rejected — `Rescale` copies it to
the receiver and returns success, refuting `returning an error for every
non-NTT input`. -/
theorem C5_counterexample :
    ckksRescale [10, 10] 10 (fun p i => p.Coeffs.getD i [])
        (CkksElem.mk [⟨[[1], [2]]⟩] 5 false)
        (CkksElem.mk [⟨[[0], [0]]⟩] 0 false) =
      Except.ok (CkksElem.mk [⟨[[1], [2]]⟩] 5 false) ∧
    (CkksElem.mk [⟨[[1], [2]]⟩] 5 false).isNTT = false ∧
    0 < (CkksElem.mk [⟨[[1], [2]]⟩] 5 false).level := by decide

/-- C5 (amended): `Rescale` returns the level-0 error exactly when the
input is at level 0; it returns the NTT error exactly when the input is not
at level 0, matches the receiver's level, has scale at least
`scalechain[level] + logScale` AND is not in NTT — a non-NTT input below
that scale threshold is accepted and merely copied; and the rescaling loop
runs while the scale is at least `logScale + scalechain[level]` (and the
level positive), each iteration dropping the scale by the current top
modulus's `scalechain` entry and the level by one. -/
theorem C5_rescale_errors_and_schedule (scalechain : List ℕ) (logScale : ℕ)
    (modSwitch : RPoly → ℕ → List ℕ) (ct0 c1 : CkksElem) :
    (ckksRescale scalechain logScale modSwitch ct0 c1 =
        Except.error "cannot rescale -> input ciphertext already at level 0" ↔
      ct0.level = 0) ∧
    (ckksRescale scalechain logScale modSwitch ct0 c1 =
        Except.error "cannot rescale -> input ciphertext not in NTT" ↔
      (ct0.level ≠ 0 ∧ ct0.level = c1.level ∧
       scalechain.getD c1.level 0 + logScale ≤ ct0.scale ∧
       ct0.isNTT = false)) ∧
    (∀ fuel c, ¬(logScale + scalechain.getD c.level 0 ≤ c.scale ∧ 0 < c.level) →
      ckksRescaleLoop scalechain logScale modSwitch (fuel + 1) c = c) ∧
    (∀ fuel c, logScale + scalechain.getD c.level 0 ≤ c.scale → 0 < c.level →
      ckksRescaleLoop scalechain logScale modSwitch (fuel + 1) c =
        ckksRescaleLoop scalechain logScale modSwitch fuel
          (ckksRescaleStep scalechain modSwitch c) ∧
      (ckksRescaleStep scalechain modSwitch c).scale =
        c.scale - scalechain.getD c.level 0 ∧
      (ckksRescaleStep scalechain modSwitch c).level = c.level - 1) := by
  refine ⟨?_, ?_, ?_, ?_⟩
  · unfold ckksRescale
    split_ifs with h0 h1 h2 h3
    · simp [h0]
    · exact iff_of_false
        (by intro hX; injection hX with hs; exact absurd hs (by decide)) h0
    · exact iff_of_false
        (by intro hX; injection hX with hs; exact absurd hs (by decide)) h0
    · exact iff_of_false (by intro hX; cases hX) h0
    · exact iff_of_false (by intro hX; cases hX) h0
  · unfold ckksRescale
    split_ifs with h0 h1 h2 h3
    · exact iff_of_false
        (by intro hX; injection hX with hs; exact absurd hs (by decide))
        (by intro hR; exact hR.1 h0)
    · exact iff_of_false
        (by intro hX; injection hX with hs; exact absurd hs (by decide))
        (by intro hR; exact h1 hR.2.1)
    · exact iff_of_true rfl ⟨h0, by omega, h2, h3⟩
    · exact iff_of_false (by intro hX; cases hX)
        (by intro hR; exact h3 hR.2.2.2)
    · exact iff_of_false (by intro hX; cases hX)
        (by intro hR; exact h2 hR.2.2.1)
  · intro fuel c h
    simp only [ckksRescaleLoop]
    rw [if_neg h]
  · intro fuel c h1 h2
    refine ⟨?_, rfl, ckksRescaleStep_level _ _ _ h2⟩
    simp only [ckksRescaleLoop]
    rw [if_pos ⟨h1, h2⟩]

theorem C5_rescale_errors_and_schedule_witness :
    ckksRescaleLoop [10, 10] 10 (fun p i => p.Coeffs.getD i []) 1
        (CkksElem.mk [⟨[[1], [2]]⟩] 25 true) =
      ckksRescaleLoop [10, 10] 10 (fun p i => p.Coeffs.getD i []) 0
        (ckksRescaleStep [10, 10] (fun p i => p.Coeffs.getD i [])
          (CkksElem.mk [⟨[[1], [2]]⟩] 25 true)) ∧
    (ckksRescaleStep [10, 10] (fun p i => p.Coeffs.getD i [])
      (CkksElem.mk [⟨[[1], [2]]⟩] 25 true)).scale = 15 ∧
    (ckksRescaleStep [10, 10] (fun p i => p.Coeffs.getD i [])
      (CkksElem.mk [⟨[[1], [2]]⟩] 25 true)).level = 0 :=
  (C5_rescale_errors_and_schedule [10, 10] 10 (fun p i => p.Coeffs.getD i [])
      (CkksElem.mk [⟨[[1], [2]]⟩] 25 true)
      (CkksElem.mk [⟨[[1], [2]]⟩] 25 true)).2.2.2 0
    (CkksElem.mk [⟨[[1], [2]]⟩] 25 true) (by decide) (by decide)

/-! ## C4 : the NTT/InvNTT round trip

The plan: the forward transform is the butterfly stages `m = 1, 2, ..., N/2`
(`t = N/(2m)`) followed by an exact reduction; the inverse applies the
inverse stages in the opposite order followed by the exact multiplication
by `N^{-1}` in Montgomery form.  Each inverse stage undoes the forward
stage with the same index pairs up to a factor `2` modulo `q`, because the
twiddle read from `nttPsi` and the one read from `nttPsiInv` at the same
table index multiply to `R^2 mod q` (both tables walk the same bit-reversed
order, one with `psi`, the other with `psi^{-1}`, and
`psi·psi^{-1} = g^{q-1} = 1`).  Telescoping the `n = log2 N` stages gives
`N · p`, and the final `MRed(·, nttNInv)` cancels the factor exactly. -/

lemma bitRev_lt (len x : ℕ) : bitRev len x < 2 ^ len := by
  induction len generalizing x with
  | zero => simp [bitRev]
  | succ len ih =>
    show bitRev len (x / 2) + x % 2 * 2 ^ len < 2 ^ (len + 1)
    have h1 := ih (x / 2)
    have h2 : x % 2 < 2 := Nat.mod_lt _ (by omega)
    have h3 : x % 2 * 2 ^ len ≤ 1 * 2 ^ len := by
      apply Nat.mul_le_mul_right
      omega
    rw [pow_succ]
    omega

lemma bitRev_snoc (len y b : ℕ) (hy : y < 2 ^ len) (hb : b < 2) :
    bitRev (len + 1) (y + b * 2 ^ len) = 2 * bitRev len y + b := by
  induction len generalizing y b with
  | zero =>
    have hy0 : y = 0 := by omega
    subst hy0
    show bitRev 0 ((0 + b * 1) / 2) + (0 + b * 1) % 2 * 2 ^ 0 = 2 * bitRev 0 0 + b
    simp [bitRev]
    omega
  | succ len ih =>
    show bitRev (len + 1) ((y + b * 2 ^ (len + 1)) / 2) +
      (y + b * 2 ^ (len + 1)) % 2 * 2 ^ (len + 1) =
      2 * bitRev (len + 1) y + b
    have hdiv : (y + b * 2 ^ (len + 1)) / 2 = y / 2 + b * 2 ^ len := by
      rw [pow_succ, ← mul_assoc]
      exact Nat.add_mul_div_right _ _ (by norm_num)
    have hmod : (y + b * 2 ^ (len + 1)) % 2 = y % 2 := by
      rw [pow_succ, ← mul_assoc, Nat.add_mul_mod_self_right]
    rw [hdiv, hmod, ih (y / 2) b (by
      have : y < 2 ^ (len + 1) := hy
      rw [pow_succ] at this
      omega) hb]
    show 2 * bitRev len (y / 2) + b + y % 2 * 2 ^ (len + 1) =
      2 * (bitRev len (y / 2) + y % 2 * 2 ^ len) + b
    rw [pow_succ]
    ring

lemma bitRev_bitRev (len x : ℕ) (hx : x < 2 ^ len) :
    bitRev len (bitRev len x) = x := by
  induction len generalizing x with
  | zero =>
    have : x = 0 := by omega
    simp [this, bitRev]
  | succ len ih =>
    show bitRev (len + 1) (bitRev len (x / 2) + x % 2 * 2 ^ len) = x
    rw [bitRev_snoc len (bitRev len (x / 2)) (x % 2) (bitRev_lt _ _) (by omega)]
    rw [ih (x / 2) (by rw [pow_succ] at hx; omega)]
    omega

lemma bitRev_inj (len x y : ℕ) (hx : x < 2 ^ len) (hy : y < 2 ^ len)
    (h : bitRev len x = bitRev len y) : x = y := by
  have := bitRev_bitRev len x hx
  rw [h, bitRev_bitRev len y hy] at this
  exact this.symm

lemma applyBfs_untouched (bf : ℕ → ℕ → ℕ → ℕ × ℕ) (ps : List BfPair)
    (w : ℕ → ℕ) (x : ℕ) (h : ∀ p ∈ ps, p.a ≠ x ∧ p.b ≠ x) :
    applyBfs bf ps w x = w x := by
  induction ps generalizing w with
  | nil => rfl
  | cons p ps ih =>
    show applyBfs bf ps (applyBf bf w p) x = w x
    rw [ih (applyBf bf w p) (fun p' hp' => h p' (List.mem_cons_of_mem _ hp'))]
    obtain ⟨ha, hb⟩ := h p (List.mem_cons_self _ _)
    unfold applyBf
    rw [Function.update_noteq (Ne.symm hb), Function.update_noteq (Ne.symm ha)]

lemma applyBfs_block_eval (bf : ℕ → ℕ → ℕ → ℕ × ℕ) (c t tw : ℕ)
    (l : List ℕ) (hlt : ∀ d ∈ l, d < t) (hnd : l.Nodup) (dj : ℕ)
    (hmem : dj ∈ l) (w : ℕ → ℕ) :
    applyBfs bf (l.map (fun d => ⟨c + d, c + d + t, tw⟩)) w (c + dj) =
      (bf (w (c + dj)) (w (c + dj + t)) tw).1 ∧
    applyBfs bf (l.map (fun d => ⟨c + d, c + d + t, tw⟩)) w (c + dj + t) =
      (bf (w (c + dj)) (w (c + dj + t)) tw).2 := by
  induction l generalizing w with
  | nil => cases hmem
  | cons d0 l ih =>
    rw [List.nodup_cons] at hnd
    have hd0t : d0 < t := hlt d0 (List.mem_cons_self _ _)
    rcases List.mem_cons.mp hmem with hdj | hdj
    · subst hdj
      have hunt : ∀ p ∈ l.map (fun d =>
          (⟨c + d, c + d + t, tw⟩ : BfPair)), (p.a ≠ c + dj ∧ p.b ≠ c + dj) ∧
          (p.a ≠ c + dj + t ∧ p.b ≠ c + dj + t) := by
        intro p hp
        rw [List.mem_map] at hp
        obtain ⟨d, hd, rfl⟩ := hp
        have hdt : d < t := hlt d (List.mem_cons_of_mem _ hd)
        have hne : d ≠ dj := fun hc => hnd.1 (hc ▸ hd)
        exact ⟨⟨by simp; omega, by simp; omega⟩, ⟨by simp; omega, by simp; omega⟩⟩
      constructor
      · show applyBfs bf (l.map _) (applyBf bf w _) (c + dj) = _
        rw [applyBfs_untouched bf _ _ _ (fun p hp => (hunt p hp).1)]
        unfold applyBf
        rw [Function.update_noteq (by simp; omega), Function.update_same]
      · show applyBfs bf (l.map _) (applyBf bf w _) (c + dj + t) = _
        rw [applyBfs_untouched bf _ _ _ (fun p hp => (hunt p hp).2)]
        unfold applyBf
        rw [Function.update_same]
    · have hdt : dj < t := hlt dj (List.mem_cons_of_mem _ hdj)
      have hne : dj ≠ d0 := fun hc => hnd.1 (hc ▸ hdj)
      have ihs := ih (fun d hd => hlt d (List.mem_cons_of_mem _ hd)) hnd.2 hdj
        (applyBf bf w ⟨c + d0, c + d0 + t, tw⟩)
      have hva : applyBf bf w (⟨c + d0, c + d0 + t, tw⟩ : BfPair) (c + dj) =
          w (c + dj) := by
        unfold applyBf
        rw [Function.update_noteq (by simp; omega),
          Function.update_noteq (by simp; omega)]
      have hvb : applyBf bf w (⟨c + d0, c + d0 + t, tw⟩ : BfPair) (c + dj + t) =
          w (c + dj + t) := by
        unfold applyBf
        rw [Function.update_noteq (by simp; omega),
          Function.update_noteq (by simp; omega)]
      rw [hva, hvb] at ihs
      exact ihs

/-- The stage pair list with the twiddle base `M` decoupled from the block
count (for the block induction; `stagePairs m t tab = stageBlocks m t tab m`). -/
def stageBlocks (M t : ℕ) (tab : ℕ → ℕ) (m : ℕ) : List BfPair :=
  (List.range m).flatMap (fun i =>
    (List.range t).map (fun dj =>
      ⟨2 * t * i + dj, 2 * t * i + dj + t, tab (M + i)⟩))

lemma stagePairs_eq_blocks (m t : ℕ) (tab : ℕ → ℕ) :
    stagePairs m t tab = stageBlocks m t tab m := rfl

lemma stageBlocks_succ (M t : ℕ) (tab : ℕ → ℕ) (m : ℕ) :
    stageBlocks M t tab (m + 1) = stageBlocks M t tab m ++
      (List.range t).map (fun dj =>
        ⟨2 * t * m + dj, 2 * t * m + dj + t, tab (M + m)⟩) := by
  unfold stageBlocks
  rw [List.range_succ, List.flatMap_append]
  simp

lemma stageBlocks_endpoints (M t : ℕ) (tab : ℕ → ℕ) (m : ℕ)
    (p : BfPair) (hp : p ∈ stageBlocks M t tab m) :
    p.a < 2 * t * m ∧ p.b < 2 * t * m := by
  unfold stageBlocks at hp
  rw [List.mem_flatMap] at hp
  obtain ⟨i, hi, hp⟩ := hp
  rw [List.mem_range] at hi
  rw [List.mem_map] at hp
  obtain ⟨dj, hdj, rfl⟩ := hp
  rw [List.mem_range] at hdj
  constructor
  · show 2 * t * i + dj < 2 * t * m
    have : 2 * t * (i + 1) ≤ 2 * t * m := Nat.mul_le_mul_left _ (by omega)
    have h2 : 2 * t * i + 2 * t = 2 * t * (i + 1) := by ring
    omega
  · show 2 * t * i + dj + t < 2 * t * m
    have : 2 * t * (i + 1) ≤ 2 * t * m := Nat.mul_le_mul_left _ (by omega)
    have h2 : 2 * t * i + 2 * t = 2 * t * (i + 1) := by ring
    omega

lemma applyBfs_append (bf : ℕ → ℕ → ℕ → ℕ × ℕ) (l1 l2 : List BfPair)
    (w : ℕ → ℕ) : applyBfs bf (l1 ++ l2) w = applyBfs bf l2 (applyBfs bf l1 w) := by
  unfold applyBfs
  rw [List.foldl_append]

lemma stageBlocks_eval (bf : ℕ → ℕ → ℕ → ℕ × ℕ) (M t : ℕ) (tab : ℕ → ℕ)
    (m : ℕ) (i dj : ℕ) (hi : i < m) (hdj : dj < t) (w : ℕ → ℕ) :
    applyBfs bf (stageBlocks M t tab m) w (2 * t * i + dj) =
      (bf (w (2 * t * i + dj)) (w (2 * t * i + dj + t)) (tab (M + i))).1 ∧
    applyBfs bf (stageBlocks M t tab m) w (2 * t * i + dj + t) =
      (bf (w (2 * t * i + dj)) (w (2 * t * i + dj + t)) (tab (M + i))).2 := by
  induction m generalizing w with
  | zero => omega
  | succ m ih =>
    rw [stageBlocks_succ, applyBfs_append]
    rcases Nat.lt_or_ge i m with him | him
    · have hbound : 2 * t * i + dj + t < 2 * t * m := by
        have : 2 * t * (i + 1) ≤ 2 * t * m := Nat.mul_le_mul_left _ (by omega)
        have h2 : 2 * t * i + 2 * t = 2 * t * (i + 1) := by ring
        omega
      have hunt : ∀ p ∈ (List.range t).map (fun dj =>
          (⟨2 * t * m + dj, 2 * t * m + dj + t, tab (M + m)⟩ : BfPair)),
          (p.a ≠ 2 * t * i + dj ∧ p.b ≠ 2 * t * i + dj) ∧
          (p.a ≠ 2 * t * i + dj + t ∧ p.b ≠ 2 * t * i + dj + t) := by
        intro p hp
        rw [List.mem_map] at hp
        obtain ⟨d, hd, rfl⟩ := hp
        exact ⟨⟨by simp; omega, by simp; omega⟩, ⟨by simp; omega, by simp; omega⟩⟩
      rw [applyBfs_untouched bf _ _ _ (fun p hp => (hunt p hp).1),
        applyBfs_untouched bf _ _ _ (fun p hp => (hunt p hp).2)]
      exact ih him w
    · have hieq : i = m := by omega
      subst hieq
      have hw1a : applyBfs bf (stageBlocks M t tab i) w (2 * t * i + dj) =
          w (2 * t * i + dj) := by
        apply applyBfs_untouched
        intro p hp
        have := stageBlocks_endpoints M t tab i p hp
        omega
      have hw1b : applyBfs bf (stageBlocks M t tab i) w (2 * t * i + dj + t) =
          w (2 * t * i + dj + t) := by
        apply applyBfs_untouched
        intro p hp
        have := stageBlocks_endpoints M t tab i p hp
        omega
      have hblk := applyBfs_block_eval bf (2 * t * i) t (tab (M + i))
        (List.range t) (fun d hd => List.mem_range.mp hd) (List.nodup_range t)
        dj (List.mem_range.mpr hdj) (applyBfs bf (stageBlocks M t tab i) w)
      rw [hw1a, hw1b] at hblk
      exact hblk

lemma stagePairs_eval_a (bf : ℕ → ℕ → ℕ → ℕ × ℕ) (m t : ℕ) (tab : ℕ → ℕ)
    (i dj : ℕ) (hi : i < m) (hdj : dj < t) (w : ℕ → ℕ) :
    applyBfs bf (stagePairs m t tab) w (2 * t * i + dj) =
      (bf (w (2 * t * i + dj)) (w (2 * t * i + dj + t)) (tab (m + i))).1 := by
  rw [stagePairs_eq_blocks]
  exact (stageBlocks_eval bf m t tab m i dj hi hdj w).1

lemma stagePairs_eval_b (bf : ℕ → ℕ → ℕ → ℕ × ℕ) (m t : ℕ) (tab : ℕ → ℕ)
    (i dj : ℕ) (hi : i < m) (hdj : dj < t) (w : ℕ → ℕ) :
    applyBfs bf (stagePairs m t tab) w (2 * t * i + dj + t) =
      (bf (w (2 * t * i + dj)) (w (2 * t * i + dj + t)) (tab (m + i))).2 := by
  rw [stagePairs_eq_blocks]
  exact (stageBlocks_eval bf m t tab m i dj hi hdj w).2

lemma stagePairs_untouched (bf : ℕ → ℕ → ℕ → ℕ × ℕ) (m t : ℕ) (tab : ℕ → ℕ)
    (w : ℕ → ℕ) (x : ℕ) (hx : 2 * t * m ≤ x) :
    applyBfs bf (stagePairs m t tab) w x = w x := by
  rw [stagePairs_eq_blocks]
  apply applyBfs_untouched
  intro p hp
  have := stageBlocks_endpoints m t tab m p hp
  omega

lemma rInv_spec (q : ℕ) (h1 : 1 < q) (hco : Nat.Coprime q W64) :
    (W64 * rInv q) % q = 1 % q := by
  have hq0 : (q : ℤ) ≠ 0 := by exact_mod_cast (by omega : q ≠ 0)
  have hg : Nat.gcd (W64 % q) q = 1 := by
    rw [← Nat.gcd_rec q W64]
    exact hco
  have hbez := Nat.gcd_eq_gcd_ab (W64 % q) q
  rw [hg] at hbez
  set A := Nat.gcdA (W64 % q) q with hA
  have hxg : (Nat.xgcd (W64 % q) q).1 = A := by rw [Nat.xgcd_val]
  have hr : (rInv q : ℤ) = A % (q : ℤ) := by
    unfold rInv
    rw [hxg, Int.natCast_mod]
    rw [Int.toNat_of_nonneg (Int.emod_nonneg A hq0)]
    rw [Int.emod_emod_of_dvd A dvd_rfl]
  have hcast : ((W64 * rInv q) % q : ℕ) = ((1 % q : ℕ) : ℤ) →
      (W64 * rInv q) % q = 1 % q := fun h => by exact_mod_cast h
  have hmain : (((W64 * rInv q) % q : ℕ) : ℤ) = ((1 % q : ℕ) : ℤ) := by
    rw [Int.natCast_mod, Int.natCast_mod]
    push_cast
    rw [hr]
    conv_lhs => rw [Int.mul_emod]
    rw [Int.emod_emod_of_dvd A dvd_rfl]
    rw [← Int.mul_emod]
    have hW : (W64 : ℤ) % q = ((W64 % q : ℕ) : ℤ) := by
      rw [Int.natCast_mod]
    calc (W64 : ℤ) * A % q
        = ((W64 : ℤ) % q) * (A % q) % q := by rw [← Int.mul_emod]
      _ = (((W64 % q : ℕ) : ℤ)) * (A % q) % q := by rw [hW]
      _ = (((W64 % q : ℕ) : ℤ)) * A % q := by
          conv_lhs => rw [Int.mul_emod]
          conv_rhs => rw [Int.mul_emod]
          rw [Int.emod_emod_of_dvd A dvd_rfl]
      _ = (((W64 % q : ℕ) : ℤ) * A + (q : ℤ) * Nat.gcdB (W64 % q) q) % q := by
          rw [mul_comm (q : ℤ) _, Int.add_mul_emod_self]
      _ = (1 : ℤ) % q := by rw [← hbez]; norm_num
  exact hcast hmain

lemma mont_unit (q : ℕ) (h1 : 1 < q) (hco : Nat.Coprime q W64) :
    (W64 : ZMod q) * (rInv q : ZMod q) = 1 := by
  have h := rInv_spec q h1 hco
  have hc : (((W64 * rInv q) % q : ℕ) : ZMod q) = ((1 % q : ℕ) : ZMod q) := by
    rw [h]
  rw [ZMod.natCast_mod, ZMod.natCast_mod] at hc
  push_cast at hc
  exact hc

lemma primitiveRoot_spec (q : ℕ) (hq : Nat.Prime q) :
    isPrimRootNat (primitiveRoot q) q = true := by
  haveI : Fact (Nat.Prime q) := ⟨hq⟩
  haveI : NeZero q := ⟨hq.ne_zero⟩
  have hq1 : 1 < q := hq.one_lt
  obtain ⟨ζ, hζ⟩ := IsCyclic.exists_generator (α := (ZMod q)ˣ)
  have hord : orderOf ζ = q - 1 := by
    rw [← ZMod.card_units q, ← Nat.card_eq_fintype_card]
    exact orderOf_eq_card_of_forall_mem_zpowers hζ
  set g : ℕ := (ζ : ZMod q).val with hg
  have hglt : g < q := ZMod.val_lt _
  have hgcast : ((g : ℕ) : ZMod q) = (ζ : ZMod q) := ZMod.natCast_rightInverse _
  have hprop : isPrimRootNat g q = true := by
    unfold isPrimRootNat
    refine ((Bool.and_eq_true _ _).mpr ⟨(Bool.and_eq_true _ _).mpr ⟨?_, ?_⟩, ?_⟩)
    · rw [decide_eq_true_iff]
      rw [Nat.mod_eq_of_lt hglt]
      intro h0
      have : (ζ : ZMod q) = 0 := by
        rw [← hgcast, h0]
        simp
      exact ζ.ne_zero this
    · rw [decide_eq_true_iff]
      have hpow : ((g ^ (q - 1) : ℕ) : ZMod q) = 1 := by
        push_cast
        rw [hgcast]
        have : ζ ^ (q - 1) = 1 := by
          rw [← hord]
          exact pow_orderOf_eq_one ζ
        calc (ζ : ZMod q) ^ (q - 1) = ((ζ ^ (q - 1) : (ZMod q)ˣ) : ZMod q) := by
              rw [Units.val_pow_eq_pow_val]
          _ = ((1 : (ZMod q)ˣ) : ZMod q) := by rw [this]
          _ = 1 := rfl
      have := congrArg ZMod.val hpow
      rw [ZMod.val_natCast] at this
      rw [this]
      haveI : Fact (1 < q) := ⟨hq1⟩
      exact ZMod.val_one q
    · rw [decide_eq_true_iff]
      intro k hk hk0 hone
      have hpow : ((g ^ k : ℕ) : ZMod q) = 1 := by
        have h1q : (1 : ℕ) % q = 1 := Nat.mod_eq_of_lt hq1
        have : ((g ^ k % q : ℕ) : ZMod q) = ((1 : ℕ) : ZMod q) := by rw [hone]
        rw [ZMod.natCast_mod] at this
        simpa using this
      have hzk : ζ ^ k = 1 := by
        apply Units.ext
        rw [Units.val_pow_eq_pow_val]
        push_cast at hpow
        rw [hgcast] at hpow
        exact hpow
      have := orderOf_dvd_of_pow_eq_one hzk
      rw [hord] at this
      have := Nat.le_of_dvd hk0 this
      omega
  have hfind : ((List.range q).find? (fun g' => isPrimRootNat g' q)).isSome := by
    rw [List.find?_isSome]
    exact ⟨g, List.mem_range.mpr hglt, hprop⟩
  unfold primitiveRoot
  cases hfe : (List.range q).find? (fun g' => isPrimRootNat g' q) with
  | none => rw [hfe] at hfind; cases hfind
  | some g' =>
    simpa using List.find?_some hfe

/-- The j-th value written into the twiddle table: the Montgomery form of
`psi^j` as iterated `MRed` by `psiMont` from `MForm(1)`. -/
def powTab (q psiM : ℕ) : ℕ → ℕ
  | 0 => mForm 1 q
  | j + 1 => mRed (powTab q psiM j) psiM q

lemma bitRev_zero (len : ℕ) : bitRev len 0 = 0 := by
  induction len with
  | zero => rfl
  | succ len ih =>
    show bitRev len (0 / 2) + 0 % 2 * 2 ^ len = 0
    simpa using ih

lemma genTab_fold (n q psiM : ℕ) :
    ∀ (L : ℕ), L ≤ 2 ^ n - 1 →
    ∀ j ≤ L, ((List.range' 1 L).foldl
      (fun tab j' =>
        Function.update tab (bitRev n j') (mRed (tab (bitRev n (j' - 1))) psiM q))
      (Function.update (fun _ => 0) 0 (mForm 1 q))) (bitRev n j) =
      powTab q psiM j := by
  intro L
  induction L with
  | zero =>
    intro hL j hj
    have hj0 : j = 0 := by omega
    subst hj0
    rw [bitRev_zero]
    show Function.update (fun _ => 0) 0 (mForm 1 q) 0 = mForm 1 q
    rw [Function.update_same]
  | succ L ih =>
    intro hL j hj
    have h2 : (2 : ℕ) ^ n - 1 < 2 ^ n :=
      Nat.sub_lt (Nat.pos_pow_of_pos n (by norm_num)) (by norm_num)
    have hjlt : j < 2 ^ n := by omega
    have hL1lt : L + 1 < 2 ^ n := by omega
    have hLle : L ≤ 2 ^ n - 1 := by omega
    have hLsub : L + 1 - 1 = L := by omega
    have hcat : List.range' 1 (L + 1) = List.range' 1 L ++ [1 + 1 * L] :=
      List.range'_concat 1 L
    have h1L : 1 + 1 * L = L + 1 := by ring
    rcases Nat.lt_or_ge j (L + 1) with hjL | hjL
    · have hjle : j ≤ L := by omega
      have hne : j ≠ L + 1 := by omega
      rw [hcat, h1L, List.foldl_append]
      simp only [List.foldl_cons, List.foldl_nil]
      rw [Function.update_noteq]
      · exact ih hLle j hjle
      · intro hc
        exact absurd (bitRev_inj n j (L + 1) hjlt hL1lt hc) hne
    · have hje : j = L + 1 := by omega
      subst hje
      rw [hcat, h1L, List.foldl_append]
      simp only [List.foldl_cons, List.foldl_nil]
      have hprev := ih hLle L (le_refl L)
      rw [Function.update_same, hLsub, hprev]
      rfl

lemma genTab_powTab (n q psiM : ℕ) (j : ℕ) (hj : j < 2 ^ n) :
    genTab (2 ^ n) n q psiM (bitRev n j) = powTab q psiM j := by
  unfold genTab
  exact genTab_fold n q psiM (2 ^ n - 1) (le_refl _) j (by omega)

lemma powTab_cast (q psiM : ℕ) (j : ℕ) :
    ((powTab q psiM j : ℕ) : ZMod q) =
      (psiM : ZMod q) ^ j * (rInv q : ZMod q) ^ j * (W64 : ZMod q) := by
  induction j with
  | zero =>
    show ((mForm 1 q : ℕ) : ZMod q) = _
    unfold mForm
    rw [ZMod.natCast_mod]
    push_cast
    ring
  | succ j ih =>
    show ((mRed (powTab q psiM j) psiM q : ℕ) : ZMod q) = _
    unfold mRed
    rw [ZMod.natCast_mod]
    push_cast
    rw [ih]
    ring

lemma cast_goButterfly_fst (U V P q : ℕ) (hq : 0 < q) :
    (((goButterfly U V P q).1 : ℕ) : ZMod q) =
      (U : ZMod q) + (V : ZMod q) * (P : ZMod q) * (rInv q : ZMod q) := by
  unfold goButterfly mRedConstant
  dsimp only
  have hcq : ((2 * q : ℕ) : ZMod q) = 0 := by
    push_cast
    simp [ZMod.natCast_self]
  by_cases hU : U > 2 * q
  · rw [if_pos hU]
    push_cast [Nat.cast_sub (le_of_lt hU), ZMod.natCast_mod]
    rw [ZMod.natCast_self]
    ring
  · rw [if_neg hU]
    push_cast [ZMod.natCast_mod]
    ring

lemma cast_goButterfly_snd (U V P q : ℕ) (hq : 0 < q) :
    (((goButterfly U V P q).2 : ℕ) : ZMod q) =
      (U : ZMod q) - (V : ZMod q) * (P : ZMod q) * (rInv q : ZMod q) := by
  unfold goButterfly mRedConstant
  dsimp only
  have hVp : V * P * rInv q % q < q := Nat.mod_lt _ hq
  have hVple : V * P * rInv q % q ≤ 2 * q := by omega
  by_cases hU : U > 2 * q
  · rw [if_pos hU]
    have hle : V * P * rInv q % q ≤ U - 2 * q + 2 * q := by omega
    push_cast [Nat.cast_sub hle, Nat.cast_sub (le_of_lt hU), ZMod.natCast_mod]
    rw [ZMod.natCast_self]
    ring
  · rw [if_neg hU]
    have hle : V * P * rInv q % q ≤ U + 2 * q := by omega
    push_cast [Nat.cast_sub hle, ZMod.natCast_mod]
    rw [ZMod.natCast_self]
    ring

lemma cast_goInvButterfly_fst (U V P q : ℕ) :
    (((goInvButterfly U V P q).1 : ℕ) : ZMod q) = (U : ZMod q) + (V : ZMod q) := by
  unfold goInvButterfly
  dsimp only
  by_cases hX : U + V > 2 * q
  · rw [if_pos hX]
    push_cast [Nat.cast_sub (le_of_lt hX)]
    rw [ZMod.natCast_self]
    ring
  · rw [if_neg hX]
    push_cast
    ring

lemma cast_goInvButterfly_snd (U V P q : ℕ) (hVU : V ≤ U + 2 * q) :
    (((goInvButterfly U V P q).2 : ℕ) : ZMod q) =
      ((U : ZMod q) - (V : ZMod q)) * (P : ZMod q) * (rInv q : ZMod q) := by
  unfold goInvButterfly mRedConstant
  dsimp only
  push_cast [Nat.cast_sub hVU, ZMod.natCast_mod]
  rw [show ((2 : ZMod q)) * ((q : ℕ) : ZMod q) = 0 by simp [ZMod.natCast_self]]
  ring

lemma goInvButterfly_bound (U V P q : ℕ) (hq : 0 < q) (hU : U ≤ 2 * q)
    (hV : V ≤ 2 * q) :
    (goInvButterfly U V P q).1 ≤ 2 * q ∧ (goInvButterfly U V P q).2 ≤ 2 * q := by
  unfold goInvButterfly mRedConstant
  dsimp only
  constructor
  · by_cases hX : U + V > 2 * q
    · rw [if_pos hX]
      omega
    · rw [if_neg hX]
      omega
  · have := Nat.mod_lt ((U + 2 * q - V) * P * rInv q) hq
    omega

/-- The first `j` forward butterfly stages (`m = 1, 2, ..., 2^{j-1}`,
`t = N/(2m)`, `N = 2^n`), outermost stage last. -/
def fwdUpTo (n q : ℕ) (tab : ℕ → ℕ) : ℕ → (ℕ → ℕ) → (ℕ → ℕ)
  | 0, v => v
  | j + 1, v => applyBfs (fun U V P => goButterfly U V P q)
      (stagePairs (2 ^ j) (2 ^ n / 2 ^ (j + 1)) tab) (fwdUpTo n q tab j v)

/-- The matching inverse stages, applied in the opposite order (stage
`j - 1` first). -/
def invUpTo (n q : ℕ) (tabInv : ℕ → ℕ) : ℕ → (ℕ → ℕ) → (ℕ → ℕ)
  | 0, w => w
  | j + 1, w => invUpTo n q tabInv j
      (applyBfs (fun U V P => goInvButterfly U V P q)
        (stagePairs (2 ^ j) (2 ^ n / 2 ^ (j + 1)) tabInv) w)

/-- Forward stages `j, j+1, ..., j+d-1` in source order (the shape of the
`nttRounds` recursion). -/
def fwdFrom (n q : ℕ) (tab : ℕ → ℕ) : ℕ → ℕ → (ℕ → ℕ) → (ℕ → ℕ)
  | 0, _, v => v
  | d + 1, j, v => fwdFrom n q tab d (j + 1)
      (applyBfs (fun U V P => goButterfly U V P q)
        (stagePairs (2 ^ j) (2 ^ n / 2 ^ (j + 1)) tab) v)

lemma fwdFrom_outer (n q : ℕ) (tab : ℕ → ℕ) :
    ∀ d j v, fwdFrom n q tab (d + 1) j v =
      applyBfs (fun U V P => goButterfly U V P q)
        (stagePairs (2 ^ (j + d)) (2 ^ n / 2 ^ (j + d + 1)) tab)
        (fwdFrom n q tab d j v) := by
  intro d
  induction d with
  | zero =>
    intro j v
    show applyBfs _ _ v = _
    rw [Nat.add_zero]
    rfl
  | succ d ih =>
    intro j v
    show fwdFrom n q tab (d + 1) (j + 1) _ = _
    rw [ih (j + 1)]
    rw [Nat.add_right_comm j 1 d]
    rfl

lemma fwdUpTo_eq_fwdFrom (n q : ℕ) (tab : ℕ → ℕ) :
    ∀ j v, fwdUpTo n q tab j v = fwdFrom n q tab j 0 v := by
  intro j
  induction j with
  | zero => intro v; rfl
  | succ j ih =>
    intro v
    show applyBfs _ _ (fwdUpTo n q tab j v) = _
    rw [ih v, fwdFrom_outer n q tab j 0 v, Nat.zero_add]

lemma nttRounds_eq (n q : ℕ) (tab : ℕ → ℕ) :
    ∀ d j v, j + d = n →
      nttRounds (2 ^ n) q tab (2 ^ j) (2 ^ n / 2 ^ j) v = fwdFrom n q tab d j v := by
  intro d
  induction d with
  | zero =>
    intro j v hj
    have hje : j = n := by omega
    subst hje
    rw [nttRounds, dif_neg (fun hc => absurd hc.2 (lt_irrefl _))]
    rfl
  | succ d ih =>
    intro j v hj
    have hjn : j < n := by omega
    have hlt : (2 : ℕ) ^ j < 2 ^ n := Nat.pow_lt_pow_right (by norm_num) hjn
    rw [nttRounds, dif_pos ⟨Nat.pos_pow_of_pos j (by norm_num), hlt⟩]
    have h2m : 2 * 2 ^ j = 2 ^ (j + 1) := by rw [pow_succ]; ring
    have hdiv : 2 ^ n / 2 ^ j / 2 = 2 ^ n / 2 ^ (j + 1) := by
      rw [Nat.div_div_eq_div_mul, ← pow_succ]
    rw [h2m, hdiv]
    exact ih (j + 1) _ (by omega)

lemma invNttRounds_eq (n q : ℕ) (tabInv : ℕ → ℕ) :
    ∀ j, j ≤ n → ∀ w,
      invNttRounds (2 ^ n) q tabInv (2 ^ j) (2 ^ n / 2 ^ j) w =
        invUpTo n q tabInv j w := by
  intro j
  induction j with
  | zero =>
    intro hj w
    rw [invNttRounds, dif_neg (by norm_num)]
    rfl
  | succ j ih =>
    intro hj w
    have h1 : 1 < (2 : ℕ) ^ (j + 1) := Nat.one_lt_two_pow (by omega)
    rw [invNttRounds, dif_pos h1]
    have hm2 : 2 ^ (j + 1) / 2 = 2 ^ j := by
      rw [pow_succ]
      exact Nat.mul_div_cancel _ (by norm_num)
    have hdiv : 2 * (2 ^ n / 2 ^ (j + 1)) = 2 ^ n / 2 ^ j := by
      rw [Nat.pow_div (by omega) (by norm_num), Nat.pow_div (by omega) (by norm_num)]
      rw [← pow_succ']
      congr 1
      omega
    rw [hm2, hdiv]
    exact ih (by omega) _

lemma invUpTo_succ (n q : ℕ) (tabInv : ℕ → ℕ) (j : ℕ) (w : ℕ → ℕ) :
    invUpTo n q tabInv (j + 1) w = invUpTo n q tabInv j
      (applyBfs (fun U V P => goInvButterfly U V P q)
        (stagePairs (2 ^ j) (2 ^ n / 2 ^ (j + 1)) tabInv) w) := rfl

lemma goNTT_eq (n q j : ℕ) (hj : j + 1 = n) (tab : ℕ → ℕ) (vIn : ℕ → ℕ)
    (x : ℕ) (hx : x < 2 ^ n) :
    goNTT (2 ^ n) q tab vIn x = fwdUpTo n q tab (j + 1) vIn x % q := by
  have hup : fwdUpTo n q tab (j + 1) vIn = fwdFrom n q tab j 1
      (applyBfs (fun U V P => goButterfly U V P q)
        (stagePairs (2 ^ 0) (2 ^ n / 2 ^ 1) tab) vIn) := by
    rw [fwdUpTo_eq_fwdFrom]
    rfl
  have hr := nttRounds_eq n q tab j 1
    (applyBfs (fun U V P => goButterfly U V P q)
      (stagePairs (2 ^ 0) (2 ^ n / 2 ^ 1) tab) vIn) (by omega)
  unfold goNTT
  rw [if_pos hx]
  unfold bredAdd
  rw [hup]
  exact congrArg (fun z => z % q) (congrFun hr x)

lemma goInvNTT_eq (n q j : ℕ) (hj : j + 1 = n) (tabInv : ℕ → ℕ) (nInv : ℕ)
    (w : ℕ → ℕ) (x : ℕ) (hx : x < 2 ^ n) :
    goInvNTT (2 ^ n) q tabInv nInv w x =
      mRed (invUpTo n q tabInv (j + 1) w x) nInv q := by
  have ej : (2 : ℕ) ^ n / 2 = 2 ^ j := by
    rw [← hj, pow_succ, Nat.mul_div_cancel _ (by norm_num)]
  have et : (2 : ℕ) ^ n / 2 ^ (j + 1) = 1 := by
    rw [← hj]
    exact Nat.div_self (Nat.pos_pow_of_pos _ (by norm_num))
  have e2 : (2 : ℕ) ^ n / 2 ^ j = 2 := by
    rw [← hj, pow_succ, Nat.mul_div_cancel_left _ (Nat.pos_pow_of_pos _ (by norm_num))]
  have hr := invNttRounds_eq n q tabInv j (by omega)
    (applyBfs (fun U V P => goInvButterfly U V P q)
      (stagePairs (2 ^ j) (2 ^ n / 2 ^ (j + 1)) tabInv) w)
  rw [e2, et] at hr
  unfold goInvNTT
  rw [if_pos hx]
  rw [invUpTo_succ, et, ej]
  exact congrArg (fun z => mRed z nInv q) (congrFun hr x)

lemma two_t_m (n j : ℕ) (hj : j < n) :
    2 * (2 ^ n / 2 ^ (j + 1)) * 2 ^ j = 2 ^ n := by
  rw [Nat.pow_div (by omega) (by norm_num), ← pow_succ', ← pow_add]
  congr 1
  omega

lemma stage_cancel (n q : ℕ) (hq : 0 < q) (tab tabInv : ℕ → ℕ) (j : ℕ)
    (hj : j < n)
    (htt : ∀ k, 0 < k → k < 2 ^ n →
      (tab k : ZMod q) * (tabInv k : ZMod q) * (rInv q : ZMod q) ^ 2 = 1)
    (c : ZMod q) (u w : ℕ → ℕ)
    (hw : ∀ x < 2 ^ n, (w x : ZMod q) =
      c * ((applyBfs (fun U V P => goButterfly U V P q)
        (stagePairs (2 ^ j) (2 ^ n / 2 ^ (j + 1)) tab) u x : ℕ) : ZMod q))
    (hwb : ∀ x < 2 ^ n, w x ≤ 2 * q) :
    ∀ x < 2 ^ n,
      ((applyBfs (fun U V P => goInvButterfly U V P q)
        (stagePairs (2 ^ j) (2 ^ n / 2 ^ (j + 1)) tabInv) w x : ℕ) : ZMod q) =
        2 * c * (u x : ZMod q) ∧
      applyBfs (fun U V P => goInvButterfly U V P q)
        (stagePairs (2 ^ j) (2 ^ n / 2 ^ (j + 1)) tabInv) w x ≤ 2 * q := by
  set m := 2 ^ j with hm
  set t := 2 ^ n / 2 ^ (j + 1) with ht_def
  have ht : 0 < t := by
    rw [ht_def, Nat.pow_div (by omega) (by norm_num)]
    exact Nat.pos_pow_of_pos _ (by norm_num)
  have htm : 2 * t * m = 2 ^ n := two_t_m n j hj
  have h2t : 0 < 2 * t := by omega
  have hmpos : 0 < m := Nat.pos_pow_of_pos _ (by norm_num)
  have hmlt : ∀ i < m, m + i < 2 ^ n := by
    intro i hi
    have h1 : m + i < 2 * m := by omega
    have h2 : 2 * m = 2 ^ (j + 1) := by rw [hm, pow_succ]; ring
    have h3 : (2:ℕ) ^ (j + 1) ≤ 2 ^ n := Nat.pow_le_pow_right (by norm_num) (by omega)
    omega
  intro x hx
  have hdecomp : ∃ i r, i < m ∧ r < 2 * t ∧ x = 2 * t * i + r := by
    refine ⟨x / (2 * t), x % (2 * t), ?_, Nat.mod_lt _ h2t, ?_⟩
    · refine (Nat.div_lt_iff_lt_mul h2t).mpr ?_
      rw [show m * (2 * t) = 2 * t * m by ring, htm]
      exact hx
    · have := Nat.div_add_mod x (2 * t)
      omega
  obtain ⟨i, r, hi, hr2t, hxe⟩ := hdecomp
  subst hxe
  have hblock : 2 * t * i + 2 * t ≤ 2 ^ n := by
    have h := Nat.mul_le_mul_left (2 * t) (show i + 1 ≤ m by omega)
    rw [Nat.mul_succ] at h
    rw [← htm]
    exact h
  have hki : 0 < m + i ∧ m + i < 2 ^ n := ⟨by omega, hmlt i hi⟩
  by_cases hrt : r < t
  · have hxlt : 2 * t * i + r < 2 ^ n := hx
    have hxtlt : 2 * t * i + r + t < 2 ^ n := by omega
    constructor
    · rw [stagePairs_eval_a (fun U V P => goInvButterfly U V P q) m t tabInv
        i r hi hrt w]
      rw [cast_goInvButterfly_fst]
      rw [hw _ hxlt, hw _ hxtlt]
      rw [stagePairs_eval_a (fun U V P => goButterfly U V P q) m t tab
        i r hi hrt u]
      rw [stagePairs_eval_b (fun U V P => goButterfly U V P q) m t tab
        i r hi hrt u]
      rw [cast_goButterfly_fst _ _ _ _ hq, cast_goButterfly_snd _ _ _ _ hq]
      ring
    · rw [stagePairs_eval_a (fun U V P => goInvButterfly U V P q) m t tabInv
        i r hi hrt w]
      exact (goInvButterfly_bound _ _ _ _ hq (hwb _ hxlt) (hwb _ hxtlt)).1
  · have hdjt : r - t < t := by omega
    have hre : 2 * t * i + r = 2 * t * i + (r - t) + t := by omega
    rw [hre] at hx ⊢
    have hxalt : 2 * t * i + (r - t) < 2 ^ n := by omega
    have hxlt : 2 * t * i + (r - t) + t < 2 ^ n := hx
    constructor
    · rw [stagePairs_eval_b (fun U V P => goInvButterfly U V P q) m t tabInv
        i (r - t) hi hdjt w]
      rw [cast_goInvButterfly_snd _ _ _ _
        (le_trans (hwb _ hxlt) (Nat.le_add_left _ _))]
      rw [hw _ hxalt, hw _ hxlt]
      rw [stagePairs_eval_a (fun U V P => goButterfly U V P q) m t tab
        i (r - t) hi hdjt u]
      rw [stagePairs_eval_b (fun U V P => goButterfly U V P q) m t tab
        i (r - t) hi hdjt u]
      rw [cast_goButterfly_fst _ _ _ _ hq, cast_goButterfly_snd _ _ _ _ hq]
      have htw := htt (m + i) hki.1 hki.2
      calc (c * ((u (2 * t * i + (r - t)) : ZMod q) +
              (u (2 * t * i + (r - t) + t) : ZMod q) * (tab (m + i) : ZMod q) *
                (rInv q : ZMod q)) -
            c * ((u (2 * t * i + (r - t)) : ZMod q) -
              (u (2 * t * i + (r - t) + t) : ZMod q) * (tab (m + i) : ZMod q) *
                (rInv q : ZMod q))) * (tabInv (m + i) : ZMod q) *
            (rInv q : ZMod q)
          = 2 * c * (u (2 * t * i + (r - t) + t) : ZMod q) *
            ((tab (m + i) : ZMod q) * (tabInv (m + i) : ZMod q) *
              (rInv q : ZMod q) ^ 2) := by ring
        _ = 2 * c * (u (2 * t * i + (r - t) + t) : ZMod q) := by
            rw [htw, mul_one]
    · rw [stagePairs_eval_b (fun U V P => goInvButterfly U V P q) m t tabInv
        i (r - t) hi hdjt w]
      exact (goInvButterfly_bound _ _ _ _ hq (hwb _ hxalt) (hwb _ hxlt)).2

lemma ntt_chain (n q : ℕ) (hq : 0 < q) (tab tabInv : ℕ → ℕ)
    (htt : ∀ k, 0 < k → k < 2 ^ n →
      (tab k : ZMod q) * (tabInv k : ZMod q) * (rInv q : ZMod q) ^ 2 = 1) :
    ∀ j, j ≤ n → ∀ (c : ZMod q) (v w : ℕ → ℕ),
      (∀ x < 2 ^ n, (w x : ZMod q) = c * ((fwdUpTo n q tab j v x : ℕ) : ZMod q)) →
      (∀ x < 2 ^ n, w x ≤ 2 * q) →
      ∀ x < 2 ^ n, ((invUpTo n q tabInv j w x : ℕ) : ZMod q) =
        c * 2 ^ j * ((v x : ℕ) : ZMod q) := by
  intro j
  induction j with
  | zero =>
    intro hj c v w hw hwb x hx
    show ((w x : ℕ) : ZMod q) = _
    rw [hw x hx]
    show c * ((v x : ℕ) : ZMod q) = c * 2 ^ 0 * ((v x : ℕ) : ZMod q)
    ring
  | succ j ih =>
    intro hj c v w hw hwb
    have hstep := stage_cancel n q hq tab tabInv j (by omega) htt c
      (fwdUpTo n q tab j v) w
      (fun x hx => by rw [hw x hx]; rfl) hwb
    have ih2 := ih (by omega) (2 * c) v
      (applyBfs (fun U V P => goInvButterfly U V P q)
        (stagePairs (2 ^ j) (2 ^ n / 2 ^ (j + 1)) tabInv) w)
      (fun x hx => (hstep x hx).1)
      (fun x hx => (hstep x hx).2)
    intro x hx
    exact (ih2 x hx).trans (by ring)

lemma coprime_W64 (q : ℕ) (hq : Nat.Prime q) (hq2 : q ≠ 2) :
    Nat.Coprime q W64 := by
  show Nat.Coprime q (2 ^ 64)
  refine (Nat.Prime.coprime_iff_not_dvd hq).mpr (fun hd => hq2 ?_)
  exact (Nat.prime_dvd_prime_iff_eq hq Nat.prime_two).mp (hq.dvd_of_dvd_pow hd)

lemma log2_two_pow (n : ℕ) : Nat.log2 (2 ^ n) = n := by
  rw [Nat.log2_eq_log_two]
  exact Nat.log_pow (by norm_num) n

lemma cast_mForm_modExp (g e q : ℕ) :
    ((mForm (modExp g e q) q : ℕ) : ZMod q) =
      ((g : ℕ) : ZMod q) ^ e * ((W64 : ℕ) : ZMod q) := by
  unfold mForm modExp
  rw [ZMod.natCast_mod]
  push_cast [ZMod.natCast_mod]
  ring

lemma genNtt_table_product (n q : ℕ) (hq : Nat.Prime q) (hq2 : q ≠ 2) :
    ∀ k, k < 2 ^ n →
      (((genNttParamsFor (2 ^ n) q).tab k : ℕ) : ZMod q) *
        (((genNttParamsFor (2 ^ n) q).tabInv k : ℕ) : ZMod q) *
        ((rInv q : ℕ) : ZMod q) ^ 2 = 1 := by
  intro k hk
  have hq1 : 1 < q := hq.one_lt
  have hWR : ((W64 : ℕ) : ZMod q) * ((rInv q : ℕ) : ZMod q) = 1 :=
    mont_unit q hq1 (coprime_W64 q hq hq2)
  set g := primitiveRoot q with hgdef
  have hroot := primitiveRoot_spec q hq
  unfold isPrimRootNat at hroot
  rw [Bool.and_eq_true, Bool.and_eq_true, decide_eq_true_iff, decide_eq_true_iff,
    decide_eq_true_iff] at hroot
  have hgq : ((g : ℕ) : ZMod q) ^ (q - 1) = 1 := by
    have h := hroot.1.2
    have hc : ((g ^ (q - 1) % q : ℕ) : ZMod q) = ((1 : ℕ) : ZMod q) := by rw [h]
    rw [ZMod.natCast_mod] at hc
    push_cast at hc
    exact hc
  set power := (q - 1) / (2 * 2 ^ n) with hpw
  have hple : power ≤ q - 1 := Nat.div_le_self _ _
  have hsum : power + ((q - 1) - power) = q - 1 := by omega
  have hj := bitRev_lt n k
  have hkj : bitRev n (bitRev n k) = k := bitRev_bitRev n k hk
  have htab : (genNttParamsFor (2 ^ n) q).tab k =
      powTab q (mForm (modExp g power q) q) (bitRev n k) := by
    show genTab (2 ^ n) (Nat.log2 (2 ^ n)) q (mForm (modExp g power q) q) k = _
    rw [log2_two_pow]
    conv_lhs => rw [← hkj]
    exact genTab_powTab n q _ (bitRev n k) hj
  have htabInv : (genNttParamsFor (2 ^ n) q).tabInv k =
      powTab q (mForm (modExp g ((q - 1) - power) q) q) (bitRev n k) := by
    show genTab (2 ^ n) (Nat.log2 (2 ^ n)) q
      (mForm (modExp g ((q - 1) - power) q) q) k = _
    rw [log2_two_pow]
    conv_lhs => rw [← hkj]
    exact genTab_powTab n q _ (bitRev n k) hj
  rw [htab, htabInv, powTab_cast, powTab_cast, cast_mForm_modExp, cast_mForm_modExp]
  set gc := ((g : ℕ) : ZMod q)
  set Wc := ((W64 : ℕ) : ZMod q)
  set Rc := ((rInv q : ℕ) : ZMod q)
  set j := bitRev n k
  calc (gc ^ power * Wc) ^ j * Rc ^ j * Wc *
        ((gc ^ ((q - 1) - power) * Wc) ^ j * Rc ^ j * Wc) * Rc ^ 2
      = (gc ^ power * gc ^ ((q - 1) - power)) ^ j * ((Wc * Rc) ^ j *
        ((Wc * Rc) ^ j * ((Wc * Rc) * (Wc * Rc)))) := by ring
    _ = 1 := by
        rw [← pow_add gc, hsum, hgq, hWR]
        simp

lemma row_core (n q : ℕ) (hn : 1 ≤ n) (hq : Nat.Prime q) (hq2 : q ≠ 2)
    (v wt : ℕ → ℕ)
    (hwt : ∀ x < 2 ^ n, wt x = goNTT (2 ^ n) q (genNttParamsFor (2 ^ n) q).tab v x)
    (x : ℕ) (hx : x < 2 ^ n) (hvx : v x < q) :
    goInvNTT (2 ^ n) q (genNttParamsFor (2 ^ n) q).tabInv
      (genNttParamsFor (2 ^ n) q).nInv wt x = v x := by
  haveI : Fact (Nat.Prime q) := ⟨hq⟩
  haveI : NeZero q := ⟨hq.ne_zero⟩
  have hq1 : 1 < q := hq.one_lt
  have hq0 : 0 < q := by omega
  have hq3 : 3 ≤ q := by
    have h2 := hq.two_le
    rcases Nat.eq_or_lt_of_le h2 with he | hlt
    · exact absurd he.symm hq2
    · omega
  obtain ⟨j, hj⟩ : ∃ j, j + 1 = n := ⟨n - 1, by omega⟩
  set tab := (genNttParamsFor (2 ^ n) q).tab
  set tabInv := (genNttParamsFor (2 ^ n) q).tabInv
  have htt := genNtt_table_product n q hq hq2
  have hw : ∀ y < 2 ^ n, ((wt y : ℕ) : ZMod q) =
      1 * ((fwdUpTo n q tab n v y : ℕ) : ZMod q) := by
    intro y hy
    rw [hwt y hy, goNTT_eq n q j hj tab v y hy, hj, ZMod.natCast_mod, one_mul]
  have hwb : ∀ y < 2 ^ n, wt y ≤ 2 * q := by
    intro y hy
    rw [hwt y hy, goNTT_eq n q j hj tab v y hy]
    have := Nat.mod_lt (fwdUpTo n q tab (j + 1) v y) hq0
    omega
  have hchain := ntt_chain n q hq0 tab tabInv
    (fun k hk0 hk => htt k hk) n (le_refl n) 1 v wt hw hwb x hx
  have hout := goInvNTT_eq n q j hj tabInv (genNttParamsFor (2 ^ n) q).nInv
    wt x hx
  rw [hj] at hout
  rw [hout]
  have h2ne : ((2 : ℕ) : ZMod q) ≠ 0 := by
    rw [Ne, ZMod.natCast_zmod_eq_zero_iff_dvd]
    intro hd
    have := Nat.le_of_dvd (by norm_num) hd
    omega
  have hNne : (((2 ^ n : ℕ) : ℕ) : ZMod q) ≠ 0 := by
    push_cast
    exact pow_ne_zero n h2ne
  have hNferm : (((2 ^ n : ℕ) : ℕ) : ZMod q) ^ (q - 1) = 1 :=
    ZMod.pow_card_sub_one_eq_one hNne
  have hcast : ((mRed (invUpTo n q tabInv n wt x)
      (genNttParamsFor (2 ^ n) q).nInv q : ℕ) : ZMod q) = ((v x : ℕ) : ZMod q) := by
    unfold mRed
    rw [ZMod.natCast_mod]
    push_cast
    rw [hchain]
    have hnInv : (((genNttParamsFor (2 ^ n) q).nInv : ℕ) : ZMod q) =
        (((2 ^ n : ℕ) : ℕ) : ZMod q) ^ (q - 2) * ((W64 : ℕ) : ZMod q) := by
      show ((mForm (modExp (2 ^ n) (q - 2) q) q : ℕ) : ZMod q) = _
      rw [cast_mForm_modExp]
    rw [hnInv]
    have hWR : ((W64 : ℕ) : ZMod q) * ((rInv q : ℕ) : ZMod q) = 1 :=
      mont_unit q hq1 (coprime_W64 q hq hq2)
    have hNpow : (((2 ^ n : ℕ) : ℕ) : ZMod q) = ((2 : ℕ) : ZMod q) ^ n := by
      push_cast
      ring
    calc (1 : ZMod q) * 2 ^ n * ((v x : ℕ) : ZMod q) *
          ((((2 ^ n : ℕ) : ℕ) : ZMod q) ^ (q - 2) * ((W64 : ℕ) : ZMod q)) *
          ((rInv q : ℕ) : ZMod q)
        = ((v x : ℕ) : ZMod q) * ((((2:ℕ) : ZMod q) ^ n) *
            ((((2 ^ n : ℕ) : ℕ) : ZMod q) ^ (q - 2))) *
            (((W64 : ℕ) : ZMod q) * ((rInv q : ℕ) : ZMod q)) := by
          push_cast
          ring
      _ = ((v x : ℕ) : ZMod q) := by
          rw [← hNpow, hWR, mul_one]
          have : (((2 ^ n : ℕ) : ℕ) : ZMod q) *
              (((2 ^ n : ℕ) : ℕ) : ZMod q) ^ (q - 2) =
              (((2 ^ n : ℕ) : ℕ) : ZMod q) ^ (q - 1) := by
            rw [← pow_succ']
            congr 1
            omega
          rw [this, hNferm, mul_one]
  have hltq : mRed (invUpTo n q tabInv n wt x)
      (genNttParamsFor (2 ^ n) q).nInv q < q := Nat.mod_lt _ hq0
  have hval := congrArg ZMod.val hcast
  rw [ZMod.val_cast_of_lt hltq, ZMod.val_cast_of_lt hvx] at hval
  exact hval

lemma listOfRow_length (N : ℕ) (f : ℕ → ℕ) : (listOfRow N f).length = N := by
  unfold listOfRow
  rw [List.length_map, List.length_range]

lemma listOfRow_getElem (N : ℕ) (f : ℕ → ℕ) (y : ℕ) (hy : y < N) :
    (listOfRow N f).getD y 0 = f y := by
  unfold listOfRow
  exact getD_range_map N f 0 y hy

lemma rowOfList_listOfRow (N : ℕ) (f : ℕ → ℕ) (y : ℕ) (hy : y < N) :
    rowOfList (listOfRow N f) y = f y := by
  unfold rowOfList
  exact listOfRow_getElem N f y hy

lemma listOfRow_getElem2 (N : ℕ) (f : ℕ → ℕ) (y : ℕ)
    (hy : y < (listOfRow N f).length) : (listOfRow N f)[y] = f y := by
  unfold listOfRow at hy ⊢
  rw [List.getElem_map, List.getElem_range]

/-- C4: for every ring degree `N = 2^n` and every modulus slice of primes
congruent to `1 mod 2N` (the `AllowsNTT` condition), the inverse transform
undoes the forward transform exactly: `InvNTT(NTT(p)) = p` row by row for
every polynomial whose rows have length `N` and canonical residues. -/
theorem C4_ntt_invntt_roundtrip (n : ℕ) (hn : 1 ≤ n) (mods : List ℕ)
    (p : RPoly) (hlen : p.Coeffs.length = mods.length)
    (hq : ∀ q ∈ mods, Nat.Prime q ∧ q % (2 * 2 ^ n) = 1)
    (hrow : ∀ i < p.Coeffs.length, (p.Coeffs.getD i []).length = 2 ^ n ∧
      ∀ c ∈ p.Coeffs.getD i [], c < mods.getD i 0) :
    ctxInvNTT (2 ^ n) mods (ctxNTT (2 ^ n) mods p) = p := by
  unfold ctxInvNTT ctxNTT
  cases p with
  | mk coeffs =>
    simp only at hlen hrow ⊢
    congr 1
    apply List.ext_getElem
    · rw [List.length_mapIdx, List.length_mapIdx]
    · intro i hi1 hi2
      rw [List.length_mapIdx, List.length_mapIdx] at hi1
      rw [List.getElem_mapIdx, List.getElem_mapIdx]
      have himods : i < mods.length := by rw [← hlen]; exact hi1
      have hqi : mods.get? i = some (mods.getD i 0) := by
        rw [List.get?_eq_getElem?, List.getElem?_eq_getElem himods,
          List.getD_eq_getElem _ _ himods]
      rw [hqi]
      set q := mods.getD i 0 with hqdef
      have hqmem : q ∈ mods := by
        rw [hqdef, List.getD_eq_getElem _ _ himods]
        exact List.getElem_mem _
      obtain ⟨hqp, hqmod⟩ := hq q hqmem
      have hq2 : q ≠ 2 := by
        intro he
        have h4 : 4 ≤ 2 * 2 ^ n := by
          have : (2:ℕ) ≤ 2 ^ n := by
            calc (2:ℕ) = 2 ^ 1 := by norm_num
            _ ≤ 2 ^ n := Nat.pow_le_pow_right (by norm_num) hn
          omega
        rw [he, Nat.mod_eq_of_lt (by omega)] at hqmod
        omega
      obtain ⟨hrlen, hrcan⟩ := hrow i hi2
      rw [List.getD_eq_getElem _ _ hi2] at hrlen hrcan
      apply List.ext_getElem
      · rw [listOfRow_length, hrlen]
      · intro y hy1 hy2
        have hylt : y < 2 ^ n := by
          rw [listOfRow_length] at hy1
          exact hy1
        rw [listOfRow_getElem2 _ _ _ hy1]
        have hval := row_core n q hn hqp hq2 (rowOfList coeffs[i])
          (rowOfList (listOfRow (2 ^ n) (goNTT (2 ^ n) q
            (genNttParamsFor (2 ^ n) q).tab (rowOfList coeffs[i]))))
          (fun x hx => rowOfList_listOfRow _ _ x hx) y hylt ?_
        · rw [hval]
          unfold rowOfList
          exact List.getD_eq_getElem _ _ hy2
        · show rowOfList coeffs[i] y < q
          unfold rowOfList
          rw [List.getD_eq_getElem _ _ (by omega : y < coeffs[i].length)]
          exact hrcan _ (List.getElem_mem _)

theorem C4_ntt_invntt_roundtrip_witness :
    (∀ q ∈ [5], Nat.Prime q ∧ q % (2 * 2 ^ 1) = 1) ∧
    ctxInvNTT (2 ^ 1) [5] (ctxNTT (2 ^ 1) [5] ⟨[[3, 4]]⟩) = ⟨[[3, 4]]⟩ :=
  ⟨by decide,
   C4_ntt_invntt_roundtrip 1 (by decide) [5] ⟨[[3, 4]]⟩ rfl (by decide)
     (by decide)⟩
